import Mathlib

/-!
Crux toolkit: the spectrum peak model, the spectrum parsers and printer, the Weibull fit,
quicksort, string and number utilities, match ranking and decoy q-values.

A shallow embedding of parts of `src/c/Spectrum.cpp` and `src/c/crux-utils.c`, with the
declarations of `src/c/Match.h` and `src/c/q-value.h`.
`FLOAT_T`, `float` and `double` values are modelled by exact numbers (rationals for the
spectrum, an ordered field with explicit `log`, `exp`, `sqrt` for the Weibull fit), C `int`
values by `ℤ` (the conversion of a floating-point value to `int` is confined to the 32-bit
range), C strings by `List Char`, and `std::vector` by `List`.
-/

set_option autoImplicit false

namespace Crux

/-! ## Peaks (`peak.h`, `peak.c`) -/

/-- The peak record `PEAK_T` of `peak.h` (the header is not among the sources): the fields
`intensity` and `location` set by `new_peak`, and the normalized intensity rank written by
`set_peak_intensity_rank` in `Spectrum::rankPeaks`. -/
structure PEAK_T where
  intensity : ℚ
  intensity_rank : ℚ
  location : ℚ
deriving DecidableEq

/-- The allocator `new_peak(intensity, location)`: only intensity and location are set by the
source; the rank field is not read before `rankPeaks` writes it and is taken as `0`. -/
def new_peak (intensity location : ℚ) : PEAK_T :=
  { intensity := intensity, intensity_rank := 0, location := location }

/-- The field accessor `get_peak_intensity` (`peak_intensity` in `peak.c`). -/
def get_peak_intensity (peak : PEAK_T) : ℚ := peak.intensity

/-- The field accessor `get_peak_location` (`peak_location` in `peak.c`). -/
def get_peak_location (peak : PEAK_T) : ℚ := peak.location

/-- The field setter `set_peak_intensity`. -/
def set_peak_intensity (peak : PEAK_T) (intensity : ℚ) : PEAK_T :=
  { peak with intensity := intensity }

/-- The field setter `set_peak_intensity_rank`. -/
def set_peak_intensity_rank (peak : PEAK_T) (rank : ℚ) : PEAK_T :=
  { peak with intensity_rank := rank }

/-! ## Charge states (`SpectrumZState`; the class is not among the sources) -/

/-- Modelled from the spec: the value type ZState, "charge: int, neutral_mass or
singly_charged_mass or m/z — mutually derivable"; the charge and the neutral mass are
stored. -/
structure SpectrumZState where
  charge_ : ℤ
  neutral_mass_ : ℚ
deriving DecidableEq

/-- The default constructor `SpectrumZState()`; the fields are taken as `0`. -/
def SpectrumZState.new : SpectrumZState :=
  { charge_ := 0, neutral_mass_ := 0 }

/-- Modelled from the spec: `SpectrumZState::setSinglyChargedMass(mph, charge)`, from
"singly_charged_mass = mass + proton_mass".  `MASS_PROTON` is the proton mass constant. -/
def SpectrumZState.setSinglyChargedMass (MASS_PROTON : ℚ) (_ : SpectrumZState) (mph : ℚ)
    (charge : ℤ) : SpectrumZState :=
  { charge_ := charge, neutral_mass_ := mph - MASS_PROTON }

/-- Modelled from the spec: `SpectrumZState::setMZ(mz, charge)`, the inverse of
"mz = (mass + charge·proton_mass) / charge". -/
def SpectrumZState.setMZ (MASS_PROTON : ℚ) (_ : SpectrumZState) (mz : ℚ) (charge : ℤ) :
    SpectrumZState :=
  { charge_ := charge, neutral_mass_ := mz * (charge : ℚ) - (charge : ℚ) * MASS_PROTON }

/-- Modelled from the spec: `SpectrumZState::getCharge()`. -/
def SpectrumZState.getCharge (z : SpectrumZState) : ℤ := z.charge_

/-- Modelled from the spec: `SpectrumZState::getNeutralMass()`. -/
def SpectrumZState.getNeutralMass (z : SpectrumZState) : ℚ := z.neutral_mass_

/-- Modelled from the spec: `SpectrumZState::getSinglyChargedMass()`,
"singly_charged_mass = mass + proton_mass". -/
def SpectrumZState.getSinglyChargedMass (MASS_PROTON : ℚ) (z : SpectrumZState) : ℚ :=
  z.neutral_mass_ + MASS_PROTON

/-- Modelled from the spec: `SpectrumZState::getMZ()`,
"mz = (mass + charge·proton_mass) / charge". -/
def SpectrumZState.getMZ (MASS_PROTON : ℚ) (z : SpectrumZState) : ℚ :=
  (z.neutral_mass_ + (z.charge_ : ℚ) * MASS_PROTON) / (z.charge_ : ℚ)

/-! ## Spectrum (`Spectrum.cpp`) -/

/-- The member data of `Spectrum` used by the peak operations and the parsers (strings are
lists of characters).  `mz_peak_array_` is the bucket
table `PEAK_T**`: `none` is a pointer that does not point to an allocated table (`NULL`, or
the indeterminate value the copy constructor leaves), `some t` an allocated table whose slot
`i` holds `t i` (`none` for `NULL`, `some p` for a pointer to peak `p`).  A pointer to a peak
is modelled by the value of the peak at the time the table is built. -/
structure Spectrum where
  first_scan_ : ℤ
  last_scan_ : ℤ
  precursor_mz_ : ℚ
  peaks_ : List PEAK_T
  min_peak_mz_ : ℚ
  max_peak_mz_ : ℚ
  total_energy_ : ℚ
  has_peaks_ : Bool
  sorted_by_mz_ : Bool
  sorted_by_intensity_ : Bool
  has_mz_peak_array_ : Bool
  mz_peak_array_ : Option (ℤ → Option PEAK_T)
  zstates_ : List SpectrumZState
  filename_ : List Char
  i_lines_v_ : List (List Char)
  d_lines_v_ : List (List Char)

/-- The default constructor `Spectrum::Spectrum()`. -/
def Spectrum.new : Spectrum :=
  { first_scan_ := 0
    last_scan_ := 0
    precursor_mz_ := 0
    peaks_ := []
    min_peak_mz_ := 0
    max_peak_mz_ := 0
    total_energy_ := 0
    has_peaks_ := false
    sorted_by_mz_ := false
    sorted_by_intensity_ := false
    has_mz_peak_array_ := false
    mz_peak_array_ := none
    zstates_ := []
    filename_ := []
    i_lines_v_ := []
    d_lines_v_ := [] }

/-- The method `Spectrum::updateFields(intensity, location)`, called after the new peak has
been pushed onto `peaks_`. -/
def Spectrum.updateFields (s : Spectrum) (intensity location : ℚ) : Spectrum :=
  { s with
    min_peak_mz_ :=
      if s.peaks_.length = 1 ∨ s.min_peak_mz_ > location then location else s.min_peak_mz_
    max_peak_mz_ :=
      if s.peaks_.length = 1 ∨ s.max_peak_mz_ < location then location else s.max_peak_mz_
    total_energy_ := s.total_energy_ + intensity }

/-- The method `Spectrum::addPeak(intensity, location_mz)`.  The C++ method always returns
`true`; the model returns the updated spectrum. -/
def Spectrum.addPeak (s : Spectrum) (intensity location_mz : ℚ) : Spectrum :=
  let peak := new_peak intensity location_mz
  let s1 := { s with peaks_ := s.peaks_ ++ [peak] }
  let s2 := s1.updateFields intensity location_mz
  { s2 with has_peaks_ := true }

/-- The method `Spectrum::getMinPeakMz()`. -/
def Spectrum.getMinPeakMz (s : Spectrum) : ℚ := s.min_peak_mz_

/-- The method `Spectrum::getMaxPeakMz()`. -/
def Spectrum.getMaxPeakMz (s : Spectrum) : ℚ := s.max_peak_mz_

/-- The method `Spectrum::getNumPeaks()`: `(int) peaks_.size()`. -/
def Spectrum.getNumPeaks (s : Spectrum) : ℤ := (s.peaks_.length : ℤ)

/-- The method `Spectrum::getTotalEnergy()`. -/
def Spectrum.getTotalEnergy (s : Spectrum) : ℚ := s.total_energy_

/-- A sequence of `addPeak(intensity, mz)` calls, in order, on the spectrum `s`. -/
def Spectrum.addPeaks (s : Spectrum) (calls : List (ℚ × ℚ)) : Spectrum :=
  calls.foldl (fun acc c => acc.addPeak c.1 c.2) s

/-! ### Failure outcomes -/

/-- Ways in which a run of the C/C++ code does not return to its caller:
`carp(CARP_FATAL, ...)` ends the process, an access outside an allocated array or string or
through a pointer that holds no object has no defined result, and a C++ exception that
nothing catches ends the process. -/
inductive Abort where
  | carp_fatal
  | out_of_bounds
  | invalid_pointer
  | uncaught_exception
deriving DecidableEq

/-! ### The bucket table -/

/-- The least value `INT_MIN` of the 32-bit type `int`. -/
def INT_MIN : ℤ := -2147483648

/-- The greatest value `INT_MAX` of the 32-bit type `int`. -/
def INT_MAX : ℤ := 2147483647

/-- The macros `MAX_PEAK_MZ` and `MZ_TO_PEAK_ARRAY_RESOLUTION` of `Spectrum.h` and `BILLION`
of `utils.h`.  The headers are not among the sources, so the values are parameters of the
model; the two table macros are integer constants.  The source stores their product in the
`int` variables `array_length` and `absolute_max_mz_idx` and allocates a table of that many
slots, so the product is a value of `int`: the field `array_length_is_int` records it. -/
structure SpectrumConstants where
  MAX_PEAK_MZ : ℕ
  MZ_TO_PEAK_ARRAY_RESOLUTION : ℕ
  BILLION : ℚ
  array_length_is_int : MZ_TO_PEAK_ARRAY_RESOLUTION * MAX_PEAK_MZ ≤ 2147483647

/-- The integral part of a floating-point value: the value with its fraction discarded
(rounding toward zero). -/
def float_trunc (x : ℚ) : ℤ := if 0 ≤ x then ⌊x⌋ else ⌈x⌉

/-- The C conversion `(int) x` of a floating-point value to the 32-bit `int`: the integral
part of `x` when that is a value of `int`.  Otherwise C leaves the conversion undefined; the
model takes what the conversion instructions of x86-64 (`cvttss2si`, `cvttsd2si`) deliver for
every value out of range, `INT_MIN`. -/
def float_to_int (x : ℚ) : ℤ :=
  if INT_MIN ≤ float_trunc x ∧ float_trunc x ≤ INT_MAX then float_trunc x else INT_MIN

/-- The length `array_length = MZ_TO_PEAK_ARRAY_RESOLUTION * MAX_PEAK_MZ` of the table. -/
def array_length (c : SpectrumConstants) : ℤ :=
  (c.MZ_TO_PEAK_ARRAY_RESOLUTION : ℤ) * (c.MAX_PEAK_MZ : ℤ)

/-- The bucket index `(int)(peak_mz * MZ_TO_PEAK_ARRAY_RESOLUTION)` of an m/z value. -/
def mz_idx (c : SpectrumConstants) (peak_mz : ℚ) : ℤ :=
  float_to_int (peak_mz * (c.MZ_TO_PEAK_ARRAY_RESOLUTION : ℚ))

/-- The second loop of `Spectrum::populateMzPeakArray`, over the peaks in vector order.  A
write outside `[0, array_length)` is an `out_of_bounds` abort. -/
def populate_loop (c : SpectrumConstants) :
    List PEAK_T → (ℤ → Option PEAK_T) → Except Abort (ℤ → Option PEAK_T)
  | [], arr => .ok arr
  | peak :: rest, arr =>
    let peak_mz := get_peak_location peak
    let i := mz_idx c peak_mz
    if 0 ≤ i ∧ i < array_length c then
      match arr i with
      | some stored =>
        if get_peak_intensity stored < get_peak_intensity peak then
          populate_loop c rest (Function.update arr i (some peak))
        else
          populate_loop c rest arr
      | none => populate_loop c rest (Function.update arr i (some peak))
    else
      .error Abort.out_of_bounds

/-- The method `Spectrum::populateMzPeakArray()`. -/
def Spectrum.populateMzPeakArray (c : SpectrumConstants) (s : Spectrum) :
    Except Abort Spectrum :=
  if s.has_mz_peak_array_ = true then
    .ok s
  else
    match populate_loop c s.peaks_ (fun _ => none) with
    | .error e => .error e
    | .ok arr => .ok { s with mz_peak_array_ := some arr, has_mz_peak_array_ := true }

/-- The read `mz_peak_array_[peak_idx]` of a table slot. -/
def read_bucket (c : SpectrumConstants) (table : Option (ℤ → Option PEAK_T)) (peak_idx : ℤ) :
    Except Abort (Option PEAK_T) :=
  match table with
  | none => .error Abort.invalid_pointer
  | some arr =>
    if 0 ≤ peak_idx ∧ peak_idx < array_length c then .ok (arr peak_idx)
    else .error Abort.out_of_bounds

/-- The scan loop of `Spectrum::getNearestPeak`: `n` iterations remain, starting at slot
`peak_idx`, with the current `nearest_peak` and `min_distance`. -/
def nearest_loop (c : SpectrumConstants) (table : Option (ℤ → Option PEAK_T)) (mz max : ℚ) :
    ℕ → ℤ → Option PEAK_T → ℚ → Except Abort (Option PEAK_T)
  | 0, _, nearest_peak, _ => .ok nearest_peak
  | n + 1, peak_idx, nearest_peak, min_distance =>
    match read_bucket c table peak_idx with
    | .error e => .error e
    | .ok none => nearest_loop c table mz max n (peak_idx + 1) nearest_peak min_distance
    | .ok (some peak) =>
      let peak_mz := get_peak_location peak
      let distance := |mz - peak_mz|
      if distance > max then
        nearest_loop c table mz max n (peak_idx + 1) nearest_peak min_distance
      else if distance < min_distance then
        nearest_loop c table mz max n (peak_idx + 1) (some peak) distance
      else
        nearest_loop c table mz max n (peak_idx + 1) nearest_peak min_distance

/-- The lower scan bound `min_mz_idx` of `getNearestPeak`, after clamping at `0`. -/
def min_mz_idx (c : SpectrumConstants) (mz max : ℚ) : ℤ :=
  let i := float_to_int ((mz - max) * (c.MZ_TO_PEAK_ARRAY_RESOLUTION : ℚ) + 1 / 2)
  if i < 0 then 0 else i

/-- The upper scan bound `max_mz_idx` of `getNearestPeak`, after clamping at
`absolute_max_mz_idx = MAX_PEAK_MZ * MZ_TO_PEAK_ARRAY_RESOLUTION - 1`. -/
def max_mz_idx (c : SpectrumConstants) (mz max : ℚ) : ℤ :=
  let i := float_to_int ((mz + max) * (c.MZ_TO_PEAK_ARRAY_RESOLUTION : ℚ) + 1 / 2)
  let absolute_max_mz_idx : ℤ := (c.MAX_PEAK_MZ : ℤ) * (c.MZ_TO_PEAK_ARRAY_RESOLUTION : ℤ) - 1
  if i > absolute_max_mz_idx then absolute_max_mz_idx else i

/-- The method `Spectrum::getNearestPeak(mz, max)`: the returned peak (`none` for `NULL`) and
the spectrum after the call (the table is built on the first call). -/
def Spectrum.getNearestPeak (c : SpectrumConstants) (s : Spectrum) (mz max : ℚ) :
    Except Abort (Option PEAK_T × Spectrum) :=
  match s.populateMzPeakArray c with
  | .error e => .error e
  | .ok s1 =>
    let min_distance := c.BILLION
    let lo := min_mz_idx c mz max
    let hi := max_mz_idx c mz max
    match nearest_loop c s1.mz_peak_array_ mz max (hi + 1 - lo).toNat lo none min_distance with
    | .error e => .error e
    | .ok nearest_peak => .ok (nearest_peak, s1)

/-! ### Normalization, ranking, copying -/

/-- The method `Spectrum::sumNormalize()`.  The source has no guard on `total_energy_` and no
`carp(CARP_FATAL, ...)` call, so the only outcome is a normal return.  The quotient is exact;
for `total_energy_ = 0` the C division yields an infinity or NaN, which the model does not
represent (there the model value is the field convention `x / 0 = 0`). -/
def Spectrum.sumNormalize (s : Spectrum) : Except Abort Spectrum :=
  .ok { s with
    peaks_ := s.peaks_.map fun peak =>
      let new_intensity := get_peak_intensity peak / s.total_energy_
      set_peak_intensity peak new_intensity }

/-- The order `_PEAK_INTENSITY` of `sort_peaks`: higher intensity first. -/
def intensity_ge (a b : PEAK_T) : Prop := b.intensity ≤ a.intensity

instance : DecidableRel intensity_ge :=
  fun a b => inferInstanceAs (Decidable (b.intensity ≤ a.intensity))

instance : IsTotal PEAK_T intensity_ge := ⟨fun a b => le_total b.intensity a.intensity⟩

instance : IsTrans PEAK_T intensity_ge :=
  ⟨fun _ _ _ hab hbc => le_trans (α := ℚ) hbc hab⟩

/-- Modelled from the spec: `sort_peaks(peaks, _PEAK_INTENSITY)` of `peak.cpp`, which is not
among the sources.  The spec says the rank transform "sorts peaks by intensity descending";
the model is a sort of the peak vector by descending intensity. -/
def sort_peaks (peaks : List PEAK_T) : List PEAK_T :=
  peaks.insertionSort intensity_ge

/-- The loop of `Spectrum::rankPeaks`: the peak visited while the counter holds `rank` gets
`rank / (float) peaks_.size()`, and the counter is decremented. -/
def rank_loop (size : ℕ) : List PEAK_T → ℤ → List PEAK_T
  | [], _ => []
  | peak :: rest, rank =>
    let new_rank := (rank : ℚ) / (size : ℚ)
    set_peak_intensity_rank peak new_rank :: rank_loop size rest (rank - 1)

/-- The method `Spectrum::rankPeaks()`. -/
def Spectrum.rankPeaks (s : Spectrum) : Spectrum :=
  let sorted := sort_peaks s.peaks_
  { s with
    peaks_ := rank_loop sorted.length sorted (sorted.length : ℤ)
    sorted_by_intensity_ := true
    sorted_by_mz_ := false }

/-- The copy constructor `Spectrum::Spectrum(const Spectrum&)`: the member initializers copy
the scalar fields of `old_spectrum`, then every peak is added with `addPeak`.  The pointer
`mz_peak_array_` is not initialized. -/
def Spectrum.copy (old_spectrum : Spectrum) : Spectrum :=
  let init : Spectrum :=
    { first_scan_ := old_spectrum.first_scan_
      last_scan_ := old_spectrum.last_scan_
      precursor_mz_ := old_spectrum.precursor_mz_
      peaks_ := []
      min_peak_mz_ := old_spectrum.min_peak_mz_
      max_peak_mz_ := old_spectrum.max_peak_mz_
      total_energy_ := old_spectrum.total_energy_
      has_peaks_ := old_spectrum.has_peaks_
      sorted_by_mz_ := old_spectrum.sorted_by_mz_
      sorted_by_intensity_ := old_spectrum.sorted_by_intensity_
      has_mz_peak_array_ := old_spectrum.has_mz_peak_array_
      mz_peak_array_ := none
      zstates_ := old_spectrum.zstates_
      filename_ := old_spectrum.filename_
      i_lines_v_ := old_spectrum.i_lines_v_
      d_lines_v_ := old_spectrum.d_lines_v_ }
  old_spectrum.peaks_.foldl
    (fun acc peak => acc.addPeak (get_peak_intensity peak) (get_peak_location peak)) init

/-! ## Weibull fit (`crux-utils.c`) -/

section Weibull

variable {α : Type} [LinearOrderedField α]

/-- The first loop of `fit_two_parameter_weibull`: `remaining` iterations are left, `idx` is
the loop counter and `X` the array filled so far.  Returns the value of `fit_data_points`
after the loop (the break index when a shifted score is not positive) and the array. -/
def weibull_X_loop (log : α → α) (data : ℕ → α) (shift : α) :
    ℕ → ℕ → (ℕ → α) → ℕ × (ℕ → α)
  | 0, idx, X => (idx, X)
  | remaining + 1, idx, X =>
    let score := data idx + shift
    if score ≤ 0 then (idx, X)
    else weibull_X_loop log data shift remaining (idx + 1) (Function.update X idx (log score))

/-- The entry `F_T[idx] = (reverse_idx - 0.3) / (total_data_points + 0.4)` with
`reverse_idx = total_data_points - idx`. -/
def weibull_F_T (total_data_points : ℕ) (idx : ℕ) : α :=
  let reverse_idx : ℤ := (total_data_points : ℤ) - (idx : ℤ)
  ((reverse_idx : α) - 3 / 10) / ((total_data_points : α) + 4 / 10)

/-- The entry `Y[idx] = log(-log(1.0 - F_T[idx]))`. -/
def weibull_Y (log : α → α) (total_data_points : ℕ) (idx : ℕ) : α :=
  log (-log (1 - weibull_F_T total_data_points idx))

/-- The second half of `fit_two_parameter_weibull` (from `int N = fit_data_points` on): the
regression sums over the first `fit_data_points` entries of `X` and `Y`, the least-squares
slope and intercept, the outputs `beta` and `eta`, and the correlation with its
zero-denominator check. -/
def weibull_regression (exp sqrt : α → α) (X Y : ℕ → α) (fit_data_points : ℕ) :
    Except Abort (α × α × α) :=
  let N : α := (fit_data_points : α)
  let sum_Y := ∑ idx in Finset.range fit_data_points, Y idx
  let sum_X := ∑ idx in Finset.range fit_data_points, X idx
  let sum_XX := ∑ idx in Finset.range fit_data_points, X idx * X idx
  let sum_XY := ∑ idx in Finset.range fit_data_points, X idx * Y idx
  let b_num := sum_XY - (sum_X * sum_Y / N)
  let b_denom := sum_XX - sum_X * sum_X / N
  let b_hat := b_num / b_denom
  let a_hat := (sum_Y - b_hat * sum_X) / N
  let beta := b_hat
  let eta := exp (-a_hat / beta)
  let mean_X := sum_X / N
  let mean_Y := sum_Y / N
  let c_num := ∑ idx in Finset.range fit_data_points, (X idx - mean_X) * (Y idx - mean_Y)
  let c_denom_X := ∑ idx in Finset.range fit_data_points, (X idx - mean_X) * (X idx - mean_X)
  let c_denom_Y := ∑ idx in Finset.range fit_data_points, (Y idx - mean_Y) * (Y idx - mean_Y)
  let c_denom := sqrt (c_denom_X * c_denom_Y)
  if c_denom = 0 then .error Abort.carp_fatal
  else .ok (eta, beta, c_num / c_denom)

/-- The function `fit_two_parameter_weibull(data, fit_data_points, total_data_points, shift,
&eta, &beta, &correlation)`: the values written to `(eta, beta, correlation)`, or the fatal
error of the zero-denominator check.  `log`, `exp` and `sqrt` are the functions of `math.h`
together with the store of their result into a `float` (exact functions when the fit is
computed over the reals; a rounded logarithm where the `float` array `X` matters);
the array `data` is a function of the index.  The arrays `F_T` and `Y` are given by their
entries, each loop sum by a sum over the index range.  The C arrays have
`total_data_points` entries; the model does not track their bounds (all accesses are in
bounds when `fit_data_points <= total_data_points`). -/
def fit_two_parameter_weibull (log exp sqrt : α → α) (data : ℕ → α)
    (fit_data_points total_data_points : ℕ) (shift : α) : Except Abort (α × α × α) :=
  let r := weibull_X_loop log data shift fit_data_points 0 (fun _ => 0)
  let fit_data_points := r.1
  let X := r.2
  let Y := weibull_Y log total_data_points
  weibull_regression exp sqrt X Y fit_data_points

/-- The four output cells `*eta`, `*beta`, `*shift`, `*correlation` of
`fit_three_parameter_weibull`; also used for one evaluated trial of the search. -/
structure WeibullFit (α : Type) where
  eta : α
  beta : α
  shift : α
  correlation : α

/-- The search loop of `fit_three_parameter_weibull` over a trial function (the call of
`fit_two_parameter_weibull` at the current shift).  `best` holds the locals `best_eta`,
`best_beta`, `best_shift`, `best_correlation`, `out` the four output cells, and `trace` the
trials evaluated so far, oldest first (a ghost record, not program state).  The loop has no
bound of its own: `fuel` limits the number of iterations and `none` means it ran out. -/
def fit_three_loop (trial : α → Except Abort (α × α × α)) (min_shift step : α) :
    ℕ → α → WeibullFit α → WeibullFit α → List (WeibullFit α) →
      Option (Except Abort (WeibullFit α × List (WeibullFit α)))
  | 0, cur_shift, _, out, trace =>
    if cur_shift > min_shift then none else some (.ok (out, trace))
  | fuel + 1, cur_shift, best, out, trace =>
    if cur_shift > min_shift then
      match trial cur_shift with
      | .error e => some (.error e)
      | .ok (cur_eta, cur_beta, cur_correlation) =>
        let cur : WeibullFit α :=
          { eta := cur_eta, beta := cur_beta, shift := cur_shift, correlation := cur_correlation }
        if cur_correlation > best.correlation then
          fit_three_loop trial min_shift step fuel (cur_shift - step) cur cur (trace ++ [cur])
        else if cur_correlation < best.correlation - 1 / 10 then
          some (.ok (best, trace ++ [cur]))
        else
          fit_three_loop trial min_shift step fuel (cur_shift - step) best out (trace ++ [cur])
    else
      some (.ok (out, trace))

/-- The function `fit_three_parameter_weibull(data, fit_data_points, total_data_points,
min_shift, max_shift, step, &eta, &beta, &shift, &correlation)`.  `out` is the content of the
four output cells before the call; the result is their content after the call together with
the list of evaluated trials. -/
def fit_three_parameter_weibull (log exp sqrt : α → α) (data : ℕ → α)
    (fit_data_points total_data_points : ℕ) (min_shift max_shift step : α)
    (out : WeibullFit α) (fuel : ℕ) :
    Option (Except Abort (WeibullFit α × List (WeibullFit α))) :=
  let best : WeibullFit α := { eta := 0, beta := 0, shift := 0, correlation := 0 }
  fit_three_loop
    (fun cur_shift =>
      fit_two_parameter_weibull log exp sqrt data fit_data_points total_data_points cur_shift)
    min_shift step fuel max_shift best out []

end Weibull

/-! ## String and number utilities (`crux-utils.c`) -/

/-- The function `copy_string_part(src, length)`: `strncpy` copies at most `length`
characters of the C string `src` (a list of characters, the terminator not included), and the
copy is terminated. -/
def copy_string_part (src : List Char) (length : ℕ) : List Char :=
  src.take length

/-- The loop of `parse_filename_path` that walks `end_idx` down from `len` to the position
after the last `'/'`: returns the final `end_idx` and `end_path` (`-1` when the loop ends
without a `'/'`). -/
def parse_filename_path_loop (file : List Char) : ℕ → ℕ × ℤ
  | 0 => (0, -1)
  | end_idx + 1 =>
    if file[end_idx]? = some '/' then (end_idx + 1, ((end_idx + 1 : ℕ) : ℤ))
    else parse_filename_path_loop file end_idx

/-- The function `parse_filename_path(file)`: the pair `(result[0], result[1])` of filename
and path, the path being `none` for `NULL`. -/
def parse_filename_path (file : List Char) : List Char × Option (List Char) :=
  let len := file.length
  let r := parse_filename_path_loop file len
  let end_idx := r.1
  let end_path := r.2
  let path : Option (List Char) :=
    if end_path ≠ -1 then some (copy_string_part file end_path.toNat) else none
  let filename := copy_string_part (file.drop end_idx) len
  (filename, path)

/-- The test `strncmp(a, b, n) == 0` on two C strings: their first `n` characters agree (a
string shorter than `n` must agree up to and including its end). -/
def strncmp_eq (a b : List Char) (n : ℕ) : Bool :=
  a.take n == b.take n

/-- The function `suffix_compare(string, suffix)`. -/
def suffix_compare (string suffix : List Char) : Bool :=
  let len := string.length
  let len_suffix := suffix.length
  if len_suffix > len then false
  else if strncmp_eq string suffix len_suffix then true
  else false

/-- The value `FALSE` of the enumeration `BOOLEAN_T` (`utils.h`, not among the sources): the
first enumerator, `0`. -/
def FALSE : ℤ := 0

/-- The function `delete_dir(dir)` as a function of the results of the system calls
`chdir(dir)` and `rmdir(dir)`; the files of the directory are removed in between, which
does not enter the returned value. -/
def delete_dir (chdir_result rmdir_result : ℤ) : Bool :=
  if chdir_result = -1 then false
  else
    let result := rmdir_result
    if result = FALSE then false
    else true

/-- The loop of `get_number_digits`: while `number >= 10` it is divided by 10 and `idx` is
incremented; `fuel` bounds the number of iterations and `none` means it ran out. -/
def get_number_digits_loop : ℕ → ℤ → ℤ → Option ℤ
  | 0, number, idx => if number ≥ 10 then none else some idx
  | fuel + 1, number, idx =>
    if number ≥ 10 then get_number_digits_loop fuel (number / 10) (idx + 1)
    else some idx

/-- The function `get_number_digits(number)`: the loop, then `return ++idx`.  The loop ends
within `number` iterations, which is the fuel given. -/
def get_number_digits (number : ℤ) : Option ℤ :=
  (get_number_digits_loop number.toNat number 0).map (fun idx => idx + 1)

/-! ## Match ranking (`Match.h`; `Match.cpp` and `MatchCollection.cpp` are not among the sources) -/

/-- Modelled from the spec: the closed enumeration `SCORER_TYPE_T` of score types (declared in
`objects.h`, which is missing).  The spec lists "preliminary score, primary correlation
score, p-value, empirical q-value, and two externally-trained re-ranking scores" with their
q-value variants; `SP` and `XCORR` are the names used in `xlink_search.cpp`. -/
inductive SCORER_TYPE_T where
  | SP
  | XCORR
  | P_VALUE
  | Q_VALUE
  | PERCOLATOR_SCORE
  | PERCOLATOR_QVALUE
  | QRANKER_SCORE
  | QRANKER_QVALUE
deriving DecidableEq

/-- The sentinel `NOT_SCORED = FLT_MIN` of `Match.h`, the smallest positive normalized
`float`, `2^-126`. -/
def NOT_SCORED : ℚ := 1 / 2 ^ 126

/-- The members of `class Match` (`Match.h`) that ranking uses: the scan number of
`spectrum_`, the arrays `match_scores_` and `match_rank_` indexed by score type, and
`null_peptide_` (the decoy flag). -/
structure Match where
  scan : ℤ
  match_scores_ : SCORER_TYPE_T → ℚ
  match_rank_ : SCORER_TYPE_T → ℤ
  null_peptide_ : Bool

/-- Modelled from the spec: `Match::getScore(type)` (`Match.cpp` is missing).  The spec says
reading a score "that was never written fails with a not computed condition (sentinel value
reserved, never a valid score)"; `none` is that failure. -/
def Match.getScore (m : Match) (match_mode : SCORER_TYPE_T) : Option ℚ :=
  if m.match_scores_ match_mode = NOT_SCORED then none else some (m.match_scores_ match_mode)

/-- Modelled from the spec: `Match::getRank(type)` (`Match.cpp` is missing), the entry of
the rank array. -/
def Match.getRank (m : Match) (match_mode : SCORER_TYPE_T) : ℤ :=
  m.match_rank_ match_mode

/-- Modelled from the spec: `Match::setRank(type, rank)` (`Match.cpp` is missing), writing
the entry of the rank array. -/
def Match.setRank (m : Match) (match_mode : SCORER_TYPE_T) (match_rank : ℤ) : Match :=
  { m with match_rank_ := Function.update m.match_rank_ match_mode match_rank }

/-- Modelled from the spec: the direction of a score type.  The comparators use "score
(descending) or p-value (ascending, lower is better) or q-value (ascending)". -/
def lower_is_better : SCORER_TYPE_T → Bool
  | .P_VALUE => true
  | .Q_VALUE => true
  | .PERCOLATOR_QVALUE => true
  | .QRANKER_QVALUE => true
  | _ => false

/-- The score `a` is strictly better than the score `b` for the given type. -/
def score_better (type : SCORER_TYPE_T) (a b : ℚ) : Prop :=
  if lower_is_better type = true then a < b else b < a

instance (type : SCORER_TYPE_T) (a b : ℚ) : Decidable (score_better type a b) := by
  unfold score_better
  exact inferInstance

/-- Modelled from the spec: the comparator of a score type (the `compare...` functions
declared in `Match.h`; their bodies are missing): "primary key = score ..., secondary key
(tie-break) = scan number ascending".  `match_before type a b` says that `a` may stand
before `b`. -/
def match_before (type : SCORER_TYPE_T) (a b : Match) : Prop :=
  score_better type (a.match_scores_ type) (b.match_scores_ type) ∨
    (a.match_scores_ type = b.match_scores_ type ∧ a.scan ≤ b.scan)

instance (type : SCORER_TYPE_T) : DecidableRel (match_before type) :=
  fun a b => by
    unfold match_before
    exact inferInstance

/-- Modelled from the spec: the Match Collection, an aggregate of Match records
(`MatchCollection.cpp` is missing); only the sequence of matches is modelled. -/
structure MatchCollection where
  match_ : List Match

/-- Modelled from the spec: `MatchCollection::sort(type)`, "stable or well-defined-tie-break
sort over all contained matches using the comparator for `type`": a stable sort by
`match_before type`, so that remaining ties keep their order ("arbitrary-but-deterministic
identity order"). -/
def MatchCollection.sort (mc : MatchCollection) (type : SCORER_TYPE_T) : MatchCollection :=
  { mc with match_ := mc.match_.insertionSort (match_before type) }

/-- The positional rank assignment: the match visited while the counter holds `rank` gets
that rank for `type`. -/
def assign_ranks (type : SCORER_TYPE_T) : List Match → ℤ → List Match
  | [], _ => []
  | m :: rest, rank => m.setRank type rank :: assign_ranks type rest (rank + 1)

/-- Modelled from the spec: `MatchCollection::populateMatchRank(type)`: "after sorting by
`type`, assigns rank 1..N in sorted order; matches with identical scores receive distinct but
order-consistent ranks" (the rank is positional). -/
def MatchCollection.populateMatchRank (mc : MatchCollection) (type : SCORER_TYPE_T) :
    MatchCollection :=
  let sorted := mc.sort type
  { sorted with match_ := assign_ranks type sorted.match_ 1 }

/-! ## Decoy q-values (`q-value.h`; `q-value.cpp` is not among the sources) -/

/-- The number of scores in `scores` that are at least `x`. -/
def count_ge (scores : List ℚ) (x : ℚ) : ℕ :=
  (scores.filter fun s => x ≤ s).length

/-- Modelled from the spec: the raw false-discovery-rate estimate at a target score, "(number
of decoys ≥ this target's score) / (number of targets ≥ this target's score), scaled by a
decoy:target ratio correction when counts differ".  The spec gives no formula for the
correction; it is the factor `correction` (1 for no correction). -/
def raw_fdr (correction : ℚ) (target_scores decoy_scores : List ℚ) (score : ℚ) : ℚ :=
  correction * ((count_ge decoy_scores score : ℚ) / (count_ge target_scores score : ℚ))

/-- Modelled from the spec: the conversion of the raw FDR sequence "into a valid q-value
sequence by taking a running minimum", which makes the sequence non-decreasing when read
from the most significant rank on; the q-value of a rank is "the minimum false-discovery-rate
threshold at which a given match would be accepted" (glossary), the least raw FDR at that
rank or a less significant one. -/
def convert_fdr_to_qvalue : List ℚ → List ℚ
  | [] => []
  | fdr :: rest =>
    match convert_fdr_to_qvalue rest with
    | [] => [fdr]
    | prev :: qs => (if prev < fdr then prev else fdr) :: prev :: qs

/-- Modelled from the spec: `compute_decoy_qvalues(target_scores, num_targets, decoy_scores,
num_decoys)` of `q-value.h`: the raw FDR at each target score, in the order of the target
array, turned into q-values.  With no target there is no q-value and nothing is divided. -/
def compute_decoy_qvalues (correction : ℚ) (target_scores decoy_scores : List ℚ) : List ℚ :=
  convert_fdr_to_qvalue (target_scores.map (raw_fdr correction target_scores decoy_scores))

instance match_before_total (type : SCORER_TYPE_T) : IsTotal Match (match_before type) where
  total a b := by
    unfold match_before score_better
    by_cases hl : lower_is_better type = true
    · simp only [hl, if_true]
      rcases lt_trichotomy (a.match_scores_ type) (b.match_scores_ type) with h | h | h
      · exact Or.inl (Or.inl h)
      · rcases le_total a.scan b.scan with hs | hs
        · exact Or.inl (Or.inr ⟨h, hs⟩)
        · exact Or.inr (Or.inr ⟨h.symm, hs⟩)
      · exact Or.inr (Or.inl h)
    · simp only [hl, if_false]
      rcases lt_trichotomy (a.match_scores_ type) (b.match_scores_ type) with h | h | h
      · exact Or.inr (Or.inl h)
      · rcases le_total a.scan b.scan with hs | hs
        · exact Or.inl (Or.inr ⟨h, hs⟩)
        · exact Or.inr (Or.inr ⟨h.symm, hs⟩)
      · exact Or.inl (Or.inl h)

instance match_before_trans (type : SCORER_TYPE_T) : IsTrans Match (match_before type) where
  trans a b c := by
    unfold match_before score_better
    by_cases hl : lower_is_better type = true
    · simp only [hl, if_true]
      rintro (h1 | ⟨h1, s1⟩) (h2 | ⟨h2, s2⟩)
      · exact Or.inl (lt_trans h1 h2)
      · exact Or.inl (h2 ▸ h1)
      · exact Or.inl (h1 ▸ h2)
      · exact Or.inr ⟨h1.trans h2, le_trans s1 s2⟩
    · simp only [hl, if_false]
      rintro (h1 | ⟨h1, s1⟩) (h2 | ⟨h2, s2⟩)
      · exact Or.inl (lt_trans h2 h1)
      · exact Or.inl (h2 ▸ h1)
      · exact Or.inl (h1 ▸ h2)
      · exact Or.inr ⟨h1.trans h2, le_trans s1 s2⟩

/-- The decoy of the example: scan 1, primary score 5.1, nothing else scored. -/
def example_decoy : Match :=
  { scan := 1
    match_scores_ := fun t => if t = SCORER_TYPE_T.XCORR then 51 / 10 else NOT_SCORED
    match_rank_ := fun _ => 0
    null_peptide_ := true }

/-- The target of the example: scan 1, primary score 7.2, nothing else scored. -/
def example_target : Match :=
  { scan := 1
    match_scores_ := fun t => if t = SCORER_TYPE_T.XCORR then 72 / 10 else NOT_SCORED
    match_rank_ := fun _ => 0
    null_peptide_ := false }

/-! ## Parsers (`Spectrum.cpp`)

The input file is the list of the strings that the successive `getline` calls leave in the
buffer `new_line`: each is one line with its newline character, as a C string (the
characters before the first NUL). -/

/-- The C library conversions and the constant that the parsers use and the sources do not
define, as parameters of the model.  `scan_float`, `scan_dec` and `scan_int` are the `sscanf`
conversions `%f`, `%d` and `%i` applied to input whose leading white space has been skipped:
`some (x, rest)` is the converted value with the unread input, `none` a failed conversion.
`atoi` and `atof` are the functions of `stdlib.h`; `MASS_PROTON` is the proton mass. -/
structure ParseEnv where
  scan_float : List Char → Option (ℚ × List Char)
  scan_dec : List Char → Option (ℤ × List Char)
  scan_int : List Char → Option (ℤ × List Char)
  atoi : List Char → ℤ
  atof : List Char → ℚ
  MASS_PROTON : ℚ

/-- The C predicate `isspace` in the "C" locale. -/
def isspace (c : Char) : Bool :=
  c == ' ' || c == '\t' || c == '\n' || c == Char.ofNat 11 || c == Char.ofNat 12 || c == '\r'

/-- The character `new_line[0]` of a C string; the terminating NUL for the empty string. -/
def first_char (line : List Char) : Char := line.headD (Char.ofNat 0)

/-- The directives of the `sscanf` formats in `Spectrum.cpp`: `%f` (`%lf`), `%d`, `%i`, `%c`
and white space. -/
inductive ScanDirective where
  | f
  | d
  | i
  | c
  | space

/-- A value that `sscanf` stores through a pointer argument. -/
inductive ScanValue where
  | float (x : ℚ)
  | int (n : ℤ)
  | char (ch : Char)

/-- The C function `sscanf(input, format, ...)`: the list of the values stored, in order; the
return value of the C function is its length (the callers only compare the return value with
2 and 3, so the value `EOF` is not told apart from 0).  White space in the format and the
numeric conversions skip white space in the input, `%c` does not; the first conversion that
fails ends the scan. -/
def sscanf (env : ParseEnv) : List Char → List ScanDirective → List ScanValue
  | _, [] => []
  | input, .space :: format => sscanf env (input.dropWhile isspace) format
  | input, .f :: format =>
    match env.scan_float (input.dropWhile isspace) with
    | some (x, rest) => .float x :: sscanf env rest format
    | none => []
  | input, .d :: format =>
    match env.scan_dec (input.dropWhile isspace) with
    | some (n, rest) => .int n :: sscanf env rest format
    | none => []
  | input, .i :: format =>
    match env.scan_int (input.dropWhile isspace) with
    | some (n, rest) => .int n :: sscanf env rest format
    | none => []
  | input, .c :: format =>
    match input with
    | [] => []
    | ch :: rest => .char ch :: sscanf env rest format

/-- The `FLOAT_T` variable passed as argument `k` of a `sscanf` call, read after the call; a
variable that the call did not assign is read as `0` (the parsers read the variables only
after checking the count). -/
def float_arg (vals : List ScanValue) (k : ℕ) : ℚ :=
  match vals[k]? with
  | some (.float x) => x
  | _ => 0

/-- The `int` variable passed as argument `k` of a `sscanf` call, read after the call. -/
def int_arg (vals : List ScanValue) (k : ℕ) : ℤ :=
  match vals[k]? with
  | some (.int n) => n
  | _ => 0

/-- The method `Spectrum::parseSLine(line, buf_length)`: returns whether the line was
accepted, with the updated spectrum.  When the line ends inside its first field, the
terminating NUL is copied and `line_index` moves past it, so the third loop reads beyond the
string: `out_of_bounds`. -/
def Spectrum.parseSLine (env : ParseEnv) (s : Spectrum) (line : List Char) :
    Except Abort (Bool × Spectrum) :=
  let line1 := line.dropWhile fun c => c == 'S' || c == '\t' || c == ' ' || c == '0'
  let field := line1.takeWhile fun c => c != ' ' && c != '\t'
  match line1.dropWhile fun c => c != ' ' && c != '\t' with
  | [] => .error Abort.out_of_bounds
  | separator :: line2 =>
    let line3 := line2.dropWhile fun c => c == '\t' || c == ' ' || c == '0'
    let spliced_line := field ++ separator :: line3
    if (sscanf env spliced_line [.f, .space, .f, .space, .f, .space, .f]).length > 3 ∨
        (sscanf env spliced_line [.f, .space, .f, .space, .f, .space, .c]).length > 3 ∨
        (sscanf env spliced_line [.i, .space, .i, .space, .f]).length ≠ 3 then
      .ok (false, s)
    else
      let vals := sscanf env spliced_line [.i, .space, .i, .space, .f]
      .ok (true, { s with
        first_scan_ := int_arg vals 0
        last_scan_ := int_arg vals 1
        precursor_mz_ := float_arg vals 2 })

/-- The method `Spectrum::parseZLine(line)`. -/
def Spectrum.parseZLine (env : ParseEnv) (s : Spectrum) (line : List Char) : Bool × Spectrum :=
  if (sscanf env line [.c, .space, .f, .space, .f]).length < 3 ∨
      (sscanf env line [.c, .space, .f, .space, .f, .space, .f]).length > 3 ∨
      (sscanf env line [.c, .space, .f, .space, .f, .space, .c]).length > 3 ∨
      (sscanf env line [.c, .space, .d, .space, .f]).length ≠ 3 then
    (false, s)
  else
    let vals := sscanf env line [.c, .space, .d, .space, .f]
    let charge := int_arg vals 1
    let m_h_plus := float_arg vals 2
    let zstate := SpectrumZState.new.setSinglyChargedMass env.MASS_PROTON m_h_plus charge
    (true, { s with zstates_ := s.zstates_ ++ [zstate] })

/-- The method `Spectrum::parseDLine(line)`: the line is stored as it is. -/
def Spectrum.parseDLine (s : Spectrum) (line : List Char) : Bool × Spectrum :=
  (true, { s with d_lines_v_ := s.d_lines_v_ ++ [line] })

/-- The method `Spectrum::parseILine(line)`: the line is stored up to its first `\r` or `\n`.
Without such a character `find_first_of` returns `npos` and `erase(npos)` throws
`std::out_of_range`, which nothing catches. -/
def Spectrum.parseILine (s : Spectrum) (line : List Char) : Except Abort (Bool × Spectrum) :=
  if line.any (fun c => c == '\r' || c == '\n') then
    .ok (true, { s with
      i_lines_v_ := s.i_lines_v_ ++ [line.takeWhile fun c => !(c == '\r' || c == '\n')] })
  else
    .error Abort.uncaught_exception

/-- The local flags of `Spectrum::parseMs2`. -/
structure Ms2Flags where
  record_S : Bool
  record_Z : Bool
  start_addPeaks : Bool
  file_format : Bool

/-- The flags at the start of `Spectrum::parseMs2`. -/
def Ms2Flags.start : Ms2Flags :=
  { record_S := false, record_Z := false, start_addPeaks := false, file_format := false }

/-- The way one pass through the body of the `while` loop of `Spectrum::parseMs2` ends: at
the bottom of the body (`next`, the loop reads another line) or at a `break` (`stop`). -/
inductive Ms2Step where
  | next (s : Spectrum) (flags : Ms2Flags)
  | stop (s : Spectrum) (flags : Ms2Flags)

/-- The body of the `while` loop of `Spectrum::parseMs2` for the line `new_line`. -/
def ms2_line (env : ParseEnv) (s : Spectrum) (flags : Ms2Flags) (new_line : List Char) :
    Except Abort Ms2Step :=
  let c := first_char new_line
  if (flags.record_S = false ∨ (flags.record_S = true ∧ flags.start_addPeaks = true)) ∧
      (c = 'Z' ∨ c = 'I' ∨ c = 'D') then
    .ok (.stop s { flags with file_format := false })
  else if c = 'S' ∧ flags.record_S = false then
    match s.parseSLine env new_line with
    | .error e => .error e
    | .ok (false, s1) => .ok (.stop s1 { flags with record_S := true, file_format := false })
    | .ok (true, s1) => .ok (.next s1 { flags with record_S := true })
  else if c = 'Z' then
    match s.parseZLine env new_line with
    | (false, s1) => .ok (.stop s1 { flags with record_Z := true, file_format := false })
    | (true, s1) => .ok (.next s1 { flags with record_Z := true })
  else if c = 'D' then
    match s.parseDLine new_line with
    | (false, s1) => .ok (.stop s1 { flags with file_format := false })
    | (true, s1) => .ok (.next s1 flags)
  else if c = 'I' then
    match s.parseILine new_line with
    | .error e => .error e
    | .ok (false, s1) => .ok (.stop s1 { flags with file_format := false })
    | .ok (true, s1) => .ok (.next s1 flags)
  else if c = 'S' ∧ flags.start_addPeaks = true then
    .ok (.stop s flags)
  else if c ≠ 'Z' ∧ c ≠ 'I' ∧ c ≠ 'D' ∧ c ≠ '\n' then
    if flags.record_Z = false ∨ flags.record_S = false then
      .ok (.stop s { flags with file_format := false })
    else if (sscanf env new_line [.f, .space, .f, .space, .f]).length > 2 ∨
        (sscanf env new_line [.f, .space, .f, .space, .c]).length > 2 ∨
        (sscanf env new_line [.f, .space, .f]).length ≠ 2 then
      .ok (.stop s { flags with file_format := false })
    else if flags.record_Z = true ∧ flags.record_S = true ∧
        (sscanf env new_line [.f, .space, .f]).length = 2 then
      let vals := sscanf env new_line [.f, .space, .f]
      let location_mz := float_arg vals 0
      let intensity := float_arg vals 1
      .ok (.next (s.addPeak intensity location_mz)
        { flags with file_format := true, start_addPeaks := true })
    else
      .ok (.next s flags)
  else
    .ok (.next s flags)

/-- The `while` loop of `Spectrum::parseMs2` over the lines that `getline` delivers: the
spectrum and the flags when the loop is left, and the lines from `file_index` on, which is
the start of the line at which the loop stopped (nothing at the end of the file). -/
def ms2_loop (env : ParseEnv) :
    Spectrum → Ms2Flags → List (List Char) → Except Abort (Spectrum × Ms2Flags × List (List Char))
  | s, flags, [] => .ok (s, flags, [])
  | s, flags, new_line :: rest =>
    match ms2_line env s flags new_line with
    | .error e => .error e
    | .ok (.stop s1 flags1) => .ok (s1, flags1, new_line :: rest)
    | .ok (.next s1 flags1) => ms2_loop env s1 flags1 rest

/-- The method `Spectrum::parseMs2(file, filename)`: the return value, the spectrum, and the
lines of the file from the position that the final `fseek` sets. -/
def Spectrum.parseMs2 (env : ParseEnv) (s : Spectrum) (file : List (List Char))
    (filename : List Char) : Except Abort (Bool × Spectrum × List (List Char)) :=
  match ms2_loop env s Ms2Flags.start file with
  | .error e => .error e
  | .ok (s1, flags, unread) =>
    let s2 := { s1 with filename_ := filename }
    if flags.record_S = false ∧ flags.file_format = false then
      .ok (false, s2, unread)
    else if flags.file_format = false then
      .ok (false, s2, unread)
    else
      .ok (true, s2, unread)

/-- The first loop of `Spectrum::parseMgf`: reads up to the first line that starts with
`BEGIN IONS`; returns that line (the buffer `new_line`) and the lines after it, or `none` at
the end of the file. -/
def mgf_find_begin : List (List Char) → Option (List Char × List (List Char))
  | [] => none
  | new_line :: rest =>
    if strncmp_eq new_line "BEGIN IONS".toList 10 then some (new_line, rest)
    else mgf_find_begin rest

/-- The header variables of `Spectrum::parseMgf`. -/
structure MgfHeader where
  title_found : Bool
  charge_found : Bool
  pepmass_found : Bool
  charge : ℤ

/-- The header variables at the start of `Spectrum::parseMgf`. -/
def MgfHeader.start : MgfHeader :=
  { title_found := false, charge_found := false, pepmass_found := false, charge := -1 }

/-- The way the header loop of `Spectrum::parseMgf` ends: by `return true` at a line
`END IONS` (`returned`), or by leaving the loop at the first line that starts with a digit or
at the end of the file (`left`, with the content of the buffer `new_line`). -/
inductive MgfHeaderExit where
  | returned (s : Spectrum) (unread : List (List Char))
  | left (s : Spectrum) (header : MgfHeader) (new_line : List Char) (unread : List (List Char))

/-- The header loop of `Spectrum::parseMgf`.  `new_line` is the buffer, which keeps the last
line read when `getline` reaches the end of the file.  A `CHARGE=` line is cut at its first
`+`; without a `+`, `index` returns `NULL` and the write through it is `invalid_pointer`. -/
def mgf_header_loop (env : ParseEnv) (spec_count : ℤ) :
    Spectrum → MgfHeader → List Char → List (List Char) → Except Abort MgfHeaderExit
  | s, header, new_line, [] => .ok (.left s header new_line [])
  | s, header, _, new_line :: rest =>
    if strncmp_eq new_line "TITLE=".toList 6 then
      mgf_header_loop env spec_count
        { s with first_scan_ := spec_count, last_scan_ := spec_count }
        { header with title_found := true } new_line rest
    else if strncmp_eq new_line "CHARGE=".toList 7 then
      if new_line.contains '+' then
        let cut_line := new_line.takeWhile fun c => c != '+'
        mgf_header_loop env spec_count s
          { header with charge := env.atoi (cut_line.drop 7), charge_found := true }
          cut_line rest
      else
        .error Abort.invalid_pointer
    else if strncmp_eq new_line "PEPMASS=".toList 8 then
      mgf_header_loop env spec_count
        { s with precursor_mz_ := env.atof (new_line.drop 8) }
        { header with pepmass_found := true } new_line rest
    else if (first_char new_line).isDigit then
      .ok (.left s header new_line rest)
    else if new_line = "END IONS".toList then
      .ok (.returned s rest)
    else
      mgf_header_loop env spec_count s header new_line rest

/-- The `if`/`else if`/`else` after the `END IONS` test in the body of the `do`/`while` loop
of `Spectrum::parseMgf`: a line that `sscanf` reads as two numbers is added as a peak, any
other line is reported with `carp(CARP_ERROR, ...)`, which returns. -/
def mgf_peak_line (env : ParseEnv) (s : Spectrum) (new_line : List Char) : Spectrum :=
  if (sscanf env new_line [.f, .space, .f]).length = 2 then
    let vals := sscanf env new_line [.f, .space, .f]
    let location_mz := float_arg vals 0
    let intensity := float_arg vals 1
    s.addPeak intensity location_mz
  else
    s

/-- The `do`/`while` loop of `Spectrum::parseMgf`, entered with the buffer `new_line`: the
spectrum, `end_found`, and the unread lines. -/
def mgf_peak_loop (env : ParseEnv) :
    Spectrum → List Char → List (List Char) → Spectrum × Bool × List (List Char)
  | s, new_line, [] =>
    if strncmp_eq new_line "END IONS".toList 8 then (s, true, [])
    else (mgf_peak_line env s new_line, false, [])
  | s, new_line, next_line :: rest =>
    if strncmp_eq new_line "END IONS".toList 8 then (s, true, next_line :: rest)
    else mgf_peak_loop env (mgf_peak_line env s new_line) next_line rest

/-- The method `Spectrum::parseMgf(file, filename)`: the return value, the spectrum, the
static counter `spec_count`, and the unread lines.  The `SpectrumZState` that the method
sets from the precursor m/z and the charge is a local object that is not stored. -/
def Spectrum.parseMgf (env : ParseEnv) (s : Spectrum) (spec_count : ℤ)
    (file : List (List Char)) (filename : List Char) :
    Except Abort (Bool × Spectrum × ℤ × List (List Char)) :=
  match mgf_find_begin file with
  | none => .ok (false, s, spec_count, [])
  | some (begin_line, rest) =>
    match mgf_header_loop env spec_count s MgfHeader.start begin_line rest with
    | .error e => .error e
    | .ok (.returned s1 unread) => .ok (true, s1, spec_count, unread)
    | .ok (.left s1 _ new_line unread) =>
      match mgf_peak_loop env s1 new_line unread with
      | (s2, true, unread2) => .ok (true, { s2 with filename_ := filename }, spec_count + 1, unread2)
      | (s2, false, unread2) => .ok (false, s2, spec_count + 1, unread2)

/-- The value of a string of decimal digits. -/
def digits_value (digits : List Char) : ℕ :=
  digits.foldl (fun n c => 10 * n + (c.toNat - 48)) 0

/-- A scanner for unsigned decimal integers: the digits at the start of the input. -/
def scan_unsigned (input : List Char) : Option (ℤ × List Char) :=
  if input.takeWhile Char.isDigit = [] then none
  else some ((digits_value (input.takeWhile Char.isDigit) : ℤ), input.dropWhile Char.isDigit)

/-- A scanner for unsigned decimal numbers: digits, then optionally a point and digits, with
at least one digit before or after the point. -/
def scan_decimal (input : List Char) : Option (ℚ × List Char) :=
  match input.dropWhile Char.isDigit with
  | '.' :: rest =>
    if input.takeWhile Char.isDigit = [] ∧ rest.takeWhile Char.isDigit = [] then none
    else
      some ((digits_value (input.takeWhile Char.isDigit) : ℚ)
          + (digits_value (rest.takeWhile Char.isDigit) : ℚ)
            / 10 ^ (rest.takeWhile Char.isDigit).length,
        rest.dropWhile Char.isDigit)
  | rest =>
    if input.takeWhile Char.isDigit = [] then none
    else some ((digits_value (input.takeWhile Char.isDigit) : ℚ), rest)

/-- An instance of the library parameters for the examples.  It agrees with the C library on
unsigned decimal numbers written without sign, exponent or leading zero, which is all the
examples contain; the proton mass is the value 1.00727646677 of the proton rest mass in
dalton. -/
def example_env : ParseEnv :=
  { scan_float := scan_decimal
    scan_dec := scan_unsigned
    scan_int := scan_unsigned
    atoi := fun input => ((scan_unsigned (input.dropWhile isspace)).map Prod.fst).getD 0
    atof := fun input => ((scan_decimal (input.dropWhile isspace)).map Prod.fst).getD 0
    MASS_PROTON := 100727646677 / 100000000000 }
/-! ### Lines of an ms2 file -/

/-- A line that starts with `Z`, `I` or `D`. -/
def is_ZID_line (line : List Char) : Prop :=
  first_char line = 'Z' ∨ first_char line = 'I' ∨ first_char line = 'D'

/-- A peak line of an ms2 file: a line that is not empty (a newline only) and does not start
with one of the letters `S`, `Z`, `I`, `D` of the other line kinds. -/
def is_peak_line (line : List Char) : Prop :=
  first_char line ≠ 'S' ∧ first_char line ≠ 'Z' ∧ first_char line ≠ 'I' ∧
    first_char line ≠ 'D' ∧ first_char line ≠ '\n'

/-- The line consists of exactly two numeric fields: a number, white space, a number, and
nothing but white space after it (white space may also come first). -/
def two_numeric_fields (env : ParseEnv) (line : List Char) : Prop :=
  ∃ x rest1 y rest2, env.scan_float (line.dropWhile isspace) = some (x, rest1) ∧
    env.scan_float (rest1.dropWhile isspace) = some (y, rest2) ∧
    rest2.dropWhile isspace = []

/-- The loop of `parseMs2`, started on a fresh parse of the lines `lines`, reads all of them
and goes on: the line after them belongs to the spectrum being read. -/
def ms2_reads (env : ParseEnv) (s : Spectrum) (lines : List (List Char)) : Prop :=
  ∃ s1 flags, ms2_loop env s Ms2Flags.start lines = .ok (s1, flags, [])

/-! ### Charge state accessors (`Spectrum.cpp`) -/

/-- The method `Spectrum::getZStates()`. -/
def Spectrum.getZStates (s : Spectrum) : List SpectrumZState := s.zstates_

/-- The method `Spectrum::getNumZStates()`. -/
def Spectrum.getNumZStates (s : Spectrum) : ℤ := (s.zstates_.length : ℤ)

/-! ### Integer to string (`crux-utils.c`) -/

/-- The text that `sprintf(int_string, "%d", i)` writes: a minus sign for a negative number,
then the decimal digits of the absolute value. -/
def sprintf_d (i : ℤ) : List Char :=
  if i < 0 then '-' :: Nat.toDigits 10 i.natAbs else Nat.toDigits 10 i.natAbs

/-- The size `digit + 2` of the buffer that `signed_int_to_char(i)` allocates, with
`digit = abs(i) / 10`. -/
def signed_int_to_char_size (i : ℤ) : ℤ :=
  let digit := |i| / 10
  digit + 2

/-- The function `signed_int_to_char(i)`: the string returned.  `sprintf` writes the text and
a terminating NUL into the buffer of `digit + 2` bytes; a write past its end is
`out_of_bounds`.  (`abs(INT_MIN)` is not defined in C; the model takes `i` as an integer.) -/
def signed_int_to_char (i : ℤ) : Except Abort (List Char) :=
  let int_string := sprintf_d i
  if ((int_string.length : ℤ) + 1 ≤ signed_int_to_char_size i) then .ok int_string
  else .error Abort.out_of_bounds

/-! ### The search of `fit_three_parameter_weibull`, read off the list of evaluated trials -/

/-- The locals `best_eta`, `best_beta`, `best_shift`, `best_correlation` after the trials
`l` (oldest first), as the loop keeps them: they start at 0 and a trial replaces them when
its correlation is greater than `best_correlation`. -/
def best_trial {α : Type} [LinearOrderedField α] (l : List (WeibullFit α)) : WeibullFit α :=
  l.foldl (fun best t => if t.correlation > best.correlation then t else best)
    { eta := 0, beta := 0, shift := 0, correlation := 0 }

/-- The trial `t`, evaluated after the trials `pre`, has a correlation more than 0.1 below
the best correlation seen so far. -/
def is_drop {α : Type} [LinearOrderedField α] (pre : List (WeibullFit α)) (t : WeibullFit α) :
    Prop :=
  t.correlation < (best_trial pre).correlation - 1 / 10

/-! ### The `S` line that `Spectrum::print` writes (`Spectrum.cpp`) -/

/-- The text of the `printf` conversion `%06d`: the decimal digits, padded on the left with
zeros to six characters (after the minus sign for a negative number). -/
def printf_06d (n : ℤ) : List Char :=
  let digits := Nat.toDigits 10 n.natAbs
  if n < 0 then '-' :: (List.replicate (5 - digits.length) '0' ++ digits)
  else List.replicate (6 - digits.length) '0' ++ digits

/-- The first line that `Spectrum::print(file)` writes,
`fprintf(file, "S\t%06d\t%06d\t%.*f\n", first_scan_, last_scan_, mass_precision,
precursor_mz_)`.  `format_f` is the text of the conversion `%.*f` at the precision
`mass_precision = get_int_parameter("mass-precision")`; neither the parameter nor the C
library is among the sources. -/
def Spectrum.print_S_line (format_f : ℚ → List Char) (s : Spectrum) : List Char :=
  "S\t".toList ++ printf_06d s.first_scan_ ++ "\t".toList ++ printf_06d s.last_scan_ ++
    "\t".toList ++ format_f s.precursor_mz_ ++ "\n".toList

/-! ### Quicksort (`crux-utils.c`) -/

/-- The routine `swap_quick(a, idx, jdx)`; the array is a function of the index. -/
def swap_quick (a : ℤ → ℚ) (idx jdx : ℤ) : ℤ → ℚ :=
  let temp := a idx
  let a1 := Function.update a idx (a jdx)
  Function.update a1 jdx temp

/-- The function `Random(i, j) = i + rand() % (j - i + 1)`, for the value `r` that the call
of `rand()` returns (`rand` returns a number from 0 to `RAND_MAX`; `%` truncates). -/
def Random (r : ℕ) (i j : ℤ) : ℤ :=
  i + Int.tmod (r : ℤ) (j - i + 1)

/-- The `for` loop of `quick_sort`: `remaining` iterations are left, `i` is the loop counter.
Returns the array and `last`. -/
def quick_sort_loop : ℕ → (ℤ → ℚ) → ℤ → ℤ → ℤ → (ℤ → ℚ) × ℤ
  | 0, a, _, last, _ => (a, last)
  | remaining + 1, a, left, last, i =>
    if a i > a left then
      quick_sort_loop remaining (swap_quick a (last + 1) i) left (last + 1) (i + 1)
    else
      quick_sort_loop remaining a left last (i + 1)

/-- The function `quick_sort(a, left, right)`.  `rand` is the sequence of values that the
successive calls of `rand()` return and `calls` the number of calls made so far; the result
is the array and the number of calls after the call.  The recursion has no bound of its own:
`fuel` limits its depth and `none` means it ran out. -/
def quick_sort (rand : ℕ → ℕ) : ℕ → (ℤ → ℚ) → ℤ → ℤ → ℕ → Option ((ℤ → ℚ) × ℕ)
  | 0, a, left, right, calls => if left ≥ right then some (a, calls) else none
  | fuel + 1, a, left, right, calls =>
    if left ≥ right then some (a, calls)
    else
      let a1 := swap_quick a left (Random (rand calls) left right)
      let r := quick_sort_loop (right - left).toNat a1 left left (left + 1)
      let a2 := swap_quick r.1 left r.2
      match quick_sort rand fuel a2 left (r.2 - 1) (calls + 1) with
      | none => none
      | some (a3, calls3) => quick_sort rand fuel a3 (r.2 + 1) right calls3

/-- The function `quicksort(a, array_size)`: the array after the call. -/
def quicksort (rand : ℕ → ℕ) (fuel : ℕ) (a : ℤ → ℚ) (array_size : ℤ) : Option (ℤ → ℚ) :=
  (quick_sort rand fuel a 0 (array_size - 1) 0).map Prod.fst

/-- The array `b` is the array `a` with the entries at the indices `left..right` rearranged:
`b = a ∘ σ` for a permutation `σ` of the indices that moves no index outside the range. -/
def PermOn (left right : ℤ) (a b : ℤ → ℚ) : Prop :=
  ∃ σ : Equiv.Perm ℤ, (∀ i, ¬ (left ≤ i ∧ i ≤ right) → σ i = i) ∧ ∀ i, b i = a (σ i)

/-- The entries at the indices `left..right` are in non-increasing order. -/
def SortedDesc (left right : ℤ) (a : ℤ → ℚ) : Prop :=
  ∀ i j, left ≤ i → i ≤ j → j ≤ right → a j ≤ a i

/-! ## Specification predicates -/

/-- The pair (intensity, m/z) of a peak, the data an `addPeak` call supplies. -/
def PEAK_T.datum (p : PEAK_T) : ℚ × ℚ := (p.intensity, p.location)

/-- The derived scalars of a spectrum agree with its peak vector: the total is the sum of the
intensities and, when there is a peak, the minimum and maximum m/z are attained by a peak
and bound all peaks. -/
def Spectrum.Consistent (s : Spectrum) : Prop :=
  s.total_energy_ = (s.peaks_.map PEAK_T.intensity).sum ∧
  (s.peaks_ ≠ [] →
    (s.min_peak_mz_ ∈ s.peaks_.map PEAK_T.location ∧
      ∀ m ∈ s.peaks_.map PEAK_T.location, s.min_peak_mz_ ≤ m) ∧
    (s.max_peak_mz_ ∈ s.peaks_.map PEAK_T.location ∧
      ∀ m ∈ s.peaks_.map PEAK_T.location, m ≤ s.max_peak_mz_))

/-- The cached bucket table of a spectrum is usable: when `has_mz_peak_array_` is set, the
pointer holds a table and every stored pointer is a peak of the spectrum, stored at the
bucket index of its m/z.  This holds for a fresh spectrum and is kept by `addPeak` and
`getNearestPeak`. -/
def Spectrum.TableOK (c : SpectrumConstants) (s : Spectrum) : Prop :=
  s.has_mz_peak_array_ = true →
    ∃ arr, s.mz_peak_array_ = some arr ∧
      ∀ i p, arr i = some p → p ∈ s.peaks_ ∧ mz_idx c p.location = i

/-- A concrete choice of the constants used to evaluate the model on examples: an m/z range
of 5000, five buckets per m/z unit, and one billion as the initial distance. -/
def example_constants : SpectrumConstants :=
  { MAX_PEAK_MZ := 5000, MZ_TO_PEAK_ARRAY_RESOLUTION := 5, BILLION := 1000000000,
    array_length_is_int := by decide }

/-- A trial function used to evaluate the search loop on examples: in place of the call of
`fit_two_parameter_weibull` it reports `(eta, beta, correlation) = (1, 1, 1/2)` at shift 2,
`(2, 2, c)` at shift 1 and `(3, 3, 9/10)` at every other shift. -/
def example_trial (c : ℚ) (cur_shift : ℚ) : Except Abort (ℚ × ℚ × ℚ) :=
  if cur_shift = 2 then .ok (1, 1, 1 / 2)
  else if cur_shift = 1 then .ok (2, 2, c)
  else .ok (3, 3, 9 / 10)

/-- The record `res` is the best trial of the trace `tr`: no trial of `tr` has a higher
correlation, and `res` occurs in `tr` with every earlier trial strictly below it in
correlation and every later trial at a smaller shift. -/
def WeibullFit.IsBestOf {α : Type} [LinearOrderedField α] (res : WeibullFit α)
    (tr : List (WeibullFit α)) : Prop :=
  (∀ t ∈ tr, t.correlation ≤ res.correlation) ∧
  ∃ pre post, tr = pre ++ res :: post ∧
    (∀ t ∈ pre, t.correlation < res.correlation) ∧ (∀ t ∈ post, t.shift < res.shift)

/-- The table `arr` is the bucket table of the peak sequence `peaks`: a slot is `NULL` exactly
when no peak of `peaks` has that bucket index, and otherwise holds a peak of that bucket
that no peak of the bucket exceeds in intensity and that comes before every other peak of
the bucket with the same intensity. -/
def IsBucketTable (c : SpectrumConstants) (peaks : List PEAK_T) (arr : ℤ → Option PEAK_T) :
    Prop :=
  ∀ b, (arr b = none ↔ ∀ p ∈ peaks, mz_idx c p.location ≠ b) ∧
    ∀ p, arr b = some p →
      mz_idx c p.location = b ∧
      (∀ q ∈ peaks, mz_idx c q.location = b → q.intensity ≤ p.intensity) ∧
      ∃ pre post, peaks = pre ++ p :: post ∧
        ∀ q ∈ pre, mz_idx c q.location = b → q.intensity < p.intensity

/-! ## Theorems: derived scalars -/

theorem addPeak_peaks (s : Spectrum) (i m : ℚ) :
    (s.addPeak i m).peaks_ = s.peaks_ ++ [new_peak i m] := rfl

theorem addPeak_total (s : Spectrum) (i m : ℚ) :
    (s.addPeak i m).total_energy_ = s.total_energy_ + i := rfl

theorem addPeak_min (s : Spectrum) (i m : ℚ) :
    (s.addPeak i m).min_peak_mz_ =
      if s.peaks_ = [] ∨ s.min_peak_mz_ > m then m else s.min_peak_mz_ := by
  simp [Spectrum.addPeak, Spectrum.updateFields]

theorem addPeak_max (s : Spectrum) (i m : ℚ) :
    (s.addPeak i m).max_peak_mz_ =
      if s.peaks_ = [] ∨ s.max_peak_mz_ < m then m else s.max_peak_mz_ := by
  simp [Spectrum.addPeak, Spectrum.updateFields]

theorem addPeak_consistent (s : Spectrum) (i m : ℚ) (h : s.Consistent) :
    (s.addPeak i m).Consistent := by
  obtain ⟨htot, hmm⟩ := h
  refine ⟨?_, fun _ => ⟨⟨?_, ?_⟩, ⟨?_, ?_⟩⟩⟩
  · rw [addPeak_total, addPeak_peaks, htot]
    simp [new_peak]
  · rw [addPeak_min, addPeak_peaks]
    split_ifs with hc
    · simp [new_peak]
    · push_neg at hc
      have := (hmm hc.1).1.1
      simp only [List.map_append, List.mem_append]
      exact Or.inl this
  · rw [addPeak_min, addPeak_peaks]
    intro y hy
    simp only [List.map_append, List.mem_append, List.map_cons, List.map_nil,
      List.mem_singleton] at hy
    split_ifs with hc
    · rcases hy with hy | hy
      · rcases hc with hc | hc
        · simp [hc] at hy
        · have hne : s.peaks_ ≠ [] := by
            intro h0
            simp [h0] at hy
          exact le_of_lt (lt_of_lt_of_le hc ((hmm hne).1.2 y hy))
      · rw [hy]
        simp [new_peak]
    · push_neg at hc
      rcases hy with hy | hy
      · exact (hmm hc.1).1.2 y hy
      · rw [hy]
        simpa [new_peak] using hc.2
  · rw [addPeak_max, addPeak_peaks]
    split_ifs with hc
    · simp [new_peak]
    · push_neg at hc
      have := (hmm hc.1).2.1
      simp only [List.map_append, List.mem_append]
      exact Or.inl this
  · rw [addPeak_max, addPeak_peaks]
    intro y hy
    simp only [List.map_append, List.mem_append, List.map_cons, List.map_nil,
      List.mem_singleton] at hy
    split_ifs with hc
    · rcases hy with hy | hy
      · rcases hc with hc | hc
        · simp [hc] at hy
        · have hne : s.peaks_ ≠ [] := by
            intro h0
            simp [h0] at hy
          exact le_of_lt (lt_of_le_of_lt ((hmm hne).2.2 y hy) hc)
      · rw [hy]
        simp [new_peak]
    · push_neg at hc
      rcases hy with hy | hy
      · exact (hmm hc.1).2.2 y hy
      · rw [hy]
        simpa [new_peak] using hc.2

theorem new_consistent : Spectrum.new.Consistent := by
  refine ⟨by simp [Spectrum.new], fun h => ?_⟩
  simp [Spectrum.new] at h

theorem addPeaks_consistent (calls : List (ℚ × ℚ)) (s : Spectrum) (h : s.Consistent) :
    (s.addPeaks calls).Consistent := by
  induction calls generalizing s with
  | nil => exact h
  | cons c rest ih => exact ih _ (addPeak_consistent s c.1 c.2 h)

theorem addPeaks_peaks (calls : List (ℚ × ℚ)) (s : Spectrum) :
    (s.addPeaks calls).peaks_ = s.peaks_ ++ calls.map fun c => new_peak c.1 c.2 := by
  induction calls generalizing s with
  | nil => simp [Spectrum.addPeaks]
  | cons c rest ih =>
    have := ih (s.addPeak c.1 c.2)
    simp only [Spectrum.addPeaks, List.foldl_cons] at this ⊢
    rw [this, addPeak_peaks]
    simp

theorem addPeaks_new_datum (calls : List (ℚ × ℚ)) :
    (Spectrum.new.addPeaks calls).peaks_.map PEAK_T.datum = calls := by
  rw [addPeaks_peaks]
  simp [Spectrum.new, PEAK_T.datum, new_peak, Function.comp_def]

theorem map_intensity_eq (l : List PEAK_T) :
    l.map PEAK_T.intensity = (l.map PEAK_T.datum).map Prod.fst := by
  simp [PEAK_T.datum, Function.comp_def]

theorem map_location_eq (l : List PEAK_T) :
    l.map PEAK_T.location = (l.map PEAK_T.datum).map Prod.snd := by
  simp [PEAK_T.datum, Function.comp_def]

/-- C1: after `n >= 1` calls `addPeak(intensity_j, mz_j)` on a freshly constructed spectrum,
`getNumPeaks()` is `n`, `getTotalEnergy()` is the sum of the intensities, `getMinPeakMz()` and
`getMaxPeakMz()` are the least and the greatest of the `mz_j`, and the peaks are stored in
insertion order. -/
theorem addPeaks_derived_scalars (calls : List (ℚ × ℚ)) (hn : 1 ≤ calls.length) :
    (Spectrum.new.addPeaks calls).getNumPeaks = (calls.length : ℤ) ∧
    (Spectrum.new.addPeaks calls).getTotalEnergy = (calls.map Prod.fst).sum ∧
    ((Spectrum.new.addPeaks calls).getMinPeakMz ∈ calls.map Prod.snd ∧
      ∀ m ∈ calls.map Prod.snd, (Spectrum.new.addPeaks calls).getMinPeakMz ≤ m) ∧
    ((Spectrum.new.addPeaks calls).getMaxPeakMz ∈ calls.map Prod.snd ∧
      ∀ m ∈ calls.map Prod.snd, m ≤ (Spectrum.new.addPeaks calls).getMaxPeakMz) ∧
    (Spectrum.new.addPeaks calls).peaks_.map PEAK_T.datum = calls := by
  have hc := addPeaks_consistent calls Spectrum.new new_consistent
  have hd := addPeaks_new_datum calls
  have hne : (Spectrum.new.addPeaks calls).peaks_ ≠ [] := by
    intro h0
    rw [h0] at hd
    rw [← hd] at hn
    simp at hn
  obtain ⟨htot, hmm⟩ := hc
  have hmm := hmm hne
  rw [map_location_eq, hd] at hmm
  rw [map_intensity_eq, hd] at htot
  refine ⟨?_, htot, hmm.1, hmm.2, hd⟩
  have := congrArg List.length hd
  simp only [List.length_map] at this
  simp [Spectrum.getNumPeaks, this]

theorem addPeaks_derived_scalars_witness :
    1 ≤ [((1 : ℚ), (5 : ℚ)), (2, 3), (4, 7)].length ∧
    (Spectrum.new.addPeaks [(1, 5), (2, 3), (4, 7)]).getNumPeaks = 3 ∧
    (Spectrum.new.addPeaks [(1, 5), (2, 3), (4, 7)]).getTotalEnergy = 7 ∧
    (Spectrum.new.addPeaks [(1, 5), (2, 3), (4, 7)]).getMinPeakMz = 3 ∧
    (Spectrum.new.addPeaks [(1, 5), (2, 3), (4, 7)]).getMaxPeakMz = 7 := by
  have h := addPeaks_derived_scalars [(1, 5), (2, 3), (4, 7)] (by decide)
  refine ⟨by decide, by simpa using h.1, ?_, by decide, by decide⟩
  rw [h.2.1]
  norm_num

/-! ## Theorems: normalization -/

theorem sum_map_div_const (l : List ℚ) (t : ℚ) : (l.map fun x => x / t).sum = l.sum / t := by
  induction l with
  | nil => simp
  | cons a rest ih => simp [ih, add_div]

theorem map_intensity_normalize (l : List PEAK_T) (t : ℚ) :
    (l.map fun peak => set_peak_intensity peak (peak.intensity / t)).map
        PEAK_T.intensity =
      (l.map PEAK_T.intensity).map fun x => x / t := by
  simp [set_peak_intensity, get_peak_intensity, Function.comp_def]

theorem sumNormalize_ok (s : Spectrum) :
    s.sumNormalize = .ok { s with
      peaks_ := s.peaks_.map fun peak => set_peak_intensity peak (peak.intensity / s.total_energy_) } :=
  rfl

/-- C4: for a spectrum built by `addPeak` calls with non-zero total intensity, `sumNormalize()`
returns with every intensity divided by the old total, the intensities then sum to 1, and
the number of peaks, their order and their m/z values are unchanged. -/
theorem sumNormalize_sums_to_one (calls : List (ℚ × ℚ))
    (hT : (Spectrum.new.addPeaks calls).getTotalEnergy ≠ 0) :
    ∃ s1, (Spectrum.new.addPeaks calls).sumNormalize = .ok s1 ∧
      s1.peaks_.map PEAK_T.intensity =
        calls.map (fun c => c.1 / (Spectrum.new.addPeaks calls).getTotalEnergy) ∧
      (s1.peaks_.map PEAK_T.intensity).sum = 1 ∧
      s1.getNumPeaks = (Spectrum.new.addPeaks calls).getNumPeaks ∧
      s1.peaks_.map PEAK_T.location = calls.map Prod.snd := by
  refine ⟨_, sumNormalize_ok _, ?_, ?_, ?_, ?_⟩
  · have hd := addPeaks_new_datum calls
    have hI : (Spectrum.new.addPeaks calls).peaks_.map PEAK_T.intensity = calls.map Prod.fst := by
      rw [map_intensity_eq, hd]
    show List.map PEAK_T.intensity (List.map _ _) = _
    rw [map_intensity_normalize, hI]
    simp [Function.comp_def, Spectrum.getTotalEnergy]
  · have hc := (addPeaks_consistent calls Spectrum.new new_consistent).1
    show (List.map PEAK_T.intensity (List.map _ _)).sum = 1
    rw [map_intensity_normalize, sum_map_div_const, ← hc]
    exact div_self hT
  · simp [Spectrum.getNumPeaks]
  · have hd := addPeaks_new_datum calls
    have : (Spectrum.new.addPeaks calls).peaks_.map PEAK_T.location = calls.map Prod.snd := by
      rw [map_location_eq, hd]
    rw [← this]
    simp [set_peak_intensity, Function.comp_def]

theorem sumNormalize_sums_to_one_witness :
    (Spectrum.new.addPeaks [(1, 5), (3, 2)]).getTotalEnergy ≠ 0 ∧
    ∃ s1, (Spectrum.new.addPeaks [(1, 5), (3, 2)]).sumNormalize = .ok s1 ∧
      s1.peaks_.map PEAK_T.intensity = [1 / 4, 3 / 4] ∧
      (s1.peaks_.map PEAK_T.intensity).sum = 1 := by
  have hT : (Spectrum.new.addPeaks [(1, 5), (3, 2)]).getTotalEnergy = 4 := by
    simp [Spectrum.addPeaks, Spectrum.addPeak, Spectrum.updateFields, Spectrum.new,
      Spectrum.getTotalEnergy]
    norm_num
  have hne : (Spectrum.new.addPeaks [(1, 5), (3, 2)]).getTotalEnergy ≠ 0 := by
    rw [hT]
    norm_num
  obtain ⟨s1, h1, h2, h3, -, -⟩ := sumNormalize_sums_to_one [(1, 5), (3, 2)] hne
  refine ⟨hne, s1, h1, ?_, h3⟩
  rw [h2, hT]
  simp

/-- C5 (as stated, refuted): on the spectrum holding the single peak of intensity 0 at
m/z 1, whose total intensity is zero, `sumNormalize()` does not end in a fatal condition but
returns normally. -/
theorem sumNormalize_zero_total_returns :
    (Spectrum.new.addPeak 0 1).getTotalEnergy = 0 ∧
    (Spectrum.new.addPeak 0 1).sumNormalize ≠ .error Abort.carp_fatal ∧
    ∃ s1, (Spectrum.new.addPeak 0 1).sumNormalize = .ok s1 := by
  refine ⟨?_, ?_, _, sumNormalize_ok _⟩
  · simp [Spectrum.addPeak, Spectrum.updateFields, Spectrum.new, Spectrum.getTotalEnergy]
  · rw [sumNormalize_ok]
    intro h
    cases h

/-- C5 (amended): `sumNormalize()` has no fatal path.  On every spectrum, whatever its total
intensity, it returns normally; the number of peaks, their order, their m/z values and the
stored total are unchanged, and when the total is not zero each intensity has been divided
by it. -/
theorem sumNormalize_always_returns (s : Spectrum) :
    ∃ s1, s.sumNormalize = .ok s1 ∧
      s1.getNumPeaks = s.getNumPeaks ∧
      s1.peaks_.map PEAK_T.location = s.peaks_.map PEAK_T.location ∧
      s1.getTotalEnergy = s.getTotalEnergy ∧
      (s.getTotalEnergy ≠ 0 →
        s1.peaks_.map PEAK_T.intensity =
          s.peaks_.map fun p => p.intensity / s.getTotalEnergy) := by
  refine ⟨_, sumNormalize_ok _, ?_, ?_, rfl, fun _ => ?_⟩
  · simp [Spectrum.getNumPeaks]
  · simp [set_peak_intensity, Function.comp_def]
  · simp [set_peak_intensity, Function.comp_def, Spectrum.getTotalEnergy]

theorem sumNormalize_always_returns_witness :
    (Spectrum.new.addPeak 2 1).getTotalEnergy ≠ 0 ∧
    ∃ s1, (Spectrum.new.addPeak 2 1).sumNormalize = .ok s1 ∧
      s1.peaks_.map PEAK_T.intensity = [1] := by
  have hT : (Spectrum.new.addPeak 2 1).getTotalEnergy = 2 := by
    simp [Spectrum.addPeak, Spectrum.updateFields, Spectrum.new, Spectrum.getTotalEnergy]
  have hne : (Spectrum.new.addPeak 2 1).getTotalEnergy ≠ 0 := by
    rw [hT]
    norm_num
  obtain ⟨s1, h1, -, -, -, h5⟩ := sumNormalize_always_returns (Spectrum.new.addPeak 2 1)
  refine ⟨hne, s1, h1, ?_⟩
  rw [h5 hne, hT, addPeak_peaks]
  simp [new_peak, Spectrum.new]

/-! ## Theorems: copy constructor -/

theorem foldl_addPeak_total (l : List PEAK_T) (init : Spectrum) :
    (l.foldl (fun acc peak => acc.addPeak (get_peak_intensity peak) (get_peak_location peak))
      init).total_energy_ = init.total_energy_ + (l.map PEAK_T.intensity).sum := by
  induction l generalizing init with
  | nil => simp
  | cons p rest ih =>
    simp only [List.foldl_cons, List.map_cons, List.sum_cons]
    rw [ih, addPeak_total, get_peak_intensity, add_assoc]

/-- The copy of a spectrum reports the old total plus the sum of the copied intensities: the
member initializer copies `total_energy_` and each `addPeak` call adds to it again. -/
theorem copy_total_energy (s : Spectrum) :
    s.copy.getTotalEnergy = s.getTotalEnergy + (s.peaks_.map PEAK_T.intensity).sum := by
  simp only [Spectrum.copy, Spectrum.getTotalEnergy]
  rw [foldl_addPeak_total]

/-- C7 (code defect): for the spectrum built by `addPeak(1, 1)`, which reports total intensity
1, the deep copy holds the same single peak but reports total intensity 2. -/
theorem copy_total_energy_doubled :
    (Spectrum.new.addPeak 1 1).getTotalEnergy = 1 ∧
    (Spectrum.new.addPeak 1 1).copy.peaks_.map PEAK_T.datum = [(1, 1)] ∧
    (Spectrum.new.addPeak 1 1).copy.getTotalEnergy = 2 := by
  refine ⟨?_, ?_, ?_⟩
  · simp [Spectrum.addPeak, Spectrum.updateFields, Spectrum.new, Spectrum.getTotalEnergy]
  · simp [Spectrum.copy, Spectrum.addPeak, Spectrum.updateFields, Spectrum.new, new_peak,
      PEAK_T.datum, get_peak_intensity, get_peak_location]
  · rw [copy_total_energy]
    simp [Spectrum.addPeak, Spectrum.updateFields, Spectrum.new, Spectrum.getTotalEnergy,
      new_peak]
    norm_num

/-! ## Theorems: rank transform -/

theorem sort_peaks_perm (l : List PEAK_T) : (sort_peaks l).Perm l :=
  List.perm_insertionSort intensity_ge l

theorem sort_peaks_sorted (l : List PEAK_T) : (sort_peaks l).Sorted intensity_ge :=
  List.sorted_insertionSort intensity_ge l

theorem rank_loop_length (size : ℕ) (l : List PEAK_T) (rank : ℤ) :
    (rank_loop size l rank).length = l.length := by
  induction l generalizing rank with
  | nil => rfl
  | cons p rest ih => simp [rank_loop, ih]

theorem rank_loop_datum (size : ℕ) (l : List PEAK_T) (rank : ℤ) :
    (rank_loop size l rank).map PEAK_T.datum = l.map PEAK_T.datum := by
  induction l generalizing rank with
  | nil => rfl
  | cons p rest ih => simp [rank_loop, ih, set_peak_intensity_rank, PEAK_T.datum]

theorem rank_loop_intensity (size : ℕ) (l : List PEAK_T) (rank : ℤ) :
    (rank_loop size l rank).map PEAK_T.intensity = l.map PEAK_T.intensity := by
  induction l generalizing rank with
  | nil => rfl
  | cons p rest ih => simp [rank_loop, ih, set_peak_intensity_rank]

theorem rank_loop_rank (size : ℕ) (l : List PEAK_T) (rank : ℤ) (i : ℕ) (hi : i < l.length) :
    ((rank_loop size l rank)[i]?).map PEAK_T.intensity_rank =
      some (((rank : ℚ) - (i : ℚ)) / (size : ℚ)) := by
  induction l generalizing rank i with
  | nil => simp at hi
  | cons p rest ih =>
    cases i with
    | zero => simp [rank_loop, set_peak_intensity_rank]
    | succ j =>
      simp only [rank_loop, List.getElem?_cons_succ]
      rw [ih (rank - 1) j (by simpa using hi)]
      push_cast
      congr 2
      ring

/-- C6: on a spectrum with `N >= 1` peaks, `rankPeaks()` keeps the peaks (as a multiset of
intensity and m/z pairs), orders them by intensity descending and gives the peak at 0-based
position `i` the rank `(N - i) / N`; every rank lies in `(0, 1]`, ranks at different
positions differ, the first peak has rank 1 and the highest intensity, and the flags are
sorted-by-intensity and not sorted-by-mz. -/
theorem rankPeaks_ranks (s : Spectrum) (hN : 1 ≤ s.peaks_.length) :
    s.rankPeaks.peaks_.length = s.peaks_.length ∧
    (s.rankPeaks.peaks_.map PEAK_T.datum).Perm (s.peaks_.map PEAK_T.datum) ∧
    (s.rankPeaks.peaks_.map PEAK_T.intensity).Sorted (fun a b => b ≤ a) ∧
    (∀ i, i < s.peaks_.length →
      (s.rankPeaks.peaks_[i]?).map PEAK_T.intensity_rank =
        some (((s.peaks_.length : ℚ) - (i : ℚ)) / (s.peaks_.length : ℚ))) ∧
    (∀ p ∈ s.rankPeaks.peaks_, 0 < p.intensity_rank ∧ p.intensity_rank ≤ 1) ∧
    (∀ i j, i < s.peaks_.length → j < s.peaks_.length → i ≠ j →
      (s.rankPeaks.peaks_[i]?).map PEAK_T.intensity_rank ≠
        (s.rankPeaks.peaks_[j]?).map PEAK_T.intensity_rank) ∧
    (∃ p rest, s.rankPeaks.peaks_ = p :: rest ∧ p.intensity_rank = 1 ∧
      ∀ q ∈ s.peaks_, q.intensity ≤ p.intensity) ∧
    s.rankPeaks.sorted_by_intensity_ = true ∧ s.rankPeaks.sorted_by_mz_ = false := by
  have hlen : (sort_peaks s.peaks_).length = s.peaks_.length := (sort_peaks_perm _).length_eq
  have hNpos : (0 : ℚ) < (s.peaks_.length : ℚ) := by exact_mod_cast hN
  have hpeaks : s.rankPeaks.peaks_ =
      rank_loop s.peaks_.length (sort_peaks s.peaks_) (s.peaks_.length : ℤ) := by
    simp only [Spectrum.rankPeaks, hlen]
  have hrank : ∀ i, i < s.peaks_.length →
      (s.rankPeaks.peaks_[i]?).map PEAK_T.intensity_rank =
        some (((s.peaks_.length : ℚ) - (i : ℚ)) / (s.peaks_.length : ℚ)) := by
    intro i hi
    rw [hpeaks, rank_loop_rank _ _ _ i (by rw [hlen]; exact hi)]
    simp
  have hsorted : (s.rankPeaks.peaks_.map PEAK_T.intensity).Sorted (fun a b => b ≤ a) := by
    rw [hpeaks, rank_loop_intensity]
    exact List.pairwise_map.mpr (sort_peaks_sorted s.peaks_)
  have hlen2 : s.rankPeaks.peaks_.length = s.peaks_.length := by
    rw [hpeaks, rank_loop_length, hlen]
  have hperm : (s.rankPeaks.peaks_.map PEAK_T.datum).Perm (s.peaks_.map PEAK_T.datum) := by
    rw [hpeaks, rank_loop_datum]
    exact (sort_peaks_perm s.peaks_).map _
  refine ⟨hlen2, hperm, hsorted, hrank, ?_, ?_, ?_, rfl, rfl⟩
  · intro p hp
    obtain ⟨i, hi, hget⟩ := List.getElem_of_mem hp
    have h1 := hrank i (by rw [← hlen2]; exact hi)
    rw [List.getElem?_eq_getElem hi, hget] at h1
    simp only [Option.map_some', Option.some.injEq] at h1
    have hiN : (i : ℚ) < (s.peaks_.length : ℚ) := by
      rw [← hlen2]
      exact_mod_cast hi
    rw [h1]
    constructor
    · apply div_pos _ hNpos
      linarith
    · rw [div_le_one hNpos]
      have : (0 : ℚ) ≤ (i : ℚ) := Nat.cast_nonneg i
      linarith
  · intro i j hi hj hij h
    rw [hrank i hi, hrank j hj] at h
    simp only [Option.some.injEq] at h
    rw [div_left_inj' (ne_of_gt hNpos)] at h
    have : (i : ℚ) = (j : ℚ) := by linarith
    exact hij (by exact_mod_cast this)
  · cases hsp : s.rankPeaks.peaks_ with
    | nil =>
      rw [hsp] at hlen2
      simp at hlen2
      omega
    | cons p rest =>
      refine ⟨p, rest, rfl, ?_, ?_⟩
      · have h0 := hrank 0 (by omega)
        rw [hsp] at h0
        simp only [List.getElem?_cons_zero, Option.map_some', Option.some.injEq] at h0
        rw [h0]
        simp only [Nat.cast_zero, sub_zero]
        exact div_self (ne_of_gt hNpos)
      · intro q hq
        have hq2 : q.datum ∈ s.rankPeaks.peaks_.map PEAK_T.datum :=
          hperm.symm.subset (List.mem_map_of_mem _ hq)
        obtain ⟨q1, hq1, hq1d⟩ := List.mem_map.mp hq2
        have hqi : q1.intensity = q.intensity := congrArg Prod.fst hq1d
        rw [hsp] at hq1 hsorted
        rw [← hqi]
        rcases List.mem_cons.mp hq1 with h | h
        · rw [h]
        · simp only [List.map_cons, List.Sorted, List.pairwise_cons] at hsorted
          exact hsorted.1 _ (List.mem_map_of_mem _ h)

theorem rankPeaks_ranks_witness :
    1 ≤ (Spectrum.new.addPeaks [(3, 5), (1, 2), (7, 8)]).peaks_.length ∧
    (Spectrum.new.addPeaks [(3, 5), (1, 2), (7, 8)]).rankPeaks.peaks_.length = 3 ∧
    (Spectrum.new.addPeaks [(3, 5), (1, 2), (7, 8)]).rankPeaks.sorted_by_mz_ = false := by
  have h := rankPeaks_ranks (Spectrum.new.addPeaks [(3, 5), (1, 2), (7, 8)]) (by decide)
  exact ⟨by decide, by rw [h.1]; decide, h.2.2.2.2.2.2.2.2⟩

/-! ## Theorems: nearest peak -/

theorem array_length_le_INT_MAX (c : SpectrumConstants) : array_length c ≤ 2147483647 := by
  have h := c.array_length_is_int
  simp only [array_length]
  exact_mod_cast h

theorem float_to_int_of_nonneg (x : ℚ) (h0 : 0 ≤ x) (h1 : ⌊x⌋ ≤ 2147483647) :
    float_to_int x = ⌊x⌋ := by
  have hf : 0 ≤ ⌊x⌋ := Int.floor_nonneg.mpr h0
  simp only [float_to_int, float_trunc, if_pos h0, INT_MIN, INT_MAX]
  rw [if_pos ⟨by omega, h1⟩]

theorem mz_idx_in_range (c : SpectrumConstants) (hR : 0 < c.MZ_TO_PEAK_ARRAY_RESOLUTION)
    (x : ℚ) (h0 : 0 ≤ x) (h1 : x < (c.MAX_PEAK_MZ : ℚ)) :
    0 ≤ mz_idx c x ∧ mz_idx c x < array_length c := by
  have hRq : (0 : ℚ) < (c.MZ_TO_PEAK_ARRAY_RESOLUTION : ℚ) := by exact_mod_cast hR
  have hnn : 0 ≤ x * (c.MZ_TO_PEAK_ARRAY_RESOLUTION : ℚ) := mul_nonneg h0 (le_of_lt hRq)
  have hlt : ⌊x * (c.MZ_TO_PEAK_ARRAY_RESOLUTION : ℚ)⌋ < array_length c := by
    simp only [array_length]
    rw [Int.floor_lt]
    push_cast
    rw [mul_comm]
    exact mul_lt_mul_of_pos_left h1 hRq
  have hint := array_length_le_INT_MAX c
  simp only [mz_idx]
  rw [float_to_int_of_nonneg _ hnn (by omega)]
  exact ⟨Int.floor_nonneg.mpr hnn, hlt⟩

theorem populate_loop_spec (c : SpectrumConstants) (peaks : List PEAK_T)
    (arr : ℤ → Option PEAK_T)
    (hr : ∀ p ∈ peaks, 0 ≤ mz_idx c p.location ∧ mz_idx c p.location < array_length c) :
    ∃ arr1, populate_loop c peaks arr = .ok arr1 ∧
      ∀ i q, arr1 i = some q → arr i = some q ∨ (q ∈ peaks ∧ mz_idx c q.location = i) := by
  induction peaks generalizing arr with
  | nil => exact ⟨arr, rfl, fun i q h => Or.inl h⟩
  | cons p rest ih =>
    have hp := hr p (List.mem_cons_self _ _)
    have hrest : ∀ q ∈ rest, 0 ≤ mz_idx c q.location ∧ mz_idx c q.location < array_length c :=
      fun q hq => hr q (List.mem_cons_of_mem _ hq)
    have hupd : ∀ arr1 : ℤ → Option PEAK_T,
        (∀ i q, arr1 i = some q →
          Function.update arr (mz_idx c p.location) (some p) i = some q ∨
            (q ∈ rest ∧ mz_idx c q.location = i)) →
        ∀ i q, arr1 i = some q →
          arr i = some q ∨ (q ∈ p :: rest ∧ mz_idx c q.location = i) := by
      intro arr1 h i q hq
      rcases h i q hq with h1 | h1
      · by_cases hi : i = mz_idx c p.location
        · subst hi
          rw [Function.update_same] at h1
          have : p = q := Option.some.inj h1
          subst this
          exact Or.inr ⟨List.mem_cons_self _ _, rfl⟩
        · rw [Function.update_noteq hi] at h1
          exact Or.inl h1
      · exact Or.inr ⟨List.mem_cons_of_mem _ h1.1, h1.2⟩
    have hkeep : ∀ arr1 : ℤ → Option PEAK_T,
        (∀ i q, arr1 i = some q → arr i = some q ∨ (q ∈ rest ∧ mz_idx c q.location = i)) →
        ∀ i q, arr1 i = some q →
          arr i = some q ∨ (q ∈ p :: rest ∧ mz_idx c q.location = i) := by
      intro arr1 h i q hq
      rcases h i q hq with h1 | h1
      · exact Or.inl h1
      · exact Or.inr ⟨List.mem_cons_of_mem _ h1.1, h1.2⟩
    simp only [populate_loop, get_peak_location, get_peak_intensity, if_pos hp]
    cases hs : arr (mz_idx c p.location) with
    | none =>
      obtain ⟨arr1, h1, h2⟩ := ih (Function.update arr (mz_idx c p.location) (some p)) hrest
      exact ⟨arr1, h1, hupd arr1 h2⟩
    | some stored =>
      by_cases hlt : stored.intensity < p.intensity
      · obtain ⟨arr1, h1, h2⟩ := ih (Function.update arr (mz_idx c p.location) (some p)) hrest
        refine ⟨arr1, ?_, hupd arr1 h2⟩
        simp only [if_pos hlt]
        exact h1
      · obtain ⟨arr1, h1, h2⟩ := ih arr hrest
        refine ⟨arr1, ?_, hkeep arr1 h2⟩
        simp only [if_neg hlt]
        exact h1

theorem populate_loop_sound (c : SpectrumConstants) (peaks : List PEAK_T)
    (arr arr1 : ℤ → Option PEAK_T) (h : populate_loop c peaks arr = .ok arr1) :
    ∀ i q, arr1 i = some q → arr i = some q ∨ (q ∈ peaks ∧ mz_idx c q.location = i) := by
  induction peaks generalizing arr with
  | nil =>
    simp only [populate_loop, Except.ok.injEq] at h
    subst h
    exact fun i q hq => Or.inl hq
  | cons p rest ih =>
    have hupd : ∀ i q,
        (Function.update arr (mz_idx c p.location) (some p) i = some q ∨
            (q ∈ rest ∧ mz_idx c q.location = i)) →
          arr i = some q ∨ (q ∈ p :: rest ∧ mz_idx c q.location = i) := by
      intro i q h1
      rcases h1 with h1 | h1
      · by_cases hi : i = mz_idx c p.location
        · subst hi
          rw [Function.update_same] at h1
          have : p = q := Option.some.inj h1
          subst this
          exact Or.inr ⟨List.mem_cons_self _ _, rfl⟩
        · rw [Function.update_noteq hi] at h1
          exact Or.inl h1
      · exact Or.inr ⟨List.mem_cons_of_mem _ h1.1, h1.2⟩
    have hkeep : ∀ i q, (arr i = some q ∨ (q ∈ rest ∧ mz_idx c q.location = i)) →
          arr i = some q ∨ (q ∈ p :: rest ∧ mz_idx c q.location = i) := by
      intro i q h1
      rcases h1 with h1 | h1
      · exact Or.inl h1
      · exact Or.inr ⟨List.mem_cons_of_mem _ h1.1, h1.2⟩
    simp only [populate_loop, get_peak_location, get_peak_intensity] at h
    split_ifs at h with hp
    cases hs : arr (mz_idx c p.location) with
    | none =>
      rw [hs] at h
      exact fun i q hq => hupd i q (ih _ h i q hq)
    | some stored =>
      rw [hs] at h
      simp only at h
      split_ifs at h with hlt
      · exact fun i q hq => hupd i q (ih _ h i q hq)
      · exact fun i q hq => hkeep i q (ih _ h i q hq)

theorem nearest_loop_spec (c : SpectrumConstants) (arr : ℤ → Option PEAK_T) (mz max : ℚ)
    (n : ℕ) (i0 : ℤ) (np : Option PEAK_T) (md : ℚ)
    (hb : ∀ k : ℕ, k < n → 0 ≤ i0 + k ∧ i0 + k < array_length c) :
    ∃ o md1, nearest_loop c (some arr) mz max n i0 np md = .ok o ∧
      ((o = np ∧ md1 = md) ∨
        ∃ p i, o = some p ∧ i0 ≤ i ∧ i < i0 + n ∧ arr i = some p ∧
          |mz - p.location| ≤ max ∧ md1 = |mz - p.location| ∧ |mz - p.location| < md) ∧
      ∀ i q, i0 ≤ i → i < i0 + n → arr i = some q → |mz - q.location| ≤ max →
        md1 ≤ |mz - q.location| := by
  induction n generalizing i0 np md with
  | zero =>
    refine ⟨np, md, rfl, Or.inl ⟨rfl, rfl⟩, ?_⟩
    intro i q h1 h2
    simp only [Nat.cast_zero, add_zero] at h2
    omega
  | succ n ih =>
    have h0 := hb 0 (Nat.succ_pos n)
    simp only [Nat.cast_zero, add_zero] at h0
    have hb1 : ∀ k : ℕ, k < n → 0 ≤ i0 + 1 + k ∧ i0 + 1 + k < array_length c := by
      intro k hk
      have := hb (k + 1) (Nat.succ_lt_succ hk)
      push_cast at this
      constructor <;> omega
    have hread : read_bucket c (some arr) i0 = .ok (arr i0) := by
      simp only [read_bucket, if_pos h0]
    -- the case in which the state is carried unchanged over slot `i0`
    have hskip : (∀ q, arr i0 = some q → |mz - q.location| ≤ max → md ≤ |mz - q.location|) →
        nearest_loop c (some arr) mz max (n + 1) i0 np md =
          nearest_loop c (some arr) mz max n (i0 + 1) np md →
        ∃ o md1, nearest_loop c (some arr) mz max (n + 1) i0 np md = .ok o ∧
          ((o = np ∧ md1 = md) ∨
            ∃ p i, o = some p ∧ i0 ≤ i ∧ i < i0 + ((n + 1 : ℕ) : ℤ) ∧ arr i = some p ∧
              |mz - p.location| ≤ max ∧ md1 = |mz - p.location| ∧ |mz - p.location| < md) ∧
          ∀ i q, i0 ≤ i → i < i0 + ((n + 1 : ℕ) : ℤ) → arr i = some q →
            |mz - q.location| ≤ max → md1 ≤ |mz - q.location| := by
      intro hcur heq
      obtain ⟨o, md1, h1, h2, h3⟩ := ih (i0 + 1) np md hb1
      have hle : md1 ≤ md := by
        rcases h2 with ⟨-, h⟩ | ⟨p, i, -, -, -, -, -, h, h'⟩
        · exact le_of_eq h
        · rw [h]
          exact le_of_lt h'
      refine ⟨o, md1, heq.trans h1, ?_, ?_⟩
      · rcases h2 with h | ⟨p, i, ha, hb', hc, hd, he, hf, hg⟩
        · exact Or.inl h
        · refine Or.inr ⟨p, i, ha, by omega, ?_, hd, he, hf, hg⟩
          push_cast
          omega
      · intro i q hi1 hi2 hq hd
        push_cast at hi2
        by_cases hi : i = i0
        · subst hi
          exact le_trans hle (hcur q hq hd)
        · exact h3 i q (by omega) (by omega) hq hd
    cases hs : arr i0 with
    | none =>
      apply hskip
      · intro q hq
        rw [hs] at hq
        cases hq
      · simp only [nearest_loop, hread, hs]
    | some peak =>
      by_cases hgt : |mz - peak.location| > max
      · apply hskip
        · intro q hq hd
          rw [hs] at hq
          have : peak = q := Option.some.inj hq
          subst this
          exact absurd hd (not_le.mpr hgt)
        · simp only [nearest_loop, hread, hs, get_peak_location, if_pos hgt]
      · by_cases hlt : |mz - peak.location| < md
        · have heq : nearest_loop c (some arr) mz max (n + 1) i0 np md =
              nearest_loop c (some arr) mz max n (i0 + 1) (some peak) |mz - peak.location| := by
            simp only [nearest_loop, hread, hs, get_peak_location, if_neg hgt, if_pos hlt]
          obtain ⟨o, md1, h1, h2, h3⟩ := ih (i0 + 1) (some peak) |mz - peak.location| hb1
          have hle : md1 ≤ |mz - peak.location| := by
            rcases h2 with ⟨-, h⟩ | ⟨p, i, -, -, -, -, -, h, h'⟩
            · exact le_of_eq h
            · rw [h]
              exact le_of_lt h'
          refine ⟨o, md1, heq.trans h1, Or.inr ?_, ?_⟩
          · rcases h2 with ⟨ha, hb'⟩ | ⟨p, i, ha, hb', hc, hd, he, hf, hg⟩
            · refine ⟨peak, i0, ha, le_refl _, ?_, hs, not_lt.mp hgt, hb', hlt⟩
              push_cast
              omega
            · refine ⟨p, i, ha, by omega, ?_, hd, he, hf, lt_trans hg hlt⟩
              push_cast
              omega
          · intro i q hi1 hi2 hq hd
            push_cast at hi2
            by_cases hi : i = i0
            · subst hi
              rw [hs] at hq
              have : peak = q := Option.some.inj hq
              subst this
              exact hle
            · exact h3 i q (by omega) (by omega) hq hd
        · apply hskip
          · intro q hq _
            rw [hs] at hq
            have : peak = q := Option.some.inj hq
            subst this
            exact not_lt.mp hlt
          · simp only [nearest_loop, hread, hs, get_peak_location, if_neg hgt, if_neg hlt]

theorem scan_range_in_bounds (c : SpectrumConstants) (mz max : ℚ) (k : ℕ)
    (hk : k < (max_mz_idx c mz max + 1 - min_mz_idx c mz max).toNat) :
    0 ≤ min_mz_idx c mz max + k ∧ min_mz_idx c mz max + k < array_length c := by
  have hlo : 0 ≤ min_mz_idx c mz max := by
    simp only [min_mz_idx]
    split_ifs with h
    · exact le_refl _
    · exact not_lt.mp h
  have hhi : max_mz_idx c mz max < array_length c := by
    have hcomm : (c.MZ_TO_PEAK_ARRAY_RESOLUTION : ℤ) * (c.MAX_PEAK_MZ : ℤ) =
        (c.MAX_PEAK_MZ : ℤ) * (c.MZ_TO_PEAK_ARRAY_RESOLUTION : ℤ) := mul_comm _ _
    simp only [max_mz_idx, array_length]
    split_ifs with h
    · omega
    · omega
  have hk1 : (k : ℤ) < max_mz_idx c mz max + 1 - min_mz_idx c mz max := by
    have := Int.lt_toNat.mp hk
    exact this
  constructor <;> omega

theorem populate_sound (c : SpectrumConstants) (s s1 : Spectrum) (hwf : s.TableOK c)
    (h : s.populateMzPeakArray c = .ok s1) :
    s1.peaks_ = s.peaks_ ∧
      ∃ arr, s1.mz_peak_array_ = some arr ∧
        ∀ i p, arr i = some p → p ∈ s.peaks_ ∧ mz_idx c p.location = i := by
  unfold Spectrum.populateMzPeakArray at h
  split_ifs at h with hflag
  · simp only [Except.ok.injEq] at h
    subst h
    exact ⟨rfl, hwf hflag⟩
  · cases hl : populate_loop c s.peaks_ (fun _ => none) with
    | error e =>
      rw [hl] at h
      cases h
    | ok arr =>
      rw [hl] at h
      simp only [Except.ok.injEq] at h
      subst h
      refine ⟨rfl, arr, rfl, ?_⟩
      intro i p hp
      rcases populate_loop_sound c _ _ _ hl i p hp with h1 | h1
      · cases h1
      · exact h1

theorem populate_unbuilt (c : SpectrumConstants) (s : Spectrum)
    (hflag : s.has_mz_peak_array_ = false)
    (hr : ∀ p ∈ s.peaks_, 0 ≤ mz_idx c p.location ∧ mz_idx c p.location < array_length c) :
    ∃ arr, s.populateMzPeakArray c =
        .ok { s with mz_peak_array_ := some arr, has_mz_peak_array_ := true } ∧
      populate_loop c s.peaks_ (fun _ => none) = .ok arr ∧
      ∀ i q, arr i = some q → q ∈ s.peaks_ ∧ mz_idx c q.location = i := by
  obtain ⟨arr, h1, h2⟩ := populate_loop_spec c s.peaks_ (fun _ => none) hr
  refine ⟨arr, ?_, h1, ?_⟩
  · simp only [Spectrum.populateMzPeakArray, hflag, h1]
    rfl
  · intro i q hq
    rcases h2 i q hq with h | h
    · cases h
    · exact h

theorem getNearestPeak_spec (c : SpectrumConstants) (s s1 : Spectrum) (mz max : ℚ)
    (arr : ℤ → Option PEAK_T) (hpop : s.populateMzPeakArray c = .ok s1)
    (harr : s1.mz_peak_array_ = some arr) :
    ∃ o md1, s.getNearestPeak c mz max = .ok (o, s1) ∧
      ((o = none ∧ md1 = c.BILLION) ∨
        ∃ p i, o = some p ∧ min_mz_idx c mz max ≤ i ∧ i ≤ max_mz_idx c mz max ∧
          arr i = some p ∧ |mz - p.location| ≤ max ∧ md1 = |mz - p.location| ∧
          |mz - p.location| < c.BILLION) ∧
      ∀ i q, min_mz_idx c mz max ≤ i → i ≤ max_mz_idx c mz max → arr i = some q →
        |mz - q.location| ≤ max → md1 ≤ |mz - q.location| := by
  obtain ⟨o, md1, h1, h2, h3⟩ := nearest_loop_spec c arr mz max
    (max_mz_idx c mz max + 1 - min_mz_idx c mz max).toNat (min_mz_idx c mz max) none c.BILLION
    (fun k hk => scan_range_in_bounds c mz max k hk)
  have hcast : ∀ i : ℤ, min_mz_idx c mz max ≤ i →
      (i < min_mz_idx c mz max +
          (((max_mz_idx c mz max + 1 - min_mz_idx c mz max).toNat : ℕ) : ℤ) ↔
        i ≤ max_mz_idx c mz max) := by
    intro i hi
    constructor
    · intro h
      by_contra hcon
      have hle : max_mz_idx c mz max + 1 - min_mz_idx c mz max ≤ 0 ∨
          0 ≤ max_mz_idx c mz max + 1 - min_mz_idx c mz max := by omega
      rcases hle with hle | hle
      · rw [Int.toNat_of_nonpos hle] at h
        simp only [Nat.cast_zero, add_zero] at h
        omega
      · rw [Int.toNat_of_nonneg hle] at h
        omega
    · intro h
      rw [Int.toNat_of_nonneg (by omega)]
      omega
  refine ⟨o, md1, ?_, ?_, ?_⟩
  · simp only [Spectrum.getNearestPeak, hpop, harr, h1]
  · rcases h2 with h | ⟨p, i, ha, hb, hc, hd, he, hf, hg⟩
    · exact Or.inl h
    · exact Or.inr ⟨p, i, ha, hb, (hcast i hb).mp hc, hd, he, hf, hg⟩
  · intro i q hi1 hi2 hq hd
    exact h3 i q hi1 ((hcast i hi1).mpr hi2) hq hd

theorem getNearestPeak_ok_inv (c : SpectrumConstants) (s s1 : Spectrum) (mz max : ℚ)
    (o : Option PEAK_T) (h : s.getNearestPeak c mz max = .ok (o, s1)) :
    s.populateMzPeakArray c = .ok s1 := by
  unfold Spectrum.getNearestPeak at h
  cases hp : s.populateMzPeakArray c with
  | error e =>
    rw [hp] at h
    cases h
  | ok s2 =>
    rw [hp] at h
    simp only at h
    cases hl : nearest_loop c s2.mz_peak_array_ mz max
        (max_mz_idx c mz max + 1 - min_mz_idx c mz max).toNat (min_mz_idx c mz max) none
        c.BILLION with
    | error e =>
      rw [hl] at h
      cases h
    | ok r =>
      rw [hl] at h
      simp only [Except.ok.injEq, Prod.mk.injEq] at h
      rw [h.2]

theorem new_tableOK (c : SpectrumConstants) : Spectrum.new.TableOK c := by
  intro h
  cases h

theorem addPeak_tableOK (c : SpectrumConstants) (s : Spectrum) (i m : ℚ) (h : s.TableOK c) :
    (s.addPeak i m).TableOK c := by
  intro hflag
  obtain ⟨arr, h1, h2⟩ := h hflag
  refine ⟨arr, h1, fun j p hp => ⟨?_, (h2 j p hp).2⟩⟩
  rw [addPeak_peaks]
  exact List.mem_append_left _ (h2 j p hp).1

theorem example_array_length : array_length example_constants = 25000 := by
  simp [array_length, example_constants]

theorem populate_loop_cons_empty (c : SpectrumConstants) (p : PEAK_T) (rest : List PEAK_T)
    (arr : ℤ → Option PEAK_T)
    (hr : 0 ≤ mz_idx c p.location ∧ mz_idx c p.location < array_length c)
    (he : arr (mz_idx c p.location) = none) :
    populate_loop c (p :: rest) arr =
      populate_loop c rest (Function.update arr (mz_idx c p.location) (some p)) := by
  simp only [populate_loop, get_peak_location, if_pos hr, he]

theorem populate_loop_cons_keep (c : SpectrumConstants) (p stored : PEAK_T)
    (rest : List PEAK_T) (arr : ℤ → Option PEAK_T)
    (hr : 0 ≤ mz_idx c p.location ∧ mz_idx c p.location < array_length c)
    (he : arr (mz_idx c p.location) = some stored)
    (hi : ¬ stored.intensity < p.intensity) :
    populate_loop c (p :: rest) arr = populate_loop c rest arr := by
  simp only [populate_loop, get_peak_location, get_peak_intensity, if_pos hr, he, if_neg hi]

theorem populate_loop_cons_replace (c : SpectrumConstants) (p stored : PEAK_T)
    (rest : List PEAK_T) (arr : ℤ → Option PEAK_T)
    (hr : 0 ≤ mz_idx c p.location ∧ mz_idx c p.location < array_length c)
    (he : arr (mz_idx c p.location) = some stored)
    (hi : stored.intensity < p.intensity) :
    populate_loop c (p :: rest) arr =
      populate_loop c rest (Function.update arr (mz_idx c p.location) (some p)) := by
  simp only [populate_loop, get_peak_location, get_peak_intensity, if_pos hr, he, if_pos hi]

theorem weibull_X_loop_spec {α : Type} [LinearOrderedField α] (log : α → α) (data : ℕ → α)
    (shift : α) (rem idx : ℕ) (X : ℕ → α) :
    idx ≤ (weibull_X_loop log data shift rem idx X).1 ∧
    (weibull_X_loop log data shift rem idx X).1 ≤ idx + rem ∧
    (∀ i, idx ≤ i → i < (weibull_X_loop log data shift rem idx X).1 →
      0 < data i + shift ∧
        (weibull_X_loop log data shift rem idx X).2 i = log (data i + shift)) ∧
    (∀ i, i < idx → (weibull_X_loop log data shift rem idx X).2 i = X i) ∧
    ((weibull_X_loop log data shift rem idx X).1 < idx + rem →
      data (weibull_X_loop log data shift rem idx X).1 + shift ≤ 0) := by
  induction rem generalizing idx X with
  | zero =>
    simp only [weibull_X_loop]
    refine ⟨le_refl _, le_refl _, ?_, fun _ _ => trivial, ?_⟩
    · intro i h1 h2
      omega
    · intro h
      omega
  | succ rem ih =>
    by_cases hs : data idx + shift ≤ 0
    · simp only [weibull_X_loop, if_pos hs]
      refine ⟨le_refl _, by omega, ?_, fun _ _ => trivial, fun _ => hs⟩
      intro i h1 h2
      omega
    · simp only [weibull_X_loop, if_neg hs]
      obtain ⟨h1, h2, h3, h4, h5⟩ :=
        ih (idx + 1) (Function.update X idx (log (data idx + shift)))
      refine ⟨by omega, by omega, ?_, ?_, ?_⟩
      · intro i hi1 hi2
        by_cases hi : i = idx
        · subst hi
          refine ⟨not_le.mp hs, ?_⟩
          rw [h4 i (Nat.lt_succ_self i), Function.update_same]
        · exact h3 i (by omega) hi2
      · intro i hi
        rw [h4 i (by omega), Function.update_noteq (by omega)]
      · intro h
        exact h5 (by omega)

theorem weibull_X_loop_fst {α : Type} [LinearOrderedField α] (log : α → α) (data : ℕ → α)
    (shift : α) (k k1 : ℕ) (hk1 : k1 ≤ k) (hpos : ∀ i, i < k1 → 0 < data i + shift)
    (hstop : k1 < k → data k1 + shift ≤ 0) :
    (weibull_X_loop log data shift k 0 (fun _ => 0)).1 = k1 := by
  obtain ⟨-, h2, h3, -, h5⟩ := weibull_X_loop_spec log data shift k 0 (fun _ => 0)
  rcases Nat.lt_trichotomy (weibull_X_loop log data shift k 0 (fun _ => 0)).1 k1 with h | h | h
  · have := h5 (by omega)
    exact absurd (hpos _ h) (not_lt.mpr this)
  · exact h
  · have := (h3 k1 (Nat.zero_le _) h).1
    exact absurd this (not_lt.mpr (hstop (by omega)))


theorem sum_sq_dev_eq_zero_iff (f : ℕ → ℝ) (n : ℕ) (m : ℝ) :
    (∑ i in Finset.range n, (f i - m) * (f i - m)) = 0 ↔ ∀ i, i < n → f i = m := by
  rw [Finset.sum_eq_zero_iff_of_nonneg (fun i _ => mul_self_nonneg _)]
  constructor
  · intro h i hi
    have := h i (Finset.mem_range.mpr hi)
    exact sub_eq_zero.mp (mul_self_eq_zero.mp this)
  · intro h i hi
    rw [h i (Finset.mem_range.mp hi), sub_self, mul_zero]

theorem all_eq_mean_iff (f : ℕ → ℝ) (n : ℕ) :
    (∀ i, i < n → f i = (∑ j in Finset.range n, f j) / (n : ℝ)) ↔
      ∀ i, i < n → ∀ j, j < n → f i = f j := by
  constructor
  · intro h i hi j hj
    rw [h i hi, h j hj]
  · intro h i hi
    have hn : (n : ℝ) ≠ 0 := by
      have : 0 < n := by omega
      exact_mod_cast (ne_of_gt this)
    have hsum : ∑ j in Finset.range n, f j = ∑ _j in Finset.range n, f i :=
      Finset.sum_congr rfl (fun j hj => h j (Finset.mem_range.mp hj) i hi)
    rw [hsum, Finset.sum_const, Finset.card_range, nsmul_eq_mul]
    field_simp

theorem one_sub_weibull_F_T (N i : ℕ) :
    1 - weibull_F_T (α := ℝ) N i = ((i : ℝ) + 7 / 10) / ((N : ℝ) + 4 / 10) := by
  have hN : (N : ℝ) + 4 / 10 ≠ 0 := by positivity
  simp only [weibull_F_T]
  push_cast
  field_simp
  ring

theorem one_sub_weibull_F_T_pos (N i : ℕ) : 0 < 1 - weibull_F_T (α := ℝ) N i := by
  rw [one_sub_weibull_F_T]
  positivity

theorem one_sub_weibull_F_T_lt_one (N i : ℕ) (hi : i < N) :
    1 - weibull_F_T (α := ℝ) N i < 1 := by
  rw [one_sub_weibull_F_T, div_lt_one (by positivity)]
  have : (i : ℝ) + 1 ≤ (N : ℝ) := by exact_mod_cast hi
  linarith

theorem neg_log_one_sub_F_T_pos (N i : ℕ) (hi : i < N) :
    0 < -Real.log (1 - weibull_F_T (α := ℝ) N i) :=
  neg_pos.mpr (Real.log_neg (one_sub_weibull_F_T_pos N i) (one_sub_weibull_F_T_lt_one N i hi))

theorem weibull_Y_inj (N i j : ℕ) (hi : i < N) (hj : j < N)
    (h : weibull_Y Real.log N i = weibull_Y Real.log N j) : i = j := by
  simp only [weibull_Y] at h
  have h1 := Real.log_injOn_pos (Set.mem_Ioi.mpr (neg_log_one_sub_F_T_pos N i hi))
    (Set.mem_Ioi.mpr (neg_log_one_sub_F_T_pos N j hj)) h
  have h2 := Real.log_injOn_pos (Set.mem_Ioi.mpr (one_sub_weibull_F_T_pos N i))
    (Set.mem_Ioi.mpr (one_sub_weibull_F_T_pos N j)) (neg_injective h1)
  rw [one_sub_weibull_F_T, one_sub_weibull_F_T] at h2
  have hN : (N : ℝ) + 4 / 10 ≠ 0 := by positivity
  rw [div_left_inj' hN] at h2
  have h3 : (i : ℝ) = (j : ℝ) := by linarith
  exact_mod_cast h3

theorem c_denom_zero_iff (X Y : ℕ → ℝ) (n : ℕ) :
    Real.sqrt
        ((∑ idx in Finset.range n,
            (X idx - (∑ i in Finset.range n, X i) / (n : ℝ)) *
              (X idx - (∑ i in Finset.range n, X i) / (n : ℝ))) *
          ∑ idx in Finset.range n,
            (Y idx - (∑ i in Finset.range n, Y i) / (n : ℝ)) *
              (Y idx - (∑ i in Finset.range n, Y i) / (n : ℝ))) = 0 ↔
      (∀ i, i < n → ∀ j, j < n → X i = X j) ∨ (∀ i, i < n → ∀ j, j < n → Y i = Y j) := by
  rw [Real.sqrt_eq_zero (mul_nonneg (Finset.sum_nonneg fun i _ => mul_self_nonneg _)
    (Finset.sum_nonneg fun i _ => mul_self_nonneg _)), mul_eq_zero,
    sum_sq_dev_eq_zero_iff, sum_sq_dev_eq_zero_iff, all_eq_mean_iff, all_eq_mean_iff]

theorem sum_sq_dev_expand (X : ℕ → ℝ) (n : ℕ) (hn : 0 < n) :
    (∑ idx in Finset.range n,
        (X idx - (∑ i in Finset.range n, X i) / (n : ℝ)) *
          (X idx - (∑ i in Finset.range n, X i) / (n : ℝ))) =
      (∑ idx in Finset.range n, X idx * X idx) -
        (∑ i in Finset.range n, X i) * (∑ i in Finset.range n, X i) / (n : ℝ) := by
  have hn0 : (n : ℝ) ≠ 0 := by exact_mod_cast (ne_of_gt hn)
  have h1 : ∀ idx, (X idx - (∑ i in Finset.range n, X i) / (n : ℝ)) *
      (X idx - (∑ i in Finset.range n, X i) / (n : ℝ)) =
      X idx * X idx - 2 * ((∑ i in Finset.range n, X i) / (n : ℝ)) * X idx +
        ((∑ i in Finset.range n, X i) / (n : ℝ)) * ((∑ i in Finset.range n, X i) / (n : ℝ)) := by
    intro idx
    ring
  simp only [h1]
  rw [Finset.sum_add_distrib, Finset.sum_sub_distrib, ← Finset.mul_sum, Finset.sum_const,
    Finset.card_range, nsmul_eq_mul]
  field_simp
  ring

theorem weibull_regression_exact (X Y : ℕ → ℝ) (n : ℕ) (b L : ℝ) (hb : 0 < b) (hn : 0 < n)
    (hlin : ∀ i, i < n → Y i = b * (X i - L))
    (hne : ∃ i j, i < n ∧ j < n ∧ X i ≠ X j) :
    weibull_regression Real.exp Real.sqrt X Y n = .ok (Real.exp L, b, 1) := by
  have hn0 : (n : ℝ) ≠ 0 := by exact_mod_cast (ne_of_gt hn)
  have hSy : (∑ idx in Finset.range n, Y idx) =
      b * (∑ idx in Finset.range n, X idx) - (n : ℝ) * (b * L) := by
    rw [Finset.sum_congr rfl (fun i hi => hlin i (Finset.mem_range.mp hi))]
    simp only [mul_sub]
    rw [Finset.sum_sub_distrib, ← Finset.mul_sum, Finset.sum_const, Finset.card_range,
      nsmul_eq_mul]
  have hSxy : (∑ idx in Finset.range n, X idx * Y idx) =
      b * (∑ idx in Finset.range n, X idx * X idx) -
        b * L * (∑ idx in Finset.range n, X idx) := by
    rw [Finset.sum_congr rfl (fun i hi => by rw [hlin i (Finset.mem_range.mp hi)])]
    have : ∀ i, X i * (b * (X i - L)) = b * (X i * X i) - b * L * X i := fun i => by ring
    simp only [this]
    rw [Finset.sum_sub_distrib, ← Finset.mul_sum, ← Finset.mul_sum]
  have hcX := sum_sq_dev_expand X n hn
  have hDpos : 0 < (∑ idx in Finset.range n, X idx * X idx) -
      (∑ i in Finset.range n, X i) * (∑ i in Finset.range n, X i) / (n : ℝ) := by
    rw [← hcX]
    apply lt_of_le_of_ne (Finset.sum_nonneg fun i _ => mul_self_nonneg _)
    intro h0
    obtain ⟨i, j, hi, hj, hij⟩ := hne
    exact hij ((all_eq_mean_iff X n).mp ((sum_sq_dev_eq_zero_iff X n _).mp h0.symm) i hi j hj)
  have hmY : (∑ idx in Finset.range n, Y idx) / (n : ℝ) =
      b * ((∑ idx in Finset.range n, X idx) / (n : ℝ) - L) := by
    rw [hSy]
    field_simp
    ring
  have hdY : ∀ i, i < n → Y i - (∑ idx in Finset.range n, Y idx) / (n : ℝ) =
      b * (X i - (∑ idx in Finset.range n, X idx) / (n : ℝ)) := by
    intro i hi
    rw [hlin i hi, hmY]
    ring
  have hcnum : (∑ idx in Finset.range n,
      (X idx - (∑ i in Finset.range n, X i) / (n : ℝ)) *
        (Y idx - (∑ i in Finset.range n, Y i) / (n : ℝ))) =
      b * ((∑ idx in Finset.range n, X idx * X idx) -
        (∑ i in Finset.range n, X i) * (∑ i in Finset.range n, X i) / (n : ℝ)) := by
    rw [← hcX, Finset.mul_sum]
    apply Finset.sum_congr rfl
    intro i hi
    rw [hdY i (Finset.mem_range.mp hi)]
    ring
  have hcY : (∑ idx in Finset.range n,
      (Y idx - (∑ i in Finset.range n, Y i) / (n : ℝ)) *
        (Y idx - (∑ i in Finset.range n, Y i) / (n : ℝ))) =
      b * b * ((∑ idx in Finset.range n, X idx * X idx) -
        (∑ i in Finset.range n, X i) * (∑ i in Finset.range n, X i) / (n : ℝ)) := by
    rw [← hcX, Finset.mul_sum]
    apply Finset.sum_congr rfl
    intro i hi
    rw [hdY i (Finset.mem_range.mp hi)]
    ring
  unfold weibull_regression
  dsimp only
  rw [hcnum, hcY, hcX, hSxy, hSy]
  generalize (∑ idx in Finset.range n, X idx * X idx) = Sxx at hDpos ⊢
  generalize (∑ idx in Finset.range n, X idx) = Sx at hDpos ⊢
  have hD0 : Sxx - Sx * Sx / (n : ℝ) ≠ 0 := ne_of_gt hDpos
  have hb0 : b ≠ 0 := ne_of_gt hb
  have hsqrt : Real.sqrt ((Sxx - Sx * Sx / (n : ℝ)) * (b * b * (Sxx - Sx * Sx / (n : ℝ)))) =
      b * (Sxx - Sx * Sx / (n : ℝ)) := by
    rw [show (Sxx - Sx * Sx / (n : ℝ)) * (b * b * (Sxx - Sx * Sx / (n : ℝ))) =
      (b * (Sxx - Sx * Sx / (n : ℝ))) ^ 2 by ring]
    exact Real.sqrt_sq (le_of_lt (mul_pos hb hDpos))
  have hbhat : (b * Sxx - b * L * Sx - Sx * (b * Sx - (n : ℝ) * (b * L)) / (n : ℝ)) /
      (Sxx - Sx * Sx / (n : ℝ)) = b := by
    rw [div_eq_iff hD0]
    field_simp
    ring
  rw [hsqrt, if_neg (mul_ne_zero hb0 hD0), hbhat, div_self (mul_ne_zero hb0 hD0)]
  have hexp : -((b * Sx - (n : ℝ) * (b * L) - b * Sx) / (n : ℝ)) / b = L := by
    field_simp
  rw [hexp]

theorem fit_two_on_shifted_quantiles (data : ℕ → ℝ) (k N : ℕ) (eta beta s : ℝ)
    (hk2 : 2 ≤ k) (hkN : k ≤ N) (heta : 0 < eta) (hbeta : 0 < beta)
    (hscore : ∀ i, i < k →
      data i + s = eta * (-Real.log (1 - weibull_F_T (α := ℝ) N i)) ^ (1 / beta)) :
    fit_two_parameter_weibull Real.log Real.exp Real.sqrt data k N s = .ok (eta, beta, 1) := by
  have hw : ∀ i, i < k → 0 < -Real.log (1 - weibull_F_T (α := ℝ) N i) :=
    fun i hi => neg_log_one_sub_F_T_pos N i (lt_of_lt_of_le hi hkN)
  have hpos : ∀ i, i < k → 0 < data i + s := by
    intro i hi
    rw [hscore i hi]
    exact mul_pos heta (Real.rpow_pos_of_pos (hw i hi) _)
  have hfst := weibull_X_loop_fst Real.log data s k k (le_refl k) hpos
    (fun h => absurd h (lt_irrefl k))
  obtain ⟨-, -, hX, -, -⟩ := weibull_X_loop_spec Real.log data s k 0 (fun _ => 0)
  rw [hfst] at hX
  have hlin : ∀ i, i < k → weibull_Y Real.log N i =
      beta * ((weibull_X_loop Real.log data s k 0 (fun _ => 0)).2 i - Real.log eta) := by
    intro i hi
    rw [(hX i (Nat.zero_le _) hi).2, hscore i hi,
      Real.log_mul (ne_of_gt heta) (ne_of_gt (Real.rpow_pos_of_pos (hw i hi) _)),
      Real.log_rpow (hw i hi)]
    simp only [weibull_Y]
    field_simp
    ring
  have hne : ∃ i j, i < k ∧ j < k ∧
      (weibull_X_loop Real.log data s k 0 (fun _ => 0)).2 i ≠
        (weibull_X_loop Real.log data s k 0 (fun _ => 0)).2 j := by
    refine ⟨0, 1, by omega, by omega, fun h => ?_⟩
    have hY : weibull_Y Real.log N 0 = weibull_Y Real.log N 1 := by
      rw [hlin 0 (by omega), hlin 1 (by omega), h]
    have := weibull_Y_inj N 0 1 (by omega) (by omega) hY
    omega
  unfold fit_two_parameter_weibull
  dsimp only
  rw [hfst, weibull_regression_exact _ _ k beta (Real.log eta) hbeta (by omega) hlin hne,
    Real.exp_log heta]

/-- C8: over the reals, when the first `k` data points (`2 <= k <= N`) are the exact Weibull
quantiles `eta * (-ln(1 - F_i))^(1/beta) - s` with `F_i = (N - i - 0.3) / (N + 0.4)`,
`eta > 0` and `beta > 0`, `fit_two_parameter_weibull(data, k, N, s)` returns exactly
`eta`, `beta` and correlation 1. -/
theorem fit_two_recovers_weibull (data : ℕ → ℝ) (k N : ℕ) (eta beta s : ℝ)
    (hk2 : 2 ≤ k) (hkN : k ≤ N) (heta : 0 < eta) (hbeta : 0 < beta)
    (hdata : ∀ i, i < k →
      data i = eta * (-Real.log (1 - ((N : ℝ) - (i : ℝ) - 3 / 10) / ((N : ℝ) + 4 / 10))) ^
        (1 / beta) - s) :
    fit_two_parameter_weibull Real.log Real.exp Real.sqrt data k N s = .ok (eta, beta, 1) := by
  have hF : ∀ i : ℕ, ((N : ℝ) - (i : ℝ) - 3 / 10) / ((N : ℝ) + 4 / 10) =
      weibull_F_T (α := ℝ) N i := by
    intro i
    simp only [weibull_F_T]
    push_cast
    rfl
  apply fit_two_on_shifted_quantiles data k N eta beta s hk2 hkN heta hbeta
  intro i hi
  rw [hdata i hi, hF]
  ring

theorem fit_two_recovers_weibull_witness :
    (2 : ℕ) ≤ 2 ∧ (0 : ℝ) < 1 ∧
    fit_two_parameter_weibull Real.log Real.exp Real.sqrt
      (fun i => 1 * (-Real.log (1 - (((2 : ℕ) : ℝ) - (i : ℝ) - 3 / 10) /
        (((2 : ℕ) : ℝ) + 4 / 10))) ^ (1 / (1 : ℝ)) - 0) 2 2 0 = .ok (1, 1, 1) :=
  ⟨le_refl 2, one_pos,
    fit_two_recovers_weibull _ 2 2 1 1 0 (le_refl 2) (le_refl 2) one_pos one_pos
      (fun _ _ => rfl)⟩

/-! ## Theorems: three-parameter Weibull fit -/

theorem fit_three_loop_terminates {α : Type} [LinearOrderedField α]
    (trial : α → Except Abort (α × α × α)) (min_shift step : α) (fuel : ℕ) (cur_shift : α)
    (best out : WeibullFit α) (trace : List (WeibullFit α))
    (hfuel : cur_shift - min_shift ≤ (fuel : α) * step) :
    ∃ r, fit_three_loop trial min_shift step fuel cur_shift best out trace = some r := by
  induction fuel generalizing cur_shift best out trace with
  | zero =>
    simp only [Nat.cast_zero, zero_mul] at hfuel
    have : ¬ cur_shift > min_shift := by
      intro h
      have : 0 < cur_shift - min_shift := sub_pos.mpr h
      exact absurd hfuel (not_le.mpr this)
    exact ⟨_, by simp only [fit_three_loop, if_neg this]; rfl⟩
  | succ fuel ih =>
    have hnext : cur_shift - step - min_shift ≤ (fuel : α) * step := by
      push_cast at hfuel
      linarith
    by_cases hc : cur_shift > min_shift
    · cases ht : trial cur_shift with
      | error e => exact ⟨_, by simp only [fit_three_loop, if_pos hc, ht]; rfl⟩
      | ok v =>
        obtain ⟨ce, cb, cc⟩ := v
        by_cases h1 : cc > best.correlation
        · obtain ⟨r, hr⟩ := ih (cur_shift - step)
            { eta := ce, beta := cb, shift := cur_shift, correlation := cc }
            { eta := ce, beta := cb, shift := cur_shift, correlation := cc }
            (trace ++ [{ eta := ce, beta := cb, shift := cur_shift, correlation := cc }]) hnext
          exact ⟨r, by simp only [fit_three_loop, if_pos hc, ht, if_pos h1, hr]⟩
        · by_cases h2 : cc < best.correlation - 1 / 10
          · exact ⟨_, by simp only [fit_three_loop, if_pos hc, ht, if_neg h1, if_pos h2]; rfl⟩
          · obtain ⟨r, hr⟩ := ih (cur_shift - step) best out
              (trace ++ [{ eta := ce, beta := cb, shift := cur_shift, correlation := cc }]) hnext
            exact ⟨r, by simp only [fit_three_loop, if_pos hc, ht, if_neg h1, if_neg h2, hr]⟩
    · exact ⟨_, by simp only [fit_three_loop, if_neg hc]; rfl⟩

theorem isBestOf_append {α : Type} [LinearOrderedField α] (best cur : WeibullFit α)
    (trace : List (WeibullFit α)) (h : best.IsBestOf trace)
    (hc : cur.correlation ≤ best.correlation) (hs : cur.shift < best.shift) :
    best.IsBestOf (trace ++ [cur]) := by
  obtain ⟨h1, pre, post, h2, h3, h4⟩ := h
  refine ⟨?_, pre, post ++ [cur], ?_, h3, ?_⟩
  · intro t ht
    rcases List.mem_append.mp ht with ht | ht
    · exact h1 t ht
    · rw [List.mem_singleton.mp ht]
      exact hc
  · rw [h2]
    simp
  · intro t ht
    rcases List.mem_append.mp ht with ht | ht
    · exact h4 t ht
    · rw [List.mem_singleton.mp ht]
      exact hs

theorem fit_three_loop_spec {α : Type} [LinearOrderedField α]
    (trial : α → Except Abort (α × α × α)) (min_shift step : α) (hstep : 0 < step)
    (fuel : ℕ) (cur_shift : α) (best out : WeibullFit α) (trace : List (WeibullFit α))
    (res : WeibullFit α) (tr : List (WeibullFit α))
    (h : fit_three_loop trial min_shift step fuel cur_shift best out trace = some (.ok (res, tr)))
    (hI1 : ∀ t ∈ trace, t.correlation ≤ best.correlation)
    (hI2 : 0 < best.correlation → out = best ∧ best.IsBestOf trace)
    (hTF : ∀ t ∈ trace, trial t.shift = .ok (t.eta, t.beta, t.correlation))
    (hsh : ∀ t ∈ trace, cur_shift < t.shift)
    (hpw : trace.Pairwise (fun a b => b.shift < a.shift)) :
    (∀ t ∈ tr, trial t.shift = .ok (t.eta, t.beta, t.correlation)) ∧
    tr.Pairwise (fun a b => b.shift < a.shift) ∧
    ((∃ t ∈ tr, 0 < t.correlation) → res.IsBestOf tr) := by
  induction fuel generalizing cur_shift best out trace with
  | zero =>
    simp only [fit_three_loop] at h
    split_ifs at h with hc
    simp only [Option.some.injEq, Except.ok.injEq, Prod.mk.injEq] at h
    obtain ⟨rfl, rfl⟩ := h
    refine ⟨hTF, hpw, ?_⟩
    rintro ⟨t, ht, hpos⟩
    obtain ⟨h1, h2⟩ := hI2 (lt_of_lt_of_le hpos (hI1 t ht))
    rw [h1]
    exact h2
  | succ fuel ih =>
    simp only [fit_three_loop] at h
    split_ifs at h with hc
    · cases ht : trial cur_shift with
      | error e =>
        rw [ht] at h
        simp only [Option.some.injEq] at h
        cases h
      | ok v =>
        obtain ⟨ce, cb, cc⟩ := v
        rw [ht] at h
        simp only at h
        generalize hcur : ({ eta := ce, beta := cb, shift := cur_shift, correlation := cc } :
          WeibullFit α) = cur at h
        have hcs : cur.shift = cur_shift := by rw [← hcur]
        have hcc : cur.correlation = cc := by rw [← hcur]
        have htc : trial cur.shift = .ok (cur.eta, cur.beta, cur.correlation) := by
          rw [← hcur]
          exact ht
        have hTF1 : ∀ t ∈ trace ++ [cur],
            trial t.shift = .ok (t.eta, t.beta, t.correlation) := by
          intro t hmem
          rcases List.mem_append.mp hmem with hmem | hmem
          · exact hTF t hmem
          · rw [List.mem_singleton.mp hmem]
            exact htc
        have hsh1 : ∀ t ∈ trace ++ [cur], cur_shift - step < t.shift := by
          intro t hmem
          rcases List.mem_append.mp hmem with hmem | hmem
          · exact lt_trans (sub_lt_self _ hstep) (hsh t hmem)
          · rw [List.mem_singleton.mp hmem, hcs]
            exact sub_lt_self _ hstep
        have hpw1 : (trace ++ [cur]).Pairwise (fun a b => b.shift < a.shift) := by
          rw [List.pairwise_append]
          refine ⟨hpw, List.pairwise_singleton _ _, ?_⟩
          intro a ha b hb
          rw [List.mem_singleton.mp hb, hcs]
          exact hsh a ha
        split_ifs at h with h1 h2
        · -- a new best trial
          rw [← hcc] at h1
          refine ih _ _ _ _ h ?_ ?_ hTF1 hsh1 hpw1
          · intro t hmem
            rcases List.mem_append.mp hmem with hmem | hmem
            · exact le_of_lt (lt_of_le_of_lt (hI1 t hmem) h1)
            · rw [List.mem_singleton.mp hmem]
          · intro _
            refine ⟨rfl, ?_, trace, [], rfl, ?_, ?_⟩
            · intro t hmem
              rcases List.mem_append.mp hmem with hmem | hmem
              · exact le_of_lt (lt_of_le_of_lt (hI1 t hmem) h1)
              · rw [List.mem_singleton.mp hmem]
            · intro t hmem
              exact lt_of_le_of_lt (hI1 t hmem) h1
            · intro t hmem
              cases hmem
        · -- the early stop
          simp only [Option.some.injEq, Except.ok.injEq, Prod.mk.injEq] at h
          obtain ⟨rfl, rfl⟩ := h
          rw [← hcc] at h1
          refine ⟨hTF1, hpw1, ?_⟩
          rintro ⟨t, hmem, hpos⟩
          have hle : ∀ t ∈ trace ++ [cur], t.correlation ≤ best.correlation := by
            intro t hmem
            rcases List.mem_append.mp hmem with hmem | hmem
            · exact hI1 t hmem
            · rw [List.mem_singleton.mp hmem]
              exact not_lt.mp h1
          obtain ⟨-, hb⟩ := hI2 (lt_of_lt_of_le hpos (hle t hmem))
          have hbs : cur.shift < best.shift := by
            obtain ⟨-, pre, post, hp, -, -⟩ := hb
            rw [hcs]
            exact hsh best (by rw [hp]; simp)
          exact isBestOf_append best cur trace hb (not_lt.mp h1) hbs
        · -- the search goes on with the same best trial
          rw [← hcc] at h1
          have hle : ∀ t ∈ trace ++ [cur], t.correlation ≤ best.correlation := by
            intro t hmem
            rcases List.mem_append.mp hmem with hmem | hmem
            · exact hI1 t hmem
            · rw [List.mem_singleton.mp hmem]
              exact not_lt.mp h1
          refine ih _ _ _ _ h hle ?_ hTF1 hsh1 hpw1
          intro hpos
          obtain ⟨ho, hb⟩ := hI2 hpos
          have hbs : cur.shift < best.shift := by
            obtain ⟨-, pre, post, hp, -, -⟩ := hb
            rw [hcs]
            exact hsh best (by rw [hp]; simp)
          exact ⟨ho, isBestOf_append best cur trace hb (not_lt.mp h1) hbs⟩
    · simp only [Option.some.injEq, Except.ok.injEq, Prod.mk.injEq] at h
      obtain ⟨rfl, rfl⟩ := h
      refine ⟨hTF, hpw, ?_⟩
      rintro ⟨t, ht, hpos⟩
      obtain ⟨h1, h2⟩ := hI2 (lt_of_lt_of_le hpos (hI1 t ht))
      rw [h1]
      exact h2

/-- C10: with a positive step and enough fuel for the shift range, the search of
`fit_three_parameter_weibull` ends (in a result or in the fatal error of a trial).  When it
returns, the trace lists the evaluated trials, each the output of
`fit_two_parameter_weibull` at its shift, in strictly decreasing shift order; and if some
evaluated trial has positive correlation, the returned record is one trial of the trace, its
correlation is the maximum over the trace, every earlier trial is strictly below it and every
later trial has a smaller shift. -/
theorem fit_three_returns_best (data : ℕ → ℝ) (k N : ℕ) (min_shift max_shift step : ℝ)
    (out : WeibullFit ℝ) (fuel : ℕ) (hstep : 0 < step)
    (hfuel : max_shift - min_shift ≤ (fuel : ℝ) * step) :
    ∃ r, fit_three_parameter_weibull Real.log Real.exp Real.sqrt data k N min_shift max_shift
        step out fuel = some r ∧
      ∀ res tr, r = .ok (res, tr) →
        (∀ t ∈ tr, fit_two_parameter_weibull Real.log Real.exp Real.sqrt data k N t.shift =
          .ok (t.eta, t.beta, t.correlation)) ∧
        tr.Pairwise (fun a b => b.shift < a.shift) ∧
        ((∃ t ∈ tr, 0 < t.correlation) →
          (∀ t ∈ tr, t.correlation ≤ res.correlation) ∧
          ∃ pre post, tr = pre ++ res :: post ∧
            (∀ t ∈ pre, t.correlation < res.correlation) ∧
            (∀ t ∈ post, t.shift < res.shift)) := by
  obtain ⟨r, hr⟩ := fit_three_loop_terminates
    (fun cur_shift => fit_two_parameter_weibull Real.log Real.exp Real.sqrt data k N cur_shift)
    min_shift step fuel max_shift { eta := 0, beta := 0, shift := 0, correlation := 0 } out []
    hfuel
  refine ⟨r, hr, ?_⟩
  intro res tr hres
  rw [hres] at hr
  exact fit_three_loop_spec _ min_shift step hstep fuel max_shift _ out [] res tr hr
    (fun t ht => by cases ht) (fun h => absurd h (lt_irrefl _)) (fun t ht => by cases ht)
    (fun t ht => by cases ht) List.Pairwise.nil

theorem fit_three_returns_best_witness :
    (0 : ℝ) < 1 ∧ (0 : ℝ) - (-1) ≤ ((1 : ℕ) : ℝ) * 1 ∧
    ∃ res tr,
      fit_three_parameter_weibull Real.log Real.exp Real.sqrt
        (fun i => 1 * (-Real.log (1 - (((2 : ℕ) : ℝ) - (i : ℝ) - 3 / 10) /
          (((2 : ℕ) : ℝ) + 4 / 10))) ^ (1 / (1 : ℝ)) - 0) 2 2 (-1) 0 1
        { eta := 0, beta := 0, shift := 0, correlation := 0 } 1 = some (.ok (res, tr)) ∧
      (∃ t ∈ tr, 0 < t.correlation) ∧ (∀ t ∈ tr, t.correlation ≤ res.correlation) ∧
      res.correlation = 1 := by
  have hfit := fit_two_on_shifted_quantiles
    (fun i => 1 * (-Real.log (1 - (((2 : ℕ) : ℝ) - (i : ℝ) - 3 / 10) /
      (((2 : ℕ) : ℝ) + 4 / 10))) ^ (1 / (1 : ℝ)) - 0) 2 2 1 1 0 (le_refl 2) (le_refl 2)
    one_pos one_pos (fun i _ => by
      simp only [weibull_F_T]
      push_cast
      ring)
  have hval : fit_three_parameter_weibull Real.log Real.exp Real.sqrt
      (fun i => 1 * (-Real.log (1 - (((2 : ℕ) : ℝ) - (i : ℝ) - 3 / 10) /
        (((2 : ℕ) : ℝ) + 4 / 10))) ^ (1 / (1 : ℝ)) - 0) 2 2 (-1) 0 1
      { eta := 0, beta := 0, shift := 0, correlation := 0 } 1 =
      some (.ok ({ eta := 1, beta := 1, shift := 0, correlation := 1 },
        [{ eta := 1, beta := 1, shift := 0, correlation := 1 }])) := by
    simp only [fit_three_parameter_weibull, fit_three_loop, hfit]
    norm_num
  have hstep : (0 : ℝ) < 1 := one_pos
  have hfuel : (0 : ℝ) - (-1) ≤ ((1 : ℕ) : ℝ) * 1 := by norm_num
  obtain ⟨r, hr, hprop⟩ := fit_three_returns_best
    (fun i => 1 * (-Real.log (1 - (((2 : ℕ) : ℝ) - (i : ℝ) - 3 / 10) /
      (((2 : ℕ) : ℝ) + 4 / 10))) ^ (1 / (1 : ℝ)) - 0) 2 2 (-1) 0 1
    { eta := 0, beta := 0, shift := 0, correlation := 0 } 1 hstep hfuel
  rw [hval] at hr
  have hr1 := (Option.some.inj hr).symm
  have hpos : ∃ t ∈ [({ eta := 1, beta := 1, shift := 0, correlation := 1 } : WeibullFit ℝ)],
      0 < t.correlation := ⟨_, List.mem_singleton.mpr rfl, one_pos⟩
  exact ⟨hstep, hfuel, _, _, hval, hpos, ((hprop _ _ hr1).2.2 hpos).1, rfl⟩

/-! ## Theorems: string and number utilities -/

theorem parse_filename_path_loop_spec (file : List Char) (n : ℕ) :
    ((parse_filename_path_loop file n).2 = -1 ∧ (parse_filename_path_loop file n).1 = 0 ∧
        ∀ i, i < n → file[i]? ≠ some '/') ∨
      ((parse_filename_path_loop file n).2 = ((parse_filename_path_loop file n).1 : ℤ) ∧
        1 ≤ (parse_filename_path_loop file n).1 ∧ (parse_filename_path_loop file n).1 ≤ n ∧
        file[(parse_filename_path_loop file n).1 - 1]? = some '/' ∧
        ∀ i, (parse_filename_path_loop file n).1 ≤ i → i < n → file[i]? ≠ some '/') := by
  induction n with
  | zero =>
    left
    refine ⟨rfl, rfl, ?_⟩
    intro i hi
    omega
  | succ n ih =>
    by_cases h : file[n]? = some '/'
    · right
      rw [show parse_filename_path_loop file (n + 1) = (n + 1, ((n + 1 : ℕ) : ℤ)) by
        simp only [parse_filename_path_loop, if_pos h]]
      refine ⟨rfl, by omega, le_refl _, by simpa using h, ?_⟩
      intro i h1 h2
      omega
    · rw [show parse_filename_path_loop file (n + 1) = parse_filename_path_loop file n by
        simp only [parse_filename_path_loop, if_neg h]]
      rcases ih with ⟨h1, h2, h3⟩ | ⟨h1, h2, h3, h4, h5⟩
      · left
        refine ⟨h1, h2, ?_⟩
        intro i hi
        by_cases hin : i = n
        · rw [hin]
          exact h
        · exact h3 i (by omega)
      · right
        refine ⟨h1, h2, by omega, h4, ?_⟩
        intro i hi1 hi2
        by_cases hin : i = n
        · rw [hin]
          exact h
        · exact h5 i hi1 (by omega)

theorem not_mem_of_getElem?_ne (l : List Char) (c : Char) (h : ∀ i, i < l.length → l[i]? ≠ some c) :
    c ∉ l := by
  intro hc
  obtain ⟨n, hn⟩ := List.mem_iff_getElem?.mp hc
  have hlt : n < l.length := by
    by_contra hge
    rw [List.getElem?_eq_none_iff.mpr (by omega)] at hn
    cases hn
  exact h n hlt hn

/-- C13: `parse_filename_path(f)` returns a filename without `'/'`; the path is `NULL` exactly
when `f` has no `'/'`, and then the filename is `f`; otherwise the path ends with `'/'` and
path followed by filename is `f`.  For `"../../file_name"` the result is `"file_name"` and
`"../../"`. -/
theorem parse_filename_path_splits (f : List Char) :
    '/' ∉ (parse_filename_path f).1 ∧
    ((parse_filename_path f).2 = none ↔ '/' ∉ f) ∧
    (∀ path, (parse_filename_path f).2 = some path →
      path.getLast? = some '/' ∧ path ++ (parse_filename_path f).1 = f) ∧
    ((parse_filename_path f).2 = none → (parse_filename_path f).1 = f) ∧
    parse_filename_path "../../file_name".toList =
      ("file_name".toList, some "../../".toList) := by
  have hname : ∀ k, (copy_string_part (f.drop k) f.length) = f.drop k := by
    intro k
    simp only [copy_string_part]
    apply List.take_of_length_le
    simp
  rcases parse_filename_path_loop_spec f f.length with ⟨h1, h2, h3⟩ | ⟨h1, h2, h3, h4, h5⟩
  · have hno : '/' ∉ f := not_mem_of_getElem?_ne f '/' h3
    have hres : parse_filename_path f = (f, none) := by
      simp only [parse_filename_path, h1, h2, hname]
      simp
    rw [hres]
    refine ⟨hno, ⟨fun _ => hno, fun _ => rfl⟩, ?_, fun _ => rfl, by decide⟩
    intro path hp
    cases hp
  · have hk : ((parse_filename_path_loop f f.length).1 : ℤ) ≠ -1 := by omega
    have hres : parse_filename_path f =
        (f.drop (parse_filename_path_loop f f.length).1,
          some (f.take (parse_filename_path_loop f f.length).1)) := by
      simp only [parse_filename_path, h1, hname, copy_string_part]
      simp [hk]
    rw [hres]
    have hmem : '/' ∈ f := by
      apply List.mem_iff_getElem?.mpr
      exact ⟨_, h4⟩
    refine ⟨?_, ⟨fun h => (by cases h), fun h => absurd hmem h⟩, ?_, fun h => (by cases h),
      by decide⟩
    · apply not_mem_of_getElem?_ne
      intro i hi
      rw [List.getElem?_drop]
      simp only [List.length_drop] at hi
      exact h5 _ (by omega) (by omega)
    · intro path hp
      simp only [Option.some.injEq] at hp
      subst hp
      refine ⟨?_, List.take_append_drop _ _⟩
      rw [List.getLast?_eq_getElem?, List.length_take, min_eq_left h3,
        List.getElem?_take_of_lt (by omega)]
      exact h4

theorem parse_filename_path_splits_witness :
    (parse_filename_path "a/b".toList).2 = some "a/".toList ∧
    "a/".toList ++ (parse_filename_path "a/b".toList).1 = "a/b".toList :=
  ⟨by decide, ((parse_filename_path_splits "a/b".toList).2.2.1 "a/".toList (by decide)).2⟩

theorem suffix_compare_true_iff (string suffix : List Char) :
    suffix_compare string suffix = true ↔ suffix <+: string := by
  simp only [suffix_compare, strncmp_eq]
  split_ifs with h1 h2
  · constructor
    · intro h
      cases h
    · intro h
      have := h.length_le
      omega
  · simp only [true_iff]
    have h3 : List.take suffix.length string = suffix := by
      simpa using h2
    exact ⟨string.drop suffix.length, by
      have := List.take_append_drop suffix.length string
      rw [h3] at this
      exact this⟩
  · constructor
    · intro h
      cases h
    · intro h
      exfalso
      apply h2
      obtain ⟨t, ht⟩ := h
      simp [← ht]

/-- C14 (as stated, refuted): `"file.csm"` ends with `".csm"`, yet `suffix_compare` returns
`FALSE`; and `"file.csm"` does not end with `"file"`, yet `suffix_compare` returns `TRUE`. -/
theorem suffix_compare_tests_the_start :
    ".csm".toList <:+ "file.csm".toList ∧
    suffix_compare "file.csm".toList ".csm".toList = false ∧
    ¬ "file".toList <:+ "file.csm".toList ∧
    suffix_compare "file.csm".toList "file".toList = true := by
  refine ⟨⟨"file".toList, by decide⟩, by decide, ?_, by decide⟩
  intro h
  have hb : ("file".toList).isSuffixOf "file.csm".toList = true :=
    List.isSuffixOf_iff_suffix.mpr h
  revert hb
  decide

/-- C14 (amended): `suffix_compare(string, suffix)` returns `TRUE` exactly when `string`
starts with `suffix`, that is when `suffix` is no longer than `string` and the first
`strlen(suffix)` characters of `string` are those of `suffix`, and `FALSE` otherwise. -/
theorem suffix_compare_iff_starts_with (string suffix : List Char) :
    (suffix_compare string suffix = true ↔ suffix <+: string) ∧
    (suffix_compare string suffix = true ↔
      suffix.length ≤ string.length ∧ string.take suffix.length = suffix) ∧
    (suffix_compare string suffix = false ↔ ¬ suffix <+: string) := by
  have h := suffix_compare_true_iff string suffix
  refine ⟨h, ?_, ?_⟩
  · rw [h]
    constructor
    · intro hp
      refine ⟨hp.length_le, ?_⟩
      obtain ⟨t, ht⟩ := hp
      rw [← ht, List.take_left]
    · intro hp
      exact ⟨string.drop suffix.length, by
        have := List.take_append_drop suffix.length string
        rw [hp.2] at this
        exact this⟩
  · rw [← h]
    cases suffix_compare string suffix <;> simp

/-- C15 (code defect): when `chdir` succeeds and `rmdir` reports success (`0`), `delete_dir`
returns `FALSE`; when `rmdir` reports failure (`-1`) it returns `TRUE`; when `chdir` fails
it returns `FALSE`. -/
theorem delete_dir_inverted :
    delete_dir 0 0 = false ∧ delete_dir 0 (-1) = true ∧ ∀ r, delete_dir (-1) r = false := by
  refine ⟨by decide, by decide, ?_⟩
  intro r
  simp [delete_dir]

theorem get_number_digits_loop_spec (fuel : ℕ) (number idx : ℤ) (h0 : 0 ≤ number)
    (hf : number ≤ (fuel : ℤ)) :
    ∃ k : ℕ, get_number_digits_loop fuel number idx = some (idx + (k : ℤ)) ∧
      (number < 10 → k = 0) ∧
      (1 ≤ number → (10 : ℤ) ^ k ≤ number ∧ number < (10 : ℤ) ^ (k + 1)) := by
  induction fuel generalizing number idx with
  | zero =>
    have : number = 0 := by
      simp only [Nat.cast_zero] at hf
      omega
    subst this
    refine ⟨0, by simp [get_number_digits_loop], fun _ => rfl, ?_⟩
    intro h
    omega
  | succ fuel ih =>
    by_cases h10 : number ≥ 10
    · have hq0 : 0 ≤ number / 10 := by omega
      have hqf : number / 10 ≤ (fuel : ℤ) := by
        push_cast at hf
        omega
      obtain ⟨k, h1, -, h3⟩ := ih (number / 10) (idx + 1) hq0 hqf
      have h3 := h3 (by omega)
      refine ⟨k + 1, ?_, ?_, ?_⟩
      · simp only [get_number_digits_loop, if_pos h10, h1]
        push_cast
        congr 1
        ring
      · intro h
        omega
      · intro _
        rw [pow_succ, pow_succ]
        rw [pow_succ] at h3
        constructor <;> omega
    · refine ⟨0, by simp [get_number_digits_loop, if_neg h10], fun _ => rfl, ?_⟩
      intro h
      simp only [pow_zero, zero_add, pow_one]
      omega

/-- C16: for `n >= 0`, `get_number_digits(n)` returns the number `d` of decimal digits of
`n`: `d = 1` for `n < 10`, and `10^(d-1) <= n < 10^d` for `n >= 10` (indeed for `n >= 1`). -/
theorem get_number_digits_counts (n : ℤ) (hn : 0 ≤ n) :
    ∃ d : ℕ, get_number_digits n = some (d : ℤ) ∧ 1 ≤ d ∧ (n < 10 → d = 1) ∧
      (1 ≤ n → (10 : ℤ) ^ (d - 1) ≤ n ∧ n < (10 : ℤ) ^ d) := by
  obtain ⟨k, h1, h2, h3⟩ := get_number_digits_loop_spec n.toNat n 0 hn
    (by rw [Int.toNat_of_nonneg hn])
  refine ⟨k + 1, ?_, by omega, ?_, ?_⟩
  · simp only [get_number_digits, h1, Option.map_some']
    push_cast
    ring_nf
  · intro h
    rw [h2 h]
  · intro h
    simpa using h3 h

theorem get_number_digits_counts_witness :
    (0 : ℤ) ≤ 12345 ∧ get_number_digits 12345 = some 5 := by
  obtain ⟨d, h1, -, -, h4⟩ := get_number_digits_counts 12345 (by decide)
  refine ⟨by decide, ?_⟩
  rw [h1]
  have h := h4 (by decide)
  have hd : d = 5 := by
    by_contra hne
    rcases Nat.lt_or_gt_of_ne hne with hlt | hgt
    · have : (10 : ℤ) ^ d ≤ 10 ^ 4 := pow_le_pow_right₀ (by norm_num) (by omega)
      have := h.2
      norm_num at *
      omega
    · have : (10 : ℤ) ^ 5 ≤ 10 ^ (d - 1) := pow_le_pow_right₀ (by norm_num) (by omega)
      have := h.1
      norm_num at *
      omega
  rw [hd]
  rfl

/-! ## Theorems: the bucket table -/

theorem populate_flag (c : SpectrumConstants) (s s1 : Spectrum)
    (h : s.populateMzPeakArray c = .ok s1) : s1.has_mz_peak_array_ = true := by
  unfold Spectrum.populateMzPeakArray at h
  split_ifs at h with hflag
  · simp only [Except.ok.injEq] at h
    rw [← h]
    exact hflag
  · cases hl : populate_loop c s.peaks_ (fun _ => none) with
    | error e =>
      rw [hl] at h
      cases h
    | ok arr =>
      rw [hl] at h
      simp only [Except.ok.injEq] at h
      rw [← h]

theorem populate_idem (c : SpectrumConstants) (s s1 : Spectrum)
    (h : s.populateMzPeakArray c = .ok s1) : s1.populateMzPeakArray c = .ok s1 := by
  simp only [Spectrum.populateMzPeakArray, if_pos (populate_flag c s s1 h)]

/-- C17: once `populateMzPeakArray()` has returned, a second call returns the spectrum
unchanged, bucket table included; and when `getNearestPeak(mz, max)` has returned a result, the
same query on the resulting spectrum returns the same result and leaves the spectrum as it
is. -/
theorem populate_twice_same (c : SpectrumConstants) (s : Spectrum) (mz max : ℚ) :
    (∀ s1, s.populateMzPeakArray c = .ok s1 → s1.populateMzPeakArray c = .ok s1) ∧
    (∀ o s1, s.getNearestPeak c mz max = .ok (o, s1) →
      s1.getNearestPeak c mz max = .ok (o, s1)) := by
  refine ⟨fun s1 h => populate_idem c s s1 h, ?_⟩
  intro o s1 h
  have hpop := getNearestPeak_ok_inv c s s1 mz max o h
  have hpop2 := populate_idem c s s1 hpop
  unfold Spectrum.getNearestPeak at h ⊢
  rw [hpop] at h
  rw [hpop2]
  exact h

theorem getNearestPeak_returns (c : SpectrumConstants) (s : Spectrum) (mz max : ℚ)
    (hwf : s.TableOK c)
    (h : s.has_mz_peak_array_ = true ∨
      (0 < c.MZ_TO_PEAK_ARRAY_RESOLUTION ∧
        ∀ q ∈ s.peaks_, 0 ≤ q.location ∧ q.location < (c.MAX_PEAK_MZ : ℚ))) :
    ∃ o s1, s.getNearestPeak c mz max = .ok (o, s1) := by
  have hpop : ∃ s1, s.populateMzPeakArray c = .ok s1 := by
    cases hflag : s.has_mz_peak_array_ with
    | true => exact ⟨s, by simp only [Spectrum.populateMzPeakArray, if_pos hflag]⟩
    | false =>
      rcases h with h | ⟨hR, h⟩
      · rw [hflag] at h
        cases h
      · obtain ⟨arr, h1, -⟩ := populate_unbuilt c s hflag
          (fun p hp => mz_idx_in_range c hR p.location (h p hp).1 (h p hp).2)
        exact ⟨_, h1⟩
  obtain ⟨s1, hpop⟩ := hpop
  obtain ⟨-, arr, harr, -⟩ := populate_sound c s s1 hwf hpop
  obtain ⟨o, -, h1, -, -⟩ := getNearestPeak_spec c s s1 mz max arr hpop harr
  exact ⟨o, s1, h1⟩

theorem populate_twice_same_witness :
    ∃ o s1, (Spectrum.new.addPeak 1 1).getNearestPeak example_constants 1 0 = .ok (o, s1) ∧
      s1.getNearestPeak example_constants 1 0 = .ok (o, s1) := by
  obtain ⟨o, s1, h⟩ := (getNearestPeak_returns example_constants (Spectrum.new.addPeak 1 1)
    1 0 (addPeak_tableOK _ _ _ _ (new_tableOK _))) (Or.inr ⟨by decide, by
      intro q hq
      rw [addPeak_peaks] at hq
      simp only [Spectrum.new, List.nil_append, List.mem_singleton] at hq
      subst hq
      norm_num [new_peak, example_constants]⟩)
  exact ⟨o, s1, h, (populate_twice_same example_constants (Spectrum.new.addPeak 1 1) 1 0).2 o s1 h⟩

theorem isBucketTable_nil (c : SpectrumConstants) : IsBucketTable c [] (fun _ => none) := by
  intro b
  refine ⟨⟨fun _ p hp => (by cases hp), fun _ => rfl⟩, fun p hp => (by cases hp)⟩

theorem isBucketTable_step (c : SpectrumConstants) (done : List PEAK_T)
    (arr : ℤ → Option PEAK_T) (x : PEAK_T) (h : IsBucketTable c done arr) :
    (arr (mz_idx c x.location) = none →
      IsBucketTable c (done ++ [x]) (Function.update arr (mz_idx c x.location) (some x))) ∧
    (∀ stored, arr (mz_idx c x.location) = some stored → stored.intensity < x.intensity →
      IsBucketTable c (done ++ [x]) (Function.update arr (mz_idx c x.location) (some x))) ∧
    (∀ stored, arr (mz_idx c x.location) = some stored → ¬ stored.intensity < x.intensity →
      IsBucketTable c (done ++ [x]) arr) := by
  -- slots other than the one of `x` keep their entry and their property
  have hother : ∀ b, b ≠ mz_idx c x.location →
      (arr b = none ↔ ∀ p ∈ done ++ [x], mz_idx c p.location ≠ b) ∧
      ∀ p, arr b = some p →
        mz_idx c p.location = b ∧
        (∀ q ∈ done ++ [x], mz_idx c q.location = b → q.intensity ≤ p.intensity) ∧
        ∃ pre post, done ++ [x] = pre ++ p :: post ∧
          ∀ q ∈ pre, mz_idx c q.location = b → q.intensity < p.intensity := by
    intro b hb
    obtain ⟨h1, h2⟩ := h b
    refine ⟨?_, ?_⟩
    · rw [h1]
      constructor
      · intro hd p hp
        rcases List.mem_append.mp hp with hp | hp
        · exact hd p hp
        · rw [List.mem_singleton.mp hp]
          exact fun he => hb he.symm
      · intro hd p hp
        exact hd p (List.mem_append_left _ hp)
    · intro p hp
      obtain ⟨h3, h4, pre, post, h5, h6⟩ := h2 p hp
      refine ⟨h3, ?_, pre, post ++ [x], by rw [h5]; simp, h6⟩
      intro q hq hqb
      rcases List.mem_append.mp hq with hq | hq
      · exact h4 q hq hqb
      · rw [List.mem_singleton.mp hq] at hqb
        exact absurd hqb.symm hb
  -- the slot of `x` after `x` has been stored in it
  have hstore : (∀ q ∈ done, mz_idx c q.location = mz_idx c x.location →
        q.intensity < x.intensity) →
      IsBucketTable c (done ++ [x]) (Function.update arr (mz_idx c x.location) (some x)) := by
    intro hlt b
    by_cases hb : b = mz_idx c x.location
    · subst hb
      rw [Function.update_same]
      refine ⟨⟨fun h0 => (by cases h0), fun h0 => ?_⟩, ?_⟩
      · exact absurd rfl (h0 x (List.mem_append_right _ (List.mem_singleton.mpr rfl)))
      · intro p hp
        have hpx : x = p := Option.some.inj hp
        subst hpx
        refine ⟨rfl, ?_, done, [], rfl, hlt⟩
        intro q hq hqb
        rcases List.mem_append.mp hq with hq | hq
        · exact le_of_lt (hlt q hq hqb)
        · rw [List.mem_singleton.mp hq]
    · rw [Function.update_noteq hb]
      exact hother b hb
  refine ⟨?_, ?_, ?_⟩
  · intro hnone
    apply hstore
    intro q hq hqb
    exact absurd hqb (((h _).1.mp hnone) q hq)
  · intro stored hs hlt
    apply hstore
    intro q hq hqb
    exact lt_of_le_of_lt (((h _).2 stored hs).2.1 q hq hqb) hlt
  · intro stored hs hnlt b
    by_cases hb : b = mz_idx c x.location
    · subst hb
      obtain ⟨h1, h2⟩ := h (mz_idx c x.location)
      refine ⟨⟨fun h0 => ?_, fun h0 => ?_⟩, ?_⟩
      · rw [hs] at h0
        cases h0
      · exact absurd rfl (h0 x (List.mem_append_right _ (List.mem_singleton.mpr rfl)))
      · intro p hp
        obtain ⟨h3, h4, pre, post, h5, h6⟩ := h2 p hp
        refine ⟨h3, ?_, pre, post ++ [x], by rw [h5]; simp, h6⟩
        intro q hq hqb
        rcases List.mem_append.mp hq with hq | hq
        · exact h4 q hq hqb
        · rw [List.mem_singleton.mp hq]
          rw [hs] at hp
          have : stored = p := Option.some.inj hp
          rw [← this]
          exact not_lt.mp hnlt
    · exact hother b hb

theorem populate_loop_isBucketTable (c : SpectrumConstants) (rest done : List PEAK_T)
    (arr : ℤ → Option PEAK_T) (h : IsBucketTable c done arr)
    (hr : ∀ p ∈ rest, 0 ≤ mz_idx c p.location ∧ mz_idx c p.location < array_length c) :
    ∃ arr1, populate_loop c rest arr = .ok arr1 ∧ IsBucketTable c (done ++ rest) arr1 := by
  induction rest generalizing done arr with
  | nil => exact ⟨arr, rfl, by simpa using h⟩
  | cons x rest ih =>
    have hx := hr x (List.mem_cons_self _ _)
    have hrest : ∀ p ∈ rest,
        0 ≤ mz_idx c p.location ∧ mz_idx c p.location < array_length c :=
      fun p hp => hr p (List.mem_cons_of_mem _ hp)
    have happ : done ++ x :: rest = (done ++ [x]) ++ rest := by simp
    obtain ⟨s1, s2, s3⟩ := isBucketTable_step c done arr x h
    rw [happ]
    cases hs : arr (mz_idx c x.location) with
    | none =>
      rw [populate_loop_cons_empty c x rest arr hx hs]
      exact ih _ _ (s1 hs) hrest
    | some stored =>
      by_cases hlt : stored.intensity < x.intensity
      · rw [populate_loop_cons_replace c x stored rest arr hx hs hlt]
        exact ih _ _ (s2 stored hs hlt) hrest
      · rw [populate_loop_cons_keep c x stored rest arr hx hs hlt]
        exact ih _ _ (s3 stored hs hlt) hrest

/-- C20: when `populateMzPeakArray()` builds the table (it was not built before, and every
peak's bucket index is inside the table), then for every bucket `b` the entry is `NULL`
exactly when no peak has bucket index `b`, and otherwise it is a peak with bucket index `b`
of maximal intensity among the peaks of that bucket, every earlier peak of the bucket being
strictly less intense (so it is the first of maximal intensity). -/
theorem populateMzPeakArray_buckets (c : SpectrumConstants) (s : Spectrum)
    (hflag : s.has_mz_peak_array_ = false)
    (hr : ∀ p ∈ s.peaks_, 0 ≤ mz_idx c p.location ∧ mz_idx c p.location < array_length c) :
    ∃ s1 arr, s.populateMzPeakArray c = .ok s1 ∧ s1.mz_peak_array_ = some arr ∧
      s1.peaks_ = s.peaks_ ∧
      ∀ b, (arr b = none ↔ ∀ p ∈ s.peaks_, mz_idx c p.location ≠ b) ∧
        ∀ p, arr b = some p →
          p ∈ s.peaks_ ∧ mz_idx c p.location = b ∧
          (∀ q ∈ s.peaks_, mz_idx c q.location = b → q.intensity ≤ p.intensity) ∧
          ∃ pre post, s.peaks_ = pre ++ p :: post ∧
            ∀ q ∈ pre, mz_idx c q.location = b → q.intensity < p.intensity := by
  obtain ⟨arr, h1, h2⟩ := populate_loop_isBucketTable c s.peaks_ [] (fun _ => none)
    (isBucketTable_nil c) hr
  rw [List.nil_append] at h2
  refine ⟨{ s with mz_peak_array_ := some arr, has_mz_peak_array_ := true }, arr, ?_, rfl, rfl,
    ?_⟩
  · simp only [Spectrum.populateMzPeakArray, hflag, h1]
    rfl
  · intro b
    refine ⟨(h2 b).1, ?_⟩
    intro p hp
    obtain ⟨h3, h4, pre, post, h5, h6⟩ := (h2 b).2 p hp
    exact ⟨by rw [h5]; simp, h3, h4, pre, post, h5, h6⟩

theorem populateMzPeakArray_buckets_witness :
    (Spectrum.new.addPeaks [(10, 100), (1, 1001 / 10)]).has_mz_peak_array_ = false ∧
    ∃ s1 arr, (Spectrum.new.addPeaks [(10, 100), (1, 1001 / 10)]).populateMzPeakArray
        example_constants = .ok s1 ∧ s1.mz_peak_array_ = some arr ∧
      arr 500 = some (new_peak 10 100) ∧ arr 499 = none := by
  have hs : (Spectrum.new.addPeaks [(10, 100), (1, 1001 / 10)]).peaks_ =
      [new_peak 10 100, new_peak 1 (1001 / 10)] := rfl
  have hb1 : mz_idx example_constants (new_peak 10 100).location = 500 := by
    simp only [mz_idx, float_to_int, float_trunc, INT_MIN, INT_MAX, example_constants, new_peak]
    norm_num
  have hb2 : mz_idx example_constants (new_peak 1 (1001 / 10)).location = 500 := by
    simp only [mz_idx, float_to_int, float_trunc, INT_MIN, INT_MAX, example_constants, new_peak]
    norm_num
  have hr : ∀ p ∈ (Spectrum.new.addPeaks [(10, 100), (1, 1001 / 10)]).peaks_,
      0 ≤ mz_idx example_constants p.location ∧
        mz_idx example_constants p.location < array_length example_constants := by
    intro p hp
    rw [hs] at hp
    simp only [List.mem_cons, List.mem_singleton, List.not_mem_nil, or_false] at hp
    rcases hp with hp | hp <;> subst hp
    · rw [hb1, example_array_length]
      decide
    · rw [hb2, example_array_length]
      decide
  obtain ⟨s1, arr, h1, h2, -, h4⟩ :=
    populateMzPeakArray_buckets example_constants _ rfl hr
  refine ⟨rfl, s1, arr, h1, h2, ?_, ?_⟩
  · cases ha : arr 500 with
    | none =>
      exact absurd hb1 (((h4 500).1.mp ha) (new_peak 10 100) (by rw [hs]; simp))
    | some p =>
      obtain ⟨hp1, -, hp3, -⟩ := (h4 500).2 p ha
      rw [hs] at hp1
      simp only [List.mem_cons, List.mem_singleton, List.not_mem_nil, or_false] at hp1
      rcases hp1 with hp1 | hp1
      · rw [hp1]
      · have := hp3 (new_peak 10 100) (by rw [hs]; simp) hb1
        rw [hp1] at this
        norm_num [new_peak] at this
  · apply (h4 499).1.mpr
    intro p hp
    rw [hs] at hp
    simp only [List.mem_cons, List.mem_singleton, List.not_mem_nil, or_false] at hp
    rcases hp with hp | hp <;> subst hp
    · rw [hb1]
      decide
    · rw [hb2]
      decide

/-! ## Theorems: decoy q-values -/

theorem convert_fdr_to_qvalue_cons (fdr : ℚ) (rest : List ℚ) :
    convert_fdr_to_qvalue (fdr :: rest) =
      (match convert_fdr_to_qvalue rest with
        | [] => fdr
        | prev :: _ => if prev < fdr then prev else fdr) :: convert_fdr_to_qvalue rest := by
  simp only [convert_fdr_to_qvalue]
  cases convert_fdr_to_qvalue rest <;> rfl

theorem convert_fdr_to_qvalue_length (l : List ℚ) :
    (convert_fdr_to_qvalue l).length = l.length := by
  induction l with
  | nil => rfl
  | cons fdr rest ih => rw [convert_fdr_to_qvalue_cons, List.length_cons, ih, List.length_cons]

/-- Every entry of the converted sequence is the least raw value at its position or a later
one. -/
theorem convert_fdr_to_qvalue_spec (l : List ℚ) :
    ∀ i, i < l.length → ∃ qi, (convert_fdr_to_qvalue l)[i]? = some qi ∧
      (∀ j r, i ≤ j → l[j]? = some r → qi ≤ r) ∧ ∃ j, i ≤ j ∧ l[j]? = some qi := by
  induction l with
  | nil => intro i hi; simp at hi
  | cons fdr rest ih =>
    intro i hi
    rw [convert_fdr_to_qvalue_cons]
    cases i with
    | succ k =>
      obtain ⟨qi, h1, h2, j, h3, h4⟩ := ih k (by simpa using hi)
      refine ⟨qi, by simpa using h1, ?_, j + 1, by omega, by simpa using h4⟩
      intro j r hj hr
      cases j with
      | zero => omega
      | succ j => exact h2 j r (by omega) (by simpa using hr)
    | zero =>
      cases hrest : rest with
      | nil =>
        refine ⟨fdr, by simp [convert_fdr_to_qvalue], ?_, 0, le_refl _, by simp⟩
        intro j r _ hr
        cases j with
        | zero => simp at hr; exact le_of_eq hr
        | succ j => simp at hr
      | cons x xs =>
        obtain ⟨q1, h1, h2, j1, h3, h4⟩ := ih 0 (by simp [hrest])
        rw [← hrest]
        have hlen := convert_fdr_to_qvalue_length rest
        cases hc : convert_fdr_to_qvalue rest with
        | nil => rw [hc, hrest] at hlen; simp at hlen
        | cons prev qs =>
          rw [hc] at h1
          simp only [List.getElem?_cons_zero, Option.some.injEq] at h1
          subst h1
          by_cases hlt : prev < fdr
          · refine ⟨prev, by simp [hlt], ?_, j1 + 1, by omega, by simpa using h4⟩
            intro j r _ hr
            cases j with
            | zero => simp at hr; rw [← hr]; exact le_of_lt hlt
            | succ j => exact h2 j r (by omega) (by simpa using hr)
          · refine ⟨fdr, by simp [hlt], ?_, 0, le_refl _, by simp⟩
            intro j r _ hr
            cases j with
            | zero => simp at hr; exact le_of_eq hr
            | succ j => exact le_trans (not_lt.mp hlt) (h2 j r (by omega) (by simpa using hr))

theorem convert_fdr_to_qvalue_sorted (l : List ℚ) :
    (convert_fdr_to_qvalue l).Pairwise (fun a b => a ≤ b) := by
  rw [List.pairwise_iff_getElem]
  intro i k hi hk hik
  rw [convert_fdr_to_qvalue_length] at hi hk
  obtain ⟨qi, h1, h2, _⟩ := convert_fdr_to_qvalue_spec l i hi
  obtain ⟨qk, h3, _, j, h5, h6⟩ := convert_fdr_to_qvalue_spec l k hk
  have e1 : (convert_fdr_to_qvalue l)[i] = qi := by
    rw [List.getElem?_eq_getElem (by rw [convert_fdr_to_qvalue_length]; exact hi)] at h1
    exact Option.some.inj h1
  have e2 : (convert_fdr_to_qvalue l)[k] = qk := by
    rw [List.getElem?_eq_getElem (by rw [convert_fdr_to_qvalue_length]; exact hk)] at h3
    exact Option.some.inj h3
  rw [e1, e2]
  exact h2 j qk (by omega) h6

theorem count_ge_pos (scores : List ℚ) (x : ℚ) (h : x ∈ scores) : 0 < count_ge scores x := by
  unfold count_ge
  exact List.length_pos_of_mem (List.mem_filter.mpr ⟨h, by simp⟩)

/-- Claim C19.  The q-values of `compute_decoy_qvalues` (one per target, in the order of the
target array) are non-decreasing; each is at most every raw FDR value from its rank on and is
one of them, so it is their minimum; the denominator of every raw FDR value, the number of
targets at or above a target score, is positive, so nothing is divided by zero; and for
targets `[10, 9, 8, 7]` and decoys `[9, 5]`, with any non-negative correction factor, the
sequence is `[0, c/4, c/4, c/4]`, whose first entry `0` is the raw FDR at the score `10`. -/
theorem compute_decoy_qvalues_running_minimum (correction : ℚ)
    (target_scores decoy_scores : List ℚ) :
    (compute_decoy_qvalues correction target_scores decoy_scores).length
        = target_scores.length ∧
      (compute_decoy_qvalues correction target_scores decoy_scores).Pairwise
        (fun a b => a ≤ b) ∧
      (∀ i, i < target_scores.length → ∃ qi,
        (compute_decoy_qvalues correction target_scores decoy_scores)[i]? = some qi ∧
        (∀ j t, i ≤ j → target_scores[j]? = some t →
          qi ≤ raw_fdr correction target_scores decoy_scores t) ∧
        ∃ j t, i ≤ j ∧ target_scores[j]? = some t ∧
          qi = raw_fdr correction target_scores decoy_scores t) ∧
      (∀ t, t ∈ target_scores → 0 < count_ge target_scores t) ∧
      (0 ≤ correction →
        compute_decoy_qvalues correction [10, 9, 8, 7] [9, 5]
            = [0, correction / 4, correction / 4, correction / 4] ∧
          raw_fdr correction [10, 9, 8, 7] [9, 5] 10 = 0) := by
  refine ⟨?_, convert_fdr_to_qvalue_sorted _, ?_, fun t ht => count_ge_pos _ t ht, ?_⟩
  · simp [compute_decoy_qvalues, convert_fdr_to_qvalue_length]
  · intro i hi
    obtain ⟨qi, h1, h2, j, h3, h4⟩ := convert_fdr_to_qvalue_spec
      (target_scores.map (raw_fdr correction target_scores decoy_scores)) i (by simpa using hi)
    refine ⟨qi, h1, ?_, ?_⟩
    · intro j t hj ht
      exact h2 j _ hj (by simp [ht])
    · rw [List.getElem?_map] at h4
      cases ht : target_scores[j]? with
      | none => rw [ht] at h4; simp at h4
      | some t =>
        rw [ht] at h4
        simp only [Option.map_some', Option.some.injEq] at h4
        exact ⟨j, t, h3, ht, h4.symm⟩
  · intro hc
    have e0 : raw_fdr correction [10, 9, 8, 7] [9, 5] 10 = 0 := by
      simp [raw_fdr, count_ge, List.filter]
      norm_num
    have e1 : raw_fdr correction [10, 9, 8, 7] [9, 5] 9 = correction / 2 := by
      simp [raw_fdr, count_ge, List.filter]
      norm_num
      ring
    have e2 : raw_fdr correction [10, 9, 8, 7] [9, 5] 8 = correction / 3 := by
      simp [raw_fdr, count_ge, List.filter]
      norm_num
      ring
    have e3 : raw_fdr correction [10, 9, 8, 7] [9, 5] 7 = correction / 4 := by
      simp [raw_fdr, count_ge, List.filter]
      norm_num
      ring
    refine ⟨?_, e0⟩
    simp only [compute_decoy_qvalues, List.map, e0, e1, e2, e3, convert_fdr_to_qvalue]
    rcases lt_or_eq_of_le hc with h | h
    · have h43 : correction / 4 < correction / 3 := by linarith
      have h42 : correction / 4 < correction / 2 := by linarith
      have h40 : ¬ correction / 4 < 0 := by linarith
      rw [if_pos h43, if_pos h42, if_neg h40]
    · subst h
      simp

theorem compute_decoy_qvalues_running_minimum_witness :
    compute_decoy_qvalues 1 [10, 9, 8, 7] [9, 5] = [0, 1 / 4, 1 / 4, 1 / 4] ∧
      raw_fdr 1 [10, 9, 8, 7] [9, 5] 10 = 0 ∧
      ∃ qi, (compute_decoy_qvalues 1 [10, 9, 8, 7] [9, 5])[1]? = some qi ∧
        (∀ j t, 1 ≤ j → ([10, 9, 8, 7] : List ℚ)[j]? = some t →
          qi ≤ raw_fdr 1 [10, 9, 8, 7] [9, 5] t) ∧
        ∃ j t, 1 ≤ j ∧ ([10, 9, 8, 7] : List ℚ)[j]? = some t ∧
          qi = raw_fdr 1 [10, 9, 8, 7] [9, 5] t :=
  ⟨((compute_decoy_qvalues_running_minimum 1 [10, 9, 8, 7] [9, 5]).2.2.2.2
      (by norm_num)).1,
    ((compute_decoy_qvalues_running_minimum 1 [10, 9, 8, 7] [9, 5]).2.2.2.2
      (by norm_num)).2,
    (compute_decoy_qvalues_running_minimum 1 [10, 9, 8, 7] [9, 5]).2.2.1 1 (by decide)⟩

/-! ## Theorems: match ranking -/

/-- A strictly better score excludes standing after. -/
theorem not_match_before_of_better (type : SCORER_TYPE_T) (a b : Match)
    (h : score_better type (a.match_scores_ type) (b.match_scores_ type)) :
    ¬ match_before type b a := by
  unfold match_before
  unfold score_better at h ⊢
  by_cases hl : lower_is_better type = true
  · simp only [hl, if_true] at h ⊢
    rintro (h1 | ⟨h1, _⟩)
    · exact lt_asymm h h1
    · rw [h1] at h; exact lt_irrefl _ h
  · simp only [hl, if_false] at h ⊢
    rintro (h1 | ⟨h1, _⟩)
    · exact lt_asymm h h1
    · rw [h1] at h; exact lt_irrefl _ h

theorem assign_ranks_length (type : SCORER_TYPE_T) (l : List Match) (rank : ℤ) :
    (assign_ranks type l rank).length = l.length := by
  induction l generalizing rank with
  | nil => rfl
  | cons m rest ih => simp [assign_ranks, ih]

theorem assign_ranks_getElem? (type : SCORER_TYPE_T) (l : List Match) (rank : ℤ) (i : ℕ) :
    (assign_ranks type l rank)[i]? = l[i]?.map (fun m => m.setRank type (rank + i)) := by
  induction l generalizing rank i with
  | nil => simp [assign_ranks]
  | cons m rest ih =>
    cases i with
    | zero => simp [assign_ranks]
    | succ k =>
      simp only [assign_ranks, List.getElem?_cons_succ, ih]
      congr 1
      funext x
      congr 1
      push_cast
      ring

/-- Claim C18.  After `populateMatchRank type` the collection holds the same matches (the
same scans, scores and decoy flags, as a permutation), in the sort order of `type`; the match
at position `i` has rank `i + 1`, so the ranks are `1, …, N`, each once; and a match with a
strictly better score of that type has a strictly smaller rank.  For a decoy with primary
score 5.1 and a target with primary score 7.2 the first match of the result is the target,
with rank 1 and `getScore XCORR = 7.2`. -/
theorem populateMatchRank_ranks (mc : MatchCollection) (type : SCORER_TYPE_T) :
    ((mc.populateMatchRank type).match_.map
        fun m => (m.scan, m.match_scores_, m.null_peptide_)).Perm
      (mc.match_.map fun m => (m.scan, m.match_scores_, m.null_peptide_)) ∧
    (mc.populateMatchRank type).match_.map (fun m => m.getRank type)
      = (List.range mc.match_.length).map (fun i : ℕ => (i : ℤ) + 1) ∧
    ((mc.populateMatchRank type).match_.map (fun m => m.getRank type)).Perm
      ((List.range mc.match_.length).map (fun i : ℕ => (i : ℤ) + 1)) ∧
    (∀ (i j : ℕ) (a b : Match), (mc.populateMatchRank type).match_[i]? = some a →
      (mc.populateMatchRank type).match_[j]? = some b →
      score_better type (a.match_scores_ type) (b.match_scores_ type) →
      a.getRank type < b.getRank type) ∧
    (∀ (decoy target : Match), decoy.match_scores_ .XCORR = 51 / 10 →
      target.match_scores_ .XCORR = 72 / 10 →
      ∃ first, ((MatchCollection.mk [decoy, target]).populateMatchRank .XCORR).match_[0]?
          = some first ∧
        first.scan = target.scan ∧ first.null_peptide_ = target.null_peptide_ ∧
        first.getRank .XCORR = 1 ∧ first.getScore .XCORR = some (72 / 10)) := by
  have hsorted := List.sorted_insertionSort (match_before type) mc.match_
  have hperm := List.perm_insertionSort (match_before type) mc.match_
  have hget : ∀ (i : ℕ) (a : Match), (mc.populateMatchRank type).match_[i]? = some a →
      ∃ m, (mc.match_.insertionSort (match_before type))[i]? = some m ∧
        a = m.setRank type (1 + i) := by
    intro i a ha
    simp only [MatchCollection.populateMatchRank, MatchCollection.sort,
      assign_ranks_getElem?] at ha
    cases hm : (mc.match_.insertionSort (match_before type))[i]? with
    | none => rw [hm] at ha; simp at ha
    | some m =>
      rw [hm] at ha
      simp only [Option.map_some', Option.some.injEq] at ha
      exact ⟨m, rfl, ha.symm⟩
  have hranks : (mc.populateMatchRank type).match_.map (fun m => m.getRank type)
      = (List.range mc.match_.length).map (fun i : ℕ => (i : ℤ) + 1) := by
    apply List.ext_getElem?
    intro i
    simp only [List.getElem?_map, MatchCollection.populateMatchRank, MatchCollection.sort,
      assign_ranks_getElem?]
    by_cases hi : i < mc.match_.length
    · have hi2 : i < (mc.match_.insertionSort (match_before type)).length := by
        rw [List.length_insertionSort]; exact hi
      rw [List.getElem?_eq_getElem hi2, List.getElem?_eq_getElem (by simpa using hi)]
      simp [Match.getRank, Match.setRank, add_comm]
    · have hi2 : (mc.match_.insertionSort (match_before type)).length ≤ i := by
        rw [List.length_insertionSort]; omega
      rw [List.getElem?_eq_none_iff.mpr hi2, List.getElem?_eq_none_iff.mpr (by simpa using hi)]
      rfl
  refine ⟨?_, hranks, by rw [hranks], ?_, ?_⟩
  · have e : (mc.populateMatchRank type).match_.map
          (fun m => (m.scan, m.match_scores_, m.null_peptide_))
        = (mc.match_.insertionSort (match_before type)).map
          (fun m => (m.scan, m.match_scores_, m.null_peptide_)) := by
      apply List.ext_getElem?
      intro i
      simp only [List.getElem?_map, MatchCollection.populateMatchRank, MatchCollection.sort,
        assign_ranks_getElem?]
      cases (mc.match_.insertionSort (match_before type))[i]? <;> simp [Match.setRank]
    rw [e]
    exact hperm.map _
  · intro i j a b ha hb hbetter
    obtain ⟨m, hm, rfl⟩ := hget i a ha
    obtain ⟨n, hn, rfl⟩ := hget j b hb
    have hlt : i < j := by
      by_contra hge
      rcases Nat.lt_or_ge j i with hji | hij
      · have hi2 := (List.getElem?_eq_some_iff.mp hm).1
        have hj2 := (List.getElem?_eq_some_iff.mp hn).1
        have := List.pairwise_iff_getElem.mp hsorted j i hj2 hi2 hji
        rw [(List.getElem?_eq_some_iff.mp hm).2, (List.getElem?_eq_some_iff.mp hn).2] at this
        exact not_match_before_of_better type m n (by simpa [Match.setRank] using hbetter) this
      · have hij2 : i = j := by omega
        subst hij2
        rw [hm] at hn
        cases hn
        have := not_match_before_of_better type m m (by simpa [Match.setRank] using hbetter)
        exact this (((match_before_total type).total m m).elim id id)
    simp only [Match.getRank, Match.setRank, Function.update_same]
    omega
  · intro decoy target hd ht
    have hnb : ¬ match_before .XCORR decoy target := by
      apply not_match_before_of_better
      simp only [score_better, lower_is_better, ht, hd]
      norm_num
    refine ⟨target.setRank .XCORR 1, ?_, rfl, rfl, ?_, ?_⟩
    · simp [MatchCollection.populateMatchRank, MatchCollection.sort, List.insertionSort,
        List.orderedInsert, hnb, assign_ranks]
    · simp [Match.getRank, Match.setRank]
    · simp only [Match.getScore, Match.setRank, ht, NOT_SCORED]
      rw [if_neg]
      intro h
      have : (72 / 10 : ℚ) < 1 := by
        rw [h]
        apply div_lt_self one_pos
        norm_num
      norm_num at this

theorem populateMatchRank_ranks_witness :
    ∃ first, ((MatchCollection.mk [example_decoy, example_target]).populateMatchRank
        .XCORR).match_[0]? = some first ∧
      first.scan = example_target.scan ∧ first.null_peptide_ = example_target.null_peptide_ ∧
      first.getRank .XCORR = 1 ∧ first.getScore .XCORR = some (72 / 10) :=
  (populateMatchRank_ranks (MatchCollection.mk []) .XCORR).2.2.2.2 example_decoy
    example_target (by simp [example_decoy]) (by simp [example_target])

/-! ## Theorems: the parsers -/

theorem dropWhile_dropWhile (p : Char → Bool) (l : List Char) :
    (l.dropWhile p).dropWhile p = l.dropWhile p := by
  induction l with
  | nil => rfl
  | cons a l ih =>
    by_cases h : p a = true
    · simp [List.dropWhile, h, ih]
    · simp [List.dropWhile, h]

/-- The three `sscanf` tests of the peak branch accept exactly the lines of two numeric
fields. -/
theorem sscanf_peak_tests (env : ParseEnv) (line : List Char)
    (h2 : ¬ (sscanf env line [.f, .space, .f, .space, .c]).length > 2)
    (h3 : ¬ (sscanf env line [.f, .space, .f]).length ≠ 2) :
    two_numeric_fields env line := by
  simp only [sscanf, dropWhile_dropWhile] at h2 h3
  cases hx : env.scan_float (line.dropWhile isspace) with
  | none => simp [hx] at h3
  | some p1 =>
    obtain ⟨x, rest1⟩ := p1
    simp only [hx] at h2 h3
    cases hy : env.scan_float (rest1.dropWhile isspace) with
    | none => simp [hy] at h3
    | some p2 =>
      obtain ⟨y, rest2⟩ := p2
      simp only [hy] at h2
      refine ⟨x, rest1, y, rest2, hx, hy, ?_⟩
      cases hr : rest2.dropWhile isspace with
      | nil => rfl
      | cons ch r => simp [hr] at h2

theorem ms2_loop_append (env : ParseEnv) (pre post : List (List Char)) :
    ∀ (s : Spectrum) (flags : Ms2Flags) (s1 : Spectrum) (flags1 : Ms2Flags),
      ms2_loop env s flags pre = .ok (s1, flags1, []) →
      ms2_loop env s flags (pre ++ post) = ms2_loop env s1 flags1 post := by
  induction pre with
  | nil =>
    intro s flags s1 flags1 h
    simp only [ms2_loop, Except.ok.injEq, Prod.mk.injEq, and_true] at h
    rw [h.1, h.2]
    rfl
  | cons x pre ih =>
    intro s flags s1 flags1 h
    simp only [ms2_loop, List.cons_append] at h ⊢
    cases hx : ms2_line env s flags x with
    | error e => rw [hx] at h; simp at h
    | ok r =>
      cases r with
      | stop s2 f2 => rw [hx] at h; simp at h
      | next s2 f2 =>
        rw [hx] at h
        simp only [] at h ⊢
        exact ih s2 f2 s1 flags1 h

/-- A line that starts with `Z`, `I` or `D` stops the loop when no `S` line has been read or
a peak has been added. -/
theorem ms2_line_ZID (env : ParseEnv) (s : Spectrum) (flags : Ms2Flags) (line : List Char)
    (hf : flags.record_S = false ∨ flags.start_addPeaks = true) (hl : is_ZID_line line) :
    ms2_line env s flags line = .ok (.stop s { flags with file_format := false }) := by
  unfold ms2_line
  have hc : (flags.record_S = false ∨ (flags.record_S = true ∧ flags.start_addPeaks = true)) ∧
      (first_char line = 'Z' ∨ first_char line = 'I' ∨ first_char line = 'D') := by
    refine ⟨?_, hl⟩
    rcases hf with h | h
    · exact Or.inl h
    · cases hS : flags.record_S
      · exact Or.inl rfl
      · exact Or.inr ⟨rfl, h⟩
  simp only [if_pos hc]

/-- A peak line reaches the peak branch of the loop body. -/
theorem ms2_line_peak (env : ParseEnv) (s : Spectrum) (flags : Ms2Flags) (line : List Char)
    (hl : is_peak_line line) :
    ms2_line env s flags line =
      if flags.record_Z = false ∨ flags.record_S = false then
        .ok (.stop s { flags with file_format := false })
      else if (sscanf env line [.f, .space, .f, .space, .f]).length > 2 ∨
          (sscanf env line [.f, .space, .f, .space, .c]).length > 2 ∨
          (sscanf env line [.f, .space, .f]).length ≠ 2 then
        .ok (.stop s { flags with file_format := false })
      else
        .ok (.next (s.addPeak (float_arg (sscanf env line [.f, .space, .f]) 1)
            (float_arg (sscanf env line [.f, .space, .f]) 0))
          { flags with file_format := true, start_addPeaks := true }) := by
  obtain ⟨hS, hZ, hI, hD, hn⟩ := hl
  unfold ms2_line
  simp only [hS, hZ, hI, hD, hn, false_and, and_false, or_false, false_or, if_false, ne_eq,
    not_false_eq_true, and_self, if_true]
  by_cases h1 : flags.record_Z = false ∨ flags.record_S = false
  · simp only [if_pos h1]
  · simp only [if_neg h1]
    by_cases h2 : (sscanf env line [.f, .space, .f, .space, .f]).length > 2 ∨
        (sscanf env line [.f, .space, .f, .space, .c]).length > 2 ∨
        ¬ (sscanf env line [.f, .space, .f]).length = 2
    · simp only [if_pos h2]
    · simp only [if_neg h2]
      have h3 : flags.record_Z = true ∧ flags.record_S = true ∧
          (sscanf env line [.f, .space, .f]).length = 2 := by
        push_neg at h1 h2
        refine ⟨by simpa using h1.1, by simpa using h1.2, h2.2.2⟩
      simp only [if_pos h3]

/-- What one pass through the loop body that does not stop does to the flags. -/
theorem ms2_line_flags (env : ParseEnv) (s s1 : Spectrum) (flags flags1 : Ms2Flags)
    (line : List Char) (h : ms2_line env s flags line = .ok (.next s1 flags1)) :
    (flags1.record_S = true → flags.record_S = true ∨ first_char line = 'S') ∧
    (flags1.record_Z = true → flags.record_Z = true ∨ first_char line = 'Z') ∧
    (flags.start_addPeaks = true → flags1.start_addPeaks = true) ∧
    (is_peak_line line → flags1.start_addPeaks = true) := by
  unfold ms2_line at h
  by_cases c1 : (flags.record_S = false ∨ (flags.record_S = true ∧ flags.start_addPeaks = true)) ∧
      (first_char line = 'Z' ∨ first_char line = 'I' ∨ first_char line = 'D')
  · rw [if_pos c1] at h
    cases h
  rw [if_neg c1] at h
  by_cases c2 : first_char line = 'S' ∧ flags.record_S = false
  · rw [if_pos c2] at h
    cases hp : s.parseSLine env line with
    | error e => rw [hp] at h; cases h
    | ok r =>
      obtain ⟨b, s2⟩ := r
      rw [hp] at h
      cases b
      · cases h
      · cases h
        exact ⟨fun _ => Or.inr c2.1, fun hz => Or.inl hz, fun hs => hs,
          fun hp => absurd c2.1 hp.1⟩
  rw [if_neg c2] at h
  by_cases c3 : first_char line = 'Z'
  · rw [if_pos c3] at h
    cases hp : s.parseZLine env line with
    | mk b s2 =>
      rw [hp] at h
      cases b
      · cases h
      · cases h
        exact ⟨fun hs => Or.inl hs, fun _ => Or.inr c3, fun hs => hs,
          fun hp => absurd c3 hp.2.1⟩
  rw [if_neg c3] at h
  by_cases c4 : first_char line = 'D'
  · rw [if_pos c4] at h
    cases hp : s.parseDLine line with
    | mk b s2 =>
      rw [hp] at h
      cases b
      · cases h
      · cases h
        exact ⟨fun hs => Or.inl hs, fun hz => Or.inl hz, fun hs => hs,
          fun hp => absurd c4 hp.2.2.2.1⟩
  rw [if_neg c4] at h
  by_cases c5 : first_char line = 'I'
  · rw [if_pos c5] at h
    cases hp : s.parseILine line with
    | error e => rw [hp] at h; cases h
    | ok r =>
      obtain ⟨b, s2⟩ := r
      rw [hp] at h
      cases b
      · cases h
      · cases h
        exact ⟨fun hs => Or.inl hs, fun hz => Or.inl hz, fun hs => hs,
          fun hp => absurd c5 hp.2.2.1⟩
  rw [if_neg c5] at h
  by_cases c6 : first_char line = 'S' ∧ flags.start_addPeaks = true
  · rw [if_pos c6] at h
    cases h
  rw [if_neg c6] at h
  by_cases c7 : first_char line ≠ 'Z' ∧ first_char line ≠ 'I' ∧ first_char line ≠ 'D' ∧
      first_char line ≠ '\n'
  · rw [if_pos c7] at h
    by_cases c8 : flags.record_Z = false ∨ flags.record_S = false
    · rw [if_pos c8] at h
      cases h
    rw [if_neg c8] at h
    by_cases c9 : (sscanf env line [.f, .space, .f, .space, .f]).length > 2 ∨
        (sscanf env line [.f, .space, .f, .space, .c]).length > 2 ∨
        (sscanf env line [.f, .space, .f]).length ≠ 2
    · rw [if_pos c9] at h
      cases h
    rw [if_neg c9] at h
    have c10 : flags.record_Z = true ∧ flags.record_S = true ∧
        (sscanf env line [.f, .space, .f]).length = 2 := by
      push_neg at c8 c9
      exact ⟨by simpa using c8.1, by simpa using c8.2, c9.2.2⟩
    rw [if_pos c10] at h
    cases h
    exact ⟨fun _ => Or.inl c10.2.1, fun _ => Or.inl c10.1, fun _ => rfl, fun _ => rfl⟩
  · rw [if_neg c7] at h
    cases h
    refine ⟨fun hs => Or.inl hs, fun hz => Or.inl hz, fun hs => hs, fun hp => ?_⟩
    exact absurd ⟨hp.2.1, hp.2.2.1, hp.2.2.2.1, hp.2.2.2.2⟩ c7

theorem ms2_loop_flags (env : ParseEnv) (pre : List (List Char)) :
    ∀ (s : Spectrum) (flags : Ms2Flags) (s1 : Spectrum) (flags1 : Ms2Flags),
      ms2_loop env s flags pre = .ok (s1, flags1, []) →
      (flags1.record_S = true → flags.record_S = true ∨ ∃ x ∈ pre, first_char x = 'S') ∧
      (flags1.record_Z = true → flags.record_Z = true ∨ ∃ x ∈ pre, first_char x = 'Z') ∧
      (flags.start_addPeaks = true → flags1.start_addPeaks = true) ∧
      ((∃ x ∈ pre, is_peak_line x) → flags1.start_addPeaks = true) := by
  induction pre with
  | nil =>
    intro s flags s1 flags1 h
    simp only [ms2_loop, Except.ok.injEq, Prod.mk.injEq, and_true] at h
    obtain ⟨-, rfl⟩ := h
    exact ⟨fun h => Or.inl h, fun h => Or.inl h, fun h => h, fun ⟨x, hx, _⟩ => by simp at hx⟩
  | cons x pre ih =>
    intro s flags s1 flags1 h
    simp only [ms2_loop] at h
    cases hx : ms2_line env s flags x with
    | error e => rw [hx] at h; simp at h
    | ok r =>
      cases r with
      | stop s2 f2 => rw [hx] at h; simp at h
      | next s2 f2 =>
        rw [hx] at h
        simp only [] at h
        obtain ⟨a1, a2, a3, a4⟩ := ms2_line_flags env s s2 flags f2 x hx
        obtain ⟨b1, b2, b3, b4⟩ := ih s2 f2 s1 flags1 h
        refine ⟨?_, ?_, fun hs => b3 (a3 hs), ?_⟩
        · intro hs
          rcases b1 hs with h1 | ⟨y, hy, hy2⟩
          · rcases a1 h1 with h2 | h2
            · exact Or.inl h2
            · exact Or.inr ⟨x, List.mem_cons_self _ _, h2⟩
          · exact Or.inr ⟨y, List.mem_cons_of_mem _ hy, hy2⟩
        · intro hz
          rcases b2 hz with h1 | ⟨y, hy, hy2⟩
          · rcases a2 h1 with h2 | h2
            · exact Or.inl h2
            · exact Or.inr ⟨x, List.mem_cons_self _ _, h2⟩
          · exact Or.inr ⟨y, List.mem_cons_of_mem _ hy, hy2⟩
        · rintro ⟨y, hy, hy2⟩
          rcases List.mem_cons.mp hy with rfl | hy
          · exact b3 (a4 hy2)
          · exact b4 ⟨y, hy, hy2⟩

/-- Before the `S` line, a line that does not start with `S` either stops the loop with
`file_format` false or changes nothing. -/
theorem ms2_line_before_S (env : ParseEnv) (s : Spectrum) (flags : Ms2Flags) (line : List Char)
    (hS : flags.record_S = false) (hl : first_char line ≠ 'S') :
    ms2_line env s flags line = .ok (.stop s { flags with file_format := false }) ∨
      ms2_line env s flags line = .ok (.next s flags) := by
  by_cases hzid : is_ZID_line line
  · exact Or.inl (ms2_line_ZID env s flags line (Or.inl hS) hzid)
  · have hZ : first_char line ≠ 'Z' := fun h => hzid (Or.inl h)
    have hI : first_char line ≠ 'I' := fun h => hzid (Or.inr (Or.inl h))
    have hD : first_char line ≠ 'D' := fun h => hzid (Or.inr (Or.inr h))
    by_cases hn : first_char line = '\n'
    · right
      unfold ms2_line
      have c1 : ¬ ((flags.record_S = false ∨
          (flags.record_S = true ∧ flags.start_addPeaks = true)) ∧
          (first_char line = 'Z' ∨ first_char line = 'I' ∨ first_char line = 'D')) :=
        fun h => hzid h.2
      have c2 : ¬ (first_char line = 'S' ∧ flags.record_S = false) := fun h => hl h.1
      have c6 : ¬ (first_char line = 'S' ∧ flags.start_addPeaks = true) := fun h => hl h.1
      have c7 : ¬ (first_char line ≠ 'Z' ∧ first_char line ≠ 'I' ∧ first_char line ≠ 'D' ∧
          first_char line ≠ '\n') := fun h => h.2.2.2 hn
      rw [if_neg c1, if_neg c2, if_neg hZ, if_neg hD, if_neg hI, if_neg c6, if_neg c7]
    · left
      rw [ms2_line_peak env s flags line ⟨hl, hZ, hI, hD, hn⟩, if_pos (Or.inr hS)]

theorem ms2_loop_before_S (env : ParseEnv) (pre post : List (List Char)) (line : List Char)
    (hl : is_ZID_line line) :
    ∀ (s : Spectrum) (flags : Ms2Flags), flags.record_S = false → flags.file_format = false →
      (∀ x ∈ pre, first_char x ≠ 'S') →
      ∃ flags1 unread, ms2_loop env s flags (pre ++ line :: post) = .ok (s, flags1, unread) ∧
        flags1.record_S = false ∧ flags1.file_format = false := by
  induction pre with
  | nil =>
    intro s flags hS hf _
    refine ⟨{ flags with file_format := false }, line :: post, ?_, hS, rfl⟩
    simp only [List.nil_append, ms2_loop, ms2_line_ZID env s flags line (Or.inl hS) hl]
  | cons x pre ih =>
    intro s flags hS hf hpre
    have hx : first_char x ≠ 'S' := hpre x (List.mem_cons_self _ _)
    rcases ms2_line_before_S env s flags x hS hx with h | h
    · refine ⟨{ flags with file_format := false }, x :: (pre ++ line :: post), ?_, hS, rfl⟩
      rw [List.cons_append]
      simp only [ms2_loop, h]
    · obtain ⟨f1, u, h1, h2, h3⟩ := ih s flags hS hf
        (fun y hy => hpre y (List.mem_cons_of_mem _ hy))
      refine ⟨f1, u, ?_, h2, h3⟩
      rw [List.cons_append]
      simp only [ms2_loop, h]
      exact h1

/-- Claim C11.  `parseMs2` returns false in each of the four cases.  (a) If no line before
`line` starts with `S` and `line` starts with `Z`, `I` or `D`, the result is false whatever
the other lines are, and the spectrum only gets its file name.  For a line `line` of the
spectrum being read (the loop reads all the lines `pre` before it): if (a) holds, or (b) a
peak line is among `pre` and `line` starts with `Z`, `I` or `D`, or (c) no line of `pre`
starts with `Z` and `line` is a peak line, or (d) `line` is a peak line that does not consist
of exactly two numeric fields, then `parseMs2` returns false and leaves the file at the start
of `line`. -/
theorem parseMs2_rejects (env : ParseEnv) (s : Spectrum) (filename : List Char)
    (pre post : List (List Char)) (line : List Char) :
    ((∀ x ∈ pre, first_char x ≠ 'S') → is_ZID_line line →
      ∃ unread, s.parseMs2 env (pre ++ line :: post) filename
        = .ok (false, { s with filename_ := filename }, unread)) ∧
    (ms2_reads env s pre →
      ((∀ x ∈ pre, first_char x ≠ 'S') ∧ is_ZID_line line) ∨
        ((∃ x ∈ pre, is_peak_line x) ∧ is_ZID_line line) ∨
        ((∀ x ∈ pre, first_char x ≠ 'Z') ∧ is_peak_line line) ∨
        (is_peak_line line ∧ ¬ two_numeric_fields env line) →
      ∃ s1, s.parseMs2 env (pre ++ line :: post) filename = .ok (false, s1, line :: post)) := by
  constructor
  · intro hpre hl
    obtain ⟨f1, u, h1, h2, h3⟩ := ms2_loop_before_S env pre post line hl s Ms2Flags.start rfl rfl hpre
    refine ⟨u, ?_⟩
    simp only [Spectrum.parseMs2, h1, h2, h3, and_self, if_true]
  · rintro ⟨s1, f1, hread⟩ hbad
    obtain ⟨a1, a2, a3, a4⟩ := ms2_loop_flags env pre s Ms2Flags.start s1 f1 hread
    have hstop : ms2_line env s1 f1 line = .ok (.stop s1 { f1 with file_format := false }) := by
      rcases hbad with ⟨hS, hl⟩ | ⟨hp, hl⟩ | ⟨hZ, hl⟩ | ⟨hl, hn⟩
      · apply ms2_line_ZID env s1 f1 line _ hl
        left
        cases hrs : f1.record_S
        · rfl
        · rcases a1 hrs with h | ⟨x, hx, hx2⟩
          · cases h
          · exact absurd hx2 (hS x hx)
      · exact ms2_line_ZID env s1 f1 line (Or.inr (a4 hp)) hl
      · have hrz : f1.record_Z = false := by
          cases hrz : f1.record_Z
          · rfl
          · rcases a2 hrz with h | ⟨x, hx, hx2⟩
            · cases h
            · exact absurd hx2 (hZ x hx)
        rw [ms2_line_peak env s1 f1 line hl, if_pos (Or.inl hrz)]
      · rw [ms2_line_peak env s1 f1 line hl]
        by_cases c8 : f1.record_Z = false ∨ f1.record_S = false
        · rw [if_pos c8]
        · rw [if_neg c8]
          by_cases c9 : (sscanf env line [.f, .space, .f, .space, .f]).length > 2 ∨
              (sscanf env line [.f, .space, .f, .space, .c]).length > 2 ∨
              (sscanf env line [.f, .space, .f]).length ≠ 2
          · rw [if_pos c9]
          · exfalso
            apply hn
            apply sscanf_peak_tests env line
            · exact fun h => c9 (Or.inr (Or.inl h))
            · exact fun h => c9 (Or.inr (Or.inr h))
    refine ⟨{ s1 with filename_ := filename }, ?_⟩
    have hloop : ms2_loop env s Ms2Flags.start (pre ++ line :: post)
        = .ok (s1, { f1 with file_format := false }, line :: post) := by
      rw [ms2_loop_append env pre (line :: post) s Ms2Flags.start s1 f1 hread]
      simp only [ms2_loop, hstop]
    simp only [Spectrum.parseMs2, hloop]
    by_cases hrs : f1.record_S = false
    · simp [hrs]
    · simp [hrs]

theorem parseMs2_rejects_witness :
    (∃ unread, Spectrum.new.parseMs2 example_env
        ["\n".toList, "Z\t2\t1000\n".toList, "S\t1\t1\t500.5\n".toList] "a.ms2".toList
      = .ok (false, { Spectrum.new with filename_ := "a.ms2".toList }, unread)) ∧
    ∃ s1, Spectrum.new.parseMs2 example_env
        ["S\t1\t1\t500.5\n".toList, "Z\t2\t1000\n".toList, "100.5 20\n".toList,
          "Z\t3\t1500\n".toList, "200 3\n".toList] "a.ms2".toList
      = .ok (false, s1, ["Z\t3\t1500\n".toList, "200 3\n".toList]) :=
  ⟨(parseMs2_rejects example_env Spectrum.new "a.ms2".toList ["\n".toList]
      ["S\t1\t1\t500.5\n".toList] "Z\t2\t1000\n".toList).1
      (by decide) (by unfold is_ZID_line; decide),
    (parseMs2_rejects example_env Spectrum.new "a.ms2".toList
      ["S\t1\t1\t500.5\n".toList, "Z\t2\t1000\n".toList, "100.5 20\n".toList]
      ["200 3\n".toList] "Z\t3\t1500\n".toList).2
      ⟨_, _, rfl⟩
      (Or.inr (Or.inl ⟨⟨"100.5 20\n".toList, by simp, by unfold is_peak_line; decide⟩,
        by unfold is_ZID_line; decide⟩))⟩

/-- Claim C12 (refuted by the code).  The `do`/`while` loop of `parseMgf` never rejects a
line: whatever the lines before the first line that starts with `END IONS` are, the loop ends
there with `end_found` true.  The line `garbage` is not a pair of numbers (`sscanf` converts
nothing), yet `parseMgf` returns true on a block that has it between the peak line `100 5`
and `END IONS`; the line is skipped and the spectrum holds the one peak. -/
theorem parseMgf_skips_malformed_peak_line :
    (∀ (env : ParseEnv) (s : Spectrum) (new_line end_line : List Char)
        (body post : List (List Char)),
      strncmp_eq end_line "END IONS".toList 8 = true →
      (∀ x ∈ new_line :: body, strncmp_eq x "END IONS".toList 8 = false) →
      ∃ s1, mgf_peak_loop env s new_line (body ++ end_line :: post) = (s1, true, post)) ∧
    (sscanf example_env "garbage\n".toList [.f, .space, .f]).length = 0 ∧
    ∃ s1, Spectrum.new.parseMgf example_env 1
        ["BEGIN IONS\n".toList, "TITLE=a\n".toList, "100 5\n".toList, "garbage\n".toList,
          "END IONS\n".toList] "a.mgf".toList = .ok (true, s1, 2, []) ∧
      s1.peaks_ = [new_peak 5 100] := by
  refine ⟨?_, rfl, _, rfl, ?_⟩
  · intro env s new_line end_line body post hend
    induction body generalizing s new_line with
    | nil =>
      intro hbody
      have h1 := hbody new_line (List.mem_cons_self _ _)
      refine ⟨mgf_peak_line env s new_line, ?_⟩
      rw [List.nil_append]
      cases post <;>
        simp only [mgf_peak_loop, h1, hend, Bool.false_eq_true, if_false, if_true]
    | cons b body ih =>
      intro hbody
      have h1 := hbody new_line (List.mem_cons_self _ _)
      obtain ⟨s1, hs1⟩ := ih (mgf_peak_line env s new_line) b
        (fun x hx => hbody x (List.mem_cons_of_mem _ hx))
      refine ⟨s1, ?_⟩
      rw [List.cons_append]
      simp only [mgf_peak_loop, h1, Bool.false_eq_true, if_false]
      exact hs1
  · simp [new_peak, Spectrum.addPeak, Spectrum.updateFields, mgf_peak_line, float_arg, sscanf,
      example_env, scan_decimal, digits_value, isspace, Spectrum.new]

theorem parseMgf_skips_malformed_peak_line_witness :
    ∃ s1, mgf_peak_loop example_env Spectrum.new "100 5\n".toList
      (["garbage\n".toList] ++ "END IONS\n".toList :: []) = (s1, true, []) :=
  parseMgf_skips_malformed_peak_line.1 example_env Spectrum.new "100 5\n".toList
    "END IONS\n".toList ["garbage\n".toList] [] (by decide) (by decide)

/-! ## Theorems: the table after a peak is added -/

theorem addPeak_populate (c : SpectrumConstants) (s : Spectrum) (i m : ℚ)
    (hflag : s.has_mz_peak_array_ = true) :
    (s.addPeak i m).populateMzPeakArray c = .ok (s.addPeak i m) := by
  have h : (s.addPeak i m).has_mz_peak_array_ = true := hflag
  simp only [Spectrum.populateMzPeakArray, if_pos h]

theorem addPeak_table (s : Spectrum) (i m : ℚ) :
    (s.addPeak i m).mz_peak_array_ = s.mz_peak_array_ := rfl

/-- With the table built, a query after `addPeak` scans the table of before. -/
theorem getNearestPeak_after_addPeak (c : SpectrumConstants) (s : Spectrum) (i m mz max : ℚ)
    (hflag : s.has_mz_peak_array_ = true) (o : Option PEAK_T) :
    (s.addPeak i m).getNearestPeak c mz max = .ok (o, s.addPeak i m) ↔
      s.getNearestPeak c mz max = .ok (o, s) := by
  have h1 : s.populateMzPeakArray c = .ok s := by
    simp only [Spectrum.populateMzPeakArray, if_pos hflag]
  unfold Spectrum.getNearestPeak
  rw [addPeak_populate c s i m hflag, h1]
  simp only [addPeak_table]
  cases nearest_loop c s.mz_peak_array_ mz max
      (max_mz_idx c mz max + 1 - min_mz_idx c mz max).toNat (min_mz_idx c mz max) none
      c.BILLION with
  | error e => simp
  | ok r => simp

theorem example_single_table :
    (Spectrum.new.addPeak 10 100).populateMzPeakArray example_constants =
      .ok { Spectrum.new.addPeak 10 100 with
        mz_peak_array_ := some (Function.update (fun _ => none) 500 (some (new_peak 10 100)))
        has_mz_peak_array_ := true } := by
  have h1 : mz_idx example_constants (new_peak 10 100).location = 500 := by
    simp only [mz_idx, float_to_int, float_trunc, INT_MIN, INT_MAX, example_constants, new_peak]
    norm_num
  have hflag : (Spectrum.new.addPeak 10 100).has_mz_peak_array_ = false := rfl
  have hs : (Spectrum.new.addPeak 10 100).peaks_ = [new_peak 10 100] := rfl
  have hl : populate_loop example_constants [new_peak 10 100] (fun _ => none) =
      .ok (Function.update (fun _ => none) 500 (some (new_peak 10 100))) := by
    rw [populate_loop_cons_empty _ _ _ _ (by rw [h1, example_array_length]; decide) rfl, h1]
    rfl
  simp only [Spectrum.populateMzPeakArray, hflag, hs, hl]
  rfl

/-- Claim C21 (as stated, refuted).  With `MAX_PEAK_MZ = 5000` and five buckets per unit: a
spectrum with the peak (intensity 10, m/z 100) is queried at `(100, 1)`, which builds the
table and returns that peak; then `addPeak(5, 200)`; the query `(200, 0.5)` returns `NULL`
although the new peak is at distance 0 from 200, and 200 is in `[0, MAX_PEAK_MZ)`. -/
theorem getNearestPeak_misses_added_peak :
    ∃ s1, (Spectrum.new.addPeak 10 100).getNearestPeak example_constants 100 1
        = .ok (some (new_peak 10 100), s1) ∧
      new_peak 5 200 ∈ (s1.addPeak 5 200).peaks_ ∧
      |(200 : ℚ) - (new_peak 5 200).location| = 0 ∧
      (0 : ℚ) ≤ 200 ∧ (200 : ℚ) < (example_constants.MAX_PEAK_MZ : ℚ) ∧
      (s1.addPeak 5 200).getNearestPeak example_constants 200 (1 / 2)
        = .ok (none, s1.addPeak 5 200) := by
  have hpop := example_single_table
  have hBILL : example_constants.BILLION = 1000000000 := rfl
  obtain ⟨o, md1, h1, h2, h3⟩ := getNearestPeak_spec example_constants _ _ 100 1 _ hpop rfl
  have hlo : min_mz_idx example_constants 100 1 = 495 := by
    simp only [min_mz_idx, float_to_int, float_trunc, INT_MIN, INT_MAX, example_constants]
    norm_num
  have hhi : max_mz_idx example_constants 100 1 = 505 := by
    simp only [max_mz_idx, float_to_int, float_trunc, INT_MIN, INT_MAX, example_constants]
    norm_num
  have hmd := h3 500 (new_peak 10 100) (by rw [hlo]; decide) (by rw [hhi]; decide)
    (by rw [Function.update_same]) (by norm_num [new_peak])
  have ho : o = some (new_peak 10 100) := by
    rcases h2 with ⟨-, h2⟩ | ⟨p, i, ha, -, -, hd, -, -, -⟩
    · exfalso
      rw [h2, hBILL] at hmd
      norm_num [new_peak] at hmd
    · by_cases hi : i = 500
      · subst hi
        rw [Function.update_same] at hd
        rw [ha, ← Option.some.inj hd]
      · rw [Function.update_noteq hi] at hd
        cases hd
  rw [ho] at h1
  refine ⟨_, h1, ?_, by norm_num [new_peak], by norm_num, by norm_num [example_constants], ?_⟩
  · rw [addPeak_peaks]
    simp
  · rw [getNearestPeak_after_addPeak example_constants _ 5 200 200 (1 / 2) rfl none]
    obtain ⟨o2, md2, g1, g2, -⟩ := getNearestPeak_spec example_constants _ _ 200 (1 / 2)
      (Function.update (fun _ => none) 500 (some (new_peak 10 100)))
      (populate_idem example_constants _ _ hpop) rfl
    have ho2 : o2 = none := by
      rcases g2 with ⟨g2, -⟩ | ⟨p, i, -, -, -, hd, he, -, -⟩
      · exact g2
      · exfalso
        by_cases hi : i = 500
        · subst hi
          rw [Function.update_same] at hd
          rw [← Option.some.inj hd] at he
          simp only [new_peak] at he
          rw [show ((200 : ℚ) - 100) = 100 by norm_num,
            abs_of_pos (by norm_num : (0 : ℚ) < 100)] at he
          norm_num at he
        · rw [Function.update_noteq hi] at hd
          cases hd
    rw [ho2] at g1
    exact g1

theorem addPeak_zstates (s : Spectrum) (i m : ℚ) : (s.addPeak i m).zstates_ = s.zstates_ := rfl

theorem mgf_peak_line_zstates (env : ParseEnv) (s : Spectrum) (new_line : List Char) :
    (mgf_peak_line env s new_line).zstates_ = s.zstates_ := by
  unfold mgf_peak_line
  split_ifs
  · rfl
  · rfl

theorem mgf_peak_loop_zstates (env : ParseEnv) (lines : List (List Char)) :
    ∀ (s : Spectrum) (new_line : List Char),
      (mgf_peak_loop env s new_line lines).1.zstates_ = s.zstates_ := by
  induction lines with
  | nil =>
    intro s new_line
    simp only [mgf_peak_loop]
    split_ifs
    · rfl
    · exact mgf_peak_line_zstates env s new_line
  | cons next_line rest ih =>
    intro s new_line
    simp only [mgf_peak_loop]
    split_ifs
    · rfl
    · rw [ih, mgf_peak_line_zstates]

theorem mgf_header_loop_zstates (env : ParseEnv) (spec_count : ℤ) (lines : List (List Char)) :
    ∀ (s : Spectrum) (header : MgfHeader) (new_line : List Char),
      (∀ s1 unread, mgf_header_loop env spec_count s header new_line lines
          = .ok (.returned s1 unread) → s1.zstates_ = s.zstates_) ∧
      (∀ s1 header1 line1 unread, mgf_header_loop env spec_count s header new_line lines
          = .ok (.left s1 header1 line1 unread) → s1.zstates_ = s.zstates_) := by
  induction lines with
  | nil =>
    intro s header new_line
    simp only [mgf_header_loop]
    refine ⟨fun s1 unread h => (by cases h), fun s1 header1 line1 unread h => ?_⟩
    cases h
    rfl
  | cons line rest ih =>
    intro s header new_line
    simp only [mgf_header_loop]
    split_ifs
    · exact ih _ _ _
    · exact ih _ _ _
    · exact ⟨fun s1 unread h => (by cases h), fun s1 header1 line1 unread h => (by cases h)⟩
    · exact ih _ _ _
    · refine ⟨fun s1 unread h => (by cases h), fun s1 header1 line1 unread h => ?_⟩
      cases h
      rfl
    · refine ⟨fun s1 unread h => ?_, fun s1 header1 line1 unread h => (by cases h)⟩
      cases h
      rfl
    · exact ih _ _ _

/-- Claim C25 (refuted by the code).  `parseMgf` never stores a charge state: whatever the
file holds, when it returns the spectrum has the `zstates_` it had before the call.  For a
fresh spectrum and a block with the header lines `CHARGE=2+` and `PEPMASS=500.5`, `parseMgf`
returns true, with one peak, and `getNumZStates()` is 0: `getZStates()` is empty. -/
theorem parseMgf_stores_no_zstate :
    (∀ (env : ParseEnv) (s s1 : Spectrum) (spec_count n : ℤ) (file unread : List (List Char))
        (filename : List Char) (b : Bool),
      s.parseMgf env spec_count file filename = .ok (b, s1, n, unread) →
      s1.getZStates = s.getZStates) ∧
    ∃ s1, Spectrum.new.parseMgf example_env 1
        ["BEGIN IONS\n".toList, "TITLE=a\n".toList, "CHARGE=2+\n".toList,
          "PEPMASS=500.5\n".toList, "100 5\n".toList, "END IONS\n".toList] "a.mgf".toList
        = .ok (true, s1, 2, []) ∧
      s1.getNumZStates = 0 ∧ s1.getZStates = [] ∧ s1.peaks_.length = 1 := by
  constructor
  · intro env s s1 spec_count n file unread filename b h
    unfold Spectrum.parseMgf at h
    unfold Spectrum.getZStates
    cases hb : mgf_find_begin file with
    | none =>
      rw [hb] at h
      cases h
      rfl
    | some r =>
      obtain ⟨begin_line, rest⟩ := r
      rw [hb] at h
      simp only [] at h
      obtain ⟨h1, h2⟩ := mgf_header_loop_zstates env spec_count rest s MgfHeader.start begin_line
      cases hh : mgf_header_loop env spec_count s MgfHeader.start begin_line rest with
      | error e =>
        rw [hh] at h
        cases h
      | ok ex =>
        cases ex with
        | returned s2 unread2 =>
          rw [hh] at h
          cases h
          exact h1 _ _ hh
        | left s2 header2 line2 unread2 =>
          rw [hh] at h
          simp only [] at h
          have h3 := mgf_peak_loop_zstates env unread2 s2 line2
          cases hp : mgf_peak_loop env s2 line2 unread2 with
          | mk s3 r3 =>
            obtain ⟨found, unread3⟩ := r3
            rw [hp] at h h3
            cases found
            · cases h
              exact h3.trans (h2 _ _ _ _ hh)
            · cases h
              exact h3.trans (h2 _ _ _ _ hh)
  · exact ⟨_, rfl, rfl, rfl, rfl⟩

theorem parseMgf_stores_no_zstate_witness :
    ∃ s1, Spectrum.new.parseMgf example_env 1
        ["BEGIN IONS\n".toList, "CHARGE=3+\n".toList, "PEPMASS=400\n".toList, "100 5\n".toList,
          "END IONS\n".toList] "a.mgf".toList = .ok (true, s1, 2, []) ∧
      s1.getZStates = Spectrum.new.getZStates :=
  ⟨_, rfl, parseMgf_stores_no_zstate.1 example_env Spectrum.new _ 1 2
    ["BEGIN IONS\n".toList, "CHARGE=3+\n".toList, "PEPMASS=400\n".toList, "100 5\n".toList,
      "END IONS\n".toList] [] "a.mgf".toList true rfl⟩

/-! ## Theorems: `signed_int_to_char` -/

theorem ten_mul_succ_le_pow (k : ℕ) (hk : 2 ≤ k) : 10 * (k + 1) ≤ 10 ^ k := by
  induction k with
  | zero => omega
  | succ k ih =>
    by_cases h : k = 1
    · subst h
      norm_num
    · have := ih (by omega)
      rw [pow_succ]
      omega

/-- The decimal text of `n` has at most `Nat.log 10 n + 1` characters. -/
theorem toDigits_length_le (n : ℕ) : (Nat.toDigits 10 n).length ≤ Nat.log 10 n + 1 :=
  Nat.toDigitsCore_length 10 (by norm_num) (n + 1) n (Nat.log 10 n + 1)
    (Nat.lt_pow_succ_log_self (by norm_num) n) (Nat.succ_pos _)

theorem log_le_div_ten (n : ℕ) : Nat.log 10 n ≤ n / 10 := by
  by_cases h0 : n < 10
  · rw [Nat.log_of_lt h0]
    exact Nat.zero_le _
  · have hn : n ≠ 0 := by omega
    have hpow := Nat.pow_log_le_self 10 hn
    by_cases h1 : Nat.log 10 n ≤ 1
    · have : 1 ≤ n / 10 := (Nat.one_le_div_iff (by norm_num)).mpr (by omega)
      omega
    · have := ten_mul_succ_le_pow (Nat.log 10 n) (by omega)
      have h2 : 10 * Nat.log 10 n ≤ n := by omega
      exact (Nat.le_div_iff_mul_le (by norm_num)).mpr (by omega)

theorem log_succ_le_div_ten (n : ℕ) (hn : 20 ≤ n) : Nat.log 10 n + 1 ≤ n / 10 := by
  have hn0 : n ≠ 0 := by omega
  have hpow := Nat.pow_log_le_self 10 hn0
  by_cases h1 : Nat.log 10 n ≤ 1
  · have : 2 ≤ n / 10 := (Nat.le_div_iff_mul_le (by norm_num)).mpr (by omega)
    omega
  · have := ten_mul_succ_le_pow (Nat.log 10 n) (by omega)
    exact (Nat.le_div_iff_mul_le (by norm_num)).mpr (by omega)

/-- Claim C29 (refuted by the code).  For `i = -1` the buffer has `abs(i)/10 + 2 = 2` bytes
and the text `-1` with its NUL needs 3: the write runs past the buffer.  The buffer is too
small exactly for `-19 ≤ i ≤ -1`; for `i ≥ 0` and for `i ≤ -20` it is large enough and the
function returns the decimal text. -/
theorem signed_int_to_char_overflows :
    signed_int_to_char_size (-1) = 2 ∧ sprintf_d (-1) = ['-', '1'] ∧
    signed_int_to_char (-1) = .error Abort.out_of_bounds ∧
    (∀ i : ℤ, -19 ≤ i → i ≤ -1 →
      signed_int_to_char_size i < ((sprintf_d i).length : ℤ) + 1 ∧
        signed_int_to_char i = .error Abort.out_of_bounds) ∧
    (∀ i : ℤ, 0 ≤ i ∨ i ≤ -20 →
      ((sprintf_d i).length : ℤ) + 1 ≤ signed_int_to_char_size i ∧
        signed_int_to_char i = .ok (sprintf_d i)) := by
  refine ⟨by decide, by decide, rfl, ?_, ?_⟩
  · intro i h1 h2
    have key : signed_int_to_char_size i < ((sprintf_d i).length : ℤ) + 1 := by
      interval_cases i <;> decide
    refine ⟨key, ?_⟩
    simp only [signed_int_to_char, if_neg (not_le.mpr key)]
  · intro i hi
    have key : ((sprintf_d i).length : ℤ) + 1 ≤ signed_int_to_char_size i := by
      rcases hi with hi | hi
      · have hlen := toDigits_length_le i.natAbs
        have hlog := log_le_div_ten i.natAbs
        have habs : |i| = (i.natAbs : ℤ) := Int.abs_eq_natAbs i
        simp only [sprintf_d, if_neg (not_lt.mpr hi), signed_int_to_char_size, habs]
        have hdiv : ((i.natAbs / 10 : ℕ) : ℤ) = (i.natAbs : ℤ) / 10 := by norm_cast
        omega
      · have hlen := toDigits_length_le i.natAbs
        have hlog := log_succ_le_div_ten i.natAbs (by omega)
        have habs : |i| = (i.natAbs : ℤ) := Int.abs_eq_natAbs i
        simp only [sprintf_d, if_pos (show i < 0 by omega), signed_int_to_char_size, habs,
          List.length_cons]
        have hdiv : ((i.natAbs / 10 : ℕ) : ℤ) = (i.natAbs : ℤ) / 10 := by norm_cast
        push_cast
        omega
    refine ⟨key, ?_⟩
    simp only [signed_int_to_char, if_pos key]

theorem signed_int_to_char_overflows_witness :
    signed_int_to_char_size (-7) < ((sprintf_d (-7)).length : ℤ) + 1 ∧
      signed_int_to_char (-7) = .error Abort.out_of_bounds :=
  signed_int_to_char_overflows.2.2.2.1 (-7) (by decide) (by decide)

/-! ## Theorems: the truncated fit window -/

/-- The regression uses the entries of `X` and `Y` below `fit_data_points` only. -/
theorem weibull_regression_congr {α : Type} [LinearOrderedField α] (exp sqrt : α → α)
    (X X2 Y Y2 : ℕ → α) (n : ℕ) (hX : ∀ i, i < n → X i = X2 i) (hY : ∀ i, i < n → Y i = Y2 i) :
    weibull_regression exp sqrt X Y n = weibull_regression exp sqrt X2 Y2 n := by
  have hXfin : ∀ i : Fin n, X i = X2 i := fun i => hX i i.2
  have hYfin : ∀ i : Fin n, Y i = Y2 i := fun i => hY i i.2
  unfold weibull_regression
  simp only [Finset.sum_range, hXfin, hYfin]

theorem fit_two_eq_regression {α : Type} [LinearOrderedField α] (log exp sqrt : α → α)
    (data : ℕ → α) (k N : ℕ) (shift : α) (k1 : ℕ) (hk1 : k1 ≤ k)
    (hpos : ∀ i, i < k1 → 0 < data i + shift) (hstop : k1 < k → data k1 + shift ≤ 0) :
    fit_two_parameter_weibull log exp sqrt data k N shift =
      weibull_regression exp sqrt (fun i => log (data i + shift)) (weibull_Y log N) k1 := by
  have hfst := weibull_X_loop_fst log data shift k k1 hk1 hpos hstop
  obtain ⟨-, -, hX, -, -⟩ := weibull_X_loop_spec log data shift k 0 (fun _ => 0)
  rw [hfst] at hX
  unfold fit_two_parameter_weibull
  simp only [hfst]
  exact weibull_regression_congr exp sqrt _ _ _ _ k1
    (fun i hi => (hX i (Nat.zero_le _) hi).2) (fun i _ => rfl)

/-- Claim C22.  Let `k1` be the first index below `fit_data_points` whose shifted score
`data[i] + shift` is not positive, or `fit_data_points` when there is none.  Then the first
loop leaves `fit_data_points = k1`, and the result of `fit_two_parameter_weibull` is the
regression (sums, slope, intercept, correlation) over the indices `0..k1-1` of
`X_i = log(data[i] + shift)` against `Y_i = log(-log(1 - F_i))` with
`F_i = (total_data_points - i - 0.3) / (total_data_points + 0.4)`; it does not depend on the
data from index `k1` on, as long as the loop still stops there. -/
theorem fit_two_regresses_truncated {α : Type} [LinearOrderedField α] (log exp sqrt : α → α)
    (data : ℕ → α) (k N : ℕ) (shift : α) (k1 : ℕ) (hk1 : k1 ≤ k)
    (hpos : ∀ i, i < k1 → 0 < data i + shift) (hstop : k1 < k → data k1 + shift ≤ 0) :
    (weibull_X_loop log data shift k 0 (fun _ => 0)).1 = k1 ∧
    fit_two_parameter_weibull log exp sqrt data k N shift =
      weibull_regression exp sqrt (fun i => log (data i + shift))
        (fun i => log (-log (1 - ((N : α) - (i : α) - 3 / 10) / ((N : α) + 4 / 10)))) k1 ∧
    ∀ data2 : ℕ → α, (∀ i, i < k1 → data2 i = data i) → (k1 < k → data2 k1 + shift ≤ 0) →
      fit_two_parameter_weibull log exp sqrt data2 k N shift =
        fit_two_parameter_weibull log exp sqrt data k N shift := by
  refine ⟨weibull_X_loop_fst log data shift k k1 hk1 hpos hstop, ?_, ?_⟩
  · rw [fit_two_eq_regression log exp sqrt data k N shift k1 hk1 hpos hstop]
    apply weibull_regression_congr exp sqrt _ _ _ _ k1 (fun i _ => rfl)
    intro i _
    simp only [weibull_Y, weibull_F_T]
    push_cast
    rfl
  · intro data2 h2 hstop2
    rw [fit_two_eq_regression log exp sqrt data k N shift k1 hk1 hpos hstop,
      fit_two_eq_regression log exp sqrt data2 k N shift k1 hk1
        (fun i hi => by rw [h2 i hi]; exact hpos i hi) hstop2]
    exact weibull_regression_congr exp sqrt _ _ _ _ k1
      (fun i hi => by simp only [h2 i hi]) (fun i _ => rfl)

theorem fit_two_regresses_truncated_witness :
    (2 : ℕ) ≤ 3 ∧
    (weibull_X_loop Real.log (fun i => 2 - (i : ℝ)) 0 3 0 (fun _ => 0)).1 = 2 ∧
    fit_two_parameter_weibull Real.log Real.exp Real.sqrt (fun i => 2 - (i : ℝ)) 3 3 0 =
      weibull_regression Real.exp Real.sqrt (fun i => Real.log (2 - (i : ℝ) + 0))
        (fun i => Real.log (-Real.log
          (1 - (((3 : ℕ) : ℝ) - (i : ℝ) - 3 / 10) / (((3 : ℕ) : ℝ) + 4 / 10)))) 2 := by
  have h := fit_two_regresses_truncated Real.log Real.exp Real.sqrt (fun i => 2 - (i : ℝ))
    3 3 0 2 (by decide)
    (fun i hi => by
      have : (i : ℝ) ≤ 1 := by exact_mod_cast Nat.lt_succ_iff.mp hi
      simp only [add_zero]
      linarith)
    (fun _ => by norm_num)
  exact ⟨by decide, h.1, h.2.1⟩

/-! ## Theorems: early stop and shift grid of the three-parameter fit -/

theorem best_trial_append {α : Type} [LinearOrderedField α] (l : List (WeibullFit α))
    (t : WeibullFit α) :
    best_trial (l ++ [t]) =
      if t.correlation > (best_trial l).correlation then t else best_trial l := by
  simp only [best_trial, List.foldl_append, List.foldl_cons, List.foldl_nil]

theorem best_trial_nonneg {α : Type} [LinearOrderedField α] (l : List (WeibullFit α)) :
    0 ≤ (best_trial l).correlation := by
  induction l using List.reverseRecOn with
  | nil => simp [best_trial]
  | append_singleton l t ih =>
    rw [best_trial_append]
    split_ifs with h
    · exact le_of_lt (lt_of_le_of_lt ih h)
    · exact ih

/-- The best record is an upper bound of the correlations, and when it is positive it is one
of the trials. -/
theorem best_trial_spec {α : Type} [LinearOrderedField α] (l : List (WeibullFit α)) :
    (∀ t ∈ l, t.correlation ≤ (best_trial l).correlation) ∧
    (0 < (best_trial l).correlation → best_trial l ∈ l) ∧
    (¬ 0 < (best_trial l).correlation →
      best_trial l = { eta := 0, beta := 0, shift := 0, correlation := 0 }) := by
  induction l using List.reverseRecOn with
  | nil => simp [best_trial]
  | append_singleton l t ih =>
    obtain ⟨h1, h2, h3⟩ := ih
    rw [best_trial_append]
    split_ifs with h
    · refine ⟨?_, fun _ => by simp, ?_⟩
      · intro x hx
        rcases List.mem_append.mp hx with hx | hx
        · exact le_trans (h1 x hx) (le_of_lt h)
        · rw [List.mem_singleton.mp hx]
      · intro hn
        exact absurd (lt_of_le_of_lt (best_trial_nonneg l) h) hn
    · refine ⟨?_, fun hp => List.mem_append_left _ (h2 hp), h3⟩
      intro x hx
      rcases List.mem_append.mp hx with hx | hx
      · exact h1 x hx
      · rw [List.mem_singleton.mp hx]
        exact not_lt.mp h

theorem split_snoc {β : Type} (trace pre post : List β) (cur t : β)
    (h : trace ++ [cur] = pre ++ t :: post) :
    (post = [] ∧ pre = trace ∧ t = cur) ∨ ∃ post1, post = post1 ++ [cur] ∧ trace = pre ++ t :: post1 := by
  rcases List.eq_nil_or_concat post with hp | ⟨post1, x, hp⟩
  · left
    subst hp
    have h2 : trace ++ [cur] = pre ++ [t] := h
    have := List.append_inj' h2 rfl
    exact ⟨rfl, this.1.symm, (List.singleton_inj.mp this.2).symm⟩
  · right
    subst hp
    have h2 : trace ++ [cur] = (pre ++ t :: post1) ++ [x] := by
      rw [h]
      simp
    have := List.append_inj' h2 rfl
    refine ⟨post1, ?_, this.1⟩
    rw [List.singleton_inj.mp this.2]
    simp

theorem nodrop_snoc {α : Type} [LinearOrderedField α] (trace : List (WeibullFit α))
    (cur : WeibullFit α)
    (h : ∀ pre t post, trace = pre ++ t :: post → ¬ is_drop pre t) (hc : ¬ is_drop trace cur) :
    ∀ pre t post, trace ++ [cur] = pre ++ t :: post → ¬ is_drop pre t := by
  intro pre t post hsplit
  rcases split_snoc trace pre post cur t hsplit with ⟨-, rfl, rfl⟩ | ⟨post1, -, h2⟩
  · exact hc
  · exact h pre t post1 h2

theorem grid_snoc {α : Type} [LinearOrderedField α] (trace : List (WeibullFit α))
    (cur : WeibullFit α) (min_shift max_shift step : α)
    (h : ∀ (j : ℕ) (t : WeibullFit α), (trace)[j]? = some t →
      t.shift = max_shift - (j : α) * step ∧ min_shift < t.shift)
    (hc : cur.shift = max_shift - (trace.length : α) * step) (hm : min_shift < cur.shift) :
    ∀ (j : ℕ) (t : WeibullFit α), (trace ++ [cur])[j]? = some t →
      t.shift = max_shift - (j : α) * step ∧ min_shift < t.shift := by
  intro j t hj
  by_cases hlt : j < trace.length
  · rw [List.getElem?_append_left hlt] at hj
    exact h j t hj
  · rw [List.getElem?_append_right (not_lt.mp hlt)] at hj
    have hj0 : j - trace.length = 0 := by
      by_contra hne
      rw [List.getElem?_eq_none_iff.mpr (by simp; omega)] at hj
      cases hj
    rw [hj0] at hj
    simp only [List.getElem?_cons_zero, Option.some.injEq] at hj
    subst hj
    have : j = trace.length := by omega
    rw [this]
    exact ⟨hc, hm⟩

/-- The run of the search loop read off its trace: the trials sit on the shift grid above
`min_shift`, and the loop ends either at the first drop, with the best record of the trials
before it, or past the end of the range, with no drop at all. -/
theorem fit_three_loop_trace {α : Type} [LinearOrderedField α]
    (trial : α → Except Abort (α × α × α)) (min_shift max_shift step : α)
    (out0 : WeibullFit α) (fuel : ℕ) :
    ∀ (cur_shift : α) (best out : WeibullFit α) (trace : List (WeibullFit α))
      (res : WeibullFit α) (tr : List (WeibullFit α)),
      fit_three_loop trial min_shift step fuel cur_shift best out trace = some (.ok (res, tr)) →
      best = best_trial trace →
      out = (if 0 < (best_trial trace).correlation then best_trial trace else out0) →
      (∀ pre t post, trace = pre ++ t :: post → ¬ is_drop pre t) →
      (∀ (j : ℕ) (t : WeibullFit α), (trace)[j]? = some t →
        t.shift = max_shift - (j : α) * step ∧ min_shift < t.shift) →
      cur_shift = max_shift - (trace.length : α) * step →
      (∀ (j : ℕ) (t : WeibullFit α), tr[j]? = some t →
        t.shift = max_shift - (j : α) * step ∧ min_shift < t.shift) ∧
      ((∃ pre t, tr = pre ++ [t] ∧ is_drop pre t ∧
          (∀ p t2 post, pre = p ++ t2 :: post → ¬ is_drop p t2) ∧ res = best_trial pre) ∨
        ((∀ pre t post, tr = pre ++ t :: post → ¬ is_drop pre t) ∧
          res = (if 0 < (best_trial tr).correlation then best_trial tr else out0) ∧
          max_shift - (tr.length : α) * step ≤ min_shift)) := by
  induction fuel with
  | zero =>
    intro cur_shift best out trace res tr h hbest hout hnd hgrid hcur
    simp only [fit_three_loop] at h
    by_cases hc : cur_shift > min_shift
    · rw [if_pos hc] at h
      cases h
    · rw [if_neg hc] at h
      simp only [Option.some.injEq, Except.ok.injEq, Prod.mk.injEq] at h
      obtain ⟨rfl, rfl⟩ := h
      exact ⟨hgrid, Or.inr ⟨hnd, hout, by rw [← hcur]; exact not_lt.mp hc⟩⟩
  | succ fuel ih =>
    intro cur_shift best out trace res tr h hbest hout hnd hgrid hcur
    simp only [fit_three_loop] at h
    by_cases hc : cur_shift > min_shift
    · rw [if_pos hc] at h
      cases ht : trial cur_shift with
      | error e =>
        rw [ht] at h
        cases h
      | ok v =>
        obtain ⟨ce, cb, cc⟩ := v
        rw [ht] at h
        simp only [] at h
        generalize hcurdef :
          ({ eta := ce, beta := cb, shift := cur_shift, correlation := cc } : WeibullFit α)
            = cur at h
        have hcs : cur.shift = cur_shift := by rw [← hcurdef]
        have hcc : cur.correlation = cc := by rw [← hcurdef]
        have hgrid2 := grid_snoc trace cur min_shift max_shift step hgrid
          (by rw [hcs, hcur]) (by rw [hcs]; exact hc)
        have hcur2 : cur_shift - step = max_shift - ((trace ++ [cur]).length : α) * step := by
          rw [hcur, List.length_append, List.length_singleton]
          push_cast
          ring
        by_cases h1 : cc > best.correlation
        · rw [if_pos h1] at h
          have hbt : best_trial (trace ++ [cur]) = cur := by
            rw [best_trial_append, if_pos (by rw [hcc, ← hbest]; exact h1)]
          have hpos : 0 < cur.correlation := by
            rw [hcc]
            exact lt_of_le_of_lt (by rw [hbest]; exact best_trial_nonneg trace) h1
          have hndc : ¬ is_drop trace cur := by
            unfold is_drop
            rw [hcc, ← hbest]
            intro hd
            have : best.correlation - 1 / 10 < best.correlation := by
              linarith [show (0 : α) < 1 / 10 by norm_num]
            exact absurd (lt_trans hd this) (not_lt.mpr (le_of_lt h1))
          exact ih (cur_shift - step) cur cur (trace ++ [cur]) res tr h hbt.symm
            (by rw [hbt, if_pos hpos]) (nodrop_snoc trace cur hnd hndc) hgrid2 hcur2
        · rw [if_neg h1] at h
          have hbt : best_trial (trace ++ [cur]) = best_trial trace := by
            rw [best_trial_append, if_neg (by rw [hcc, ← hbest]; exact h1)]
          by_cases h2 : cc < best.correlation - 1 / 10
          · rw [if_pos h2] at h
            simp only [Option.some.injEq, Except.ok.injEq, Prod.mk.injEq] at h
            obtain ⟨rfl, rfl⟩ := h
            refine ⟨hgrid2, Or.inl ⟨trace, cur, rfl, ?_, hnd, hbest⟩⟩
            unfold is_drop
            rw [hcc, ← hbest]
            exact h2
          · rw [if_neg h2] at h
            have hndc : ¬ is_drop trace cur := by
              unfold is_drop
              rw [hcc, ← hbest]
              exact h2
            exact ih (cur_shift - step) best out (trace ++ [cur]) res tr h
              (by rw [hbt]; exact hbest) (by rw [hbt]; exact hout)
              (nodrop_snoc trace cur hnd hndc) hgrid2 hcur2
    · rw [if_neg hc] at h
      simp only [Option.some.injEq, Except.ok.injEq, Prod.mk.injEq] at h
      obtain ⟨rfl, rfl⟩ := h
      exact ⟨hgrid, Or.inr ⟨hnd, hout, by rw [← hcur]; exact not_lt.mp hc⟩⟩

/-- The trace lemma for a run of `fit_three_parameter_weibull`. -/
theorem fit_three_trace {α : Type} [LinearOrderedField α] (log exp sqrt : α → α)
    (data : ℕ → α) (k N : ℕ) (min_shift max_shift step : α) (out : WeibullFit α) (fuel : ℕ)
    (res : WeibullFit α) (tr : List (WeibullFit α))
    (h : fit_three_parameter_weibull log exp sqrt data k N min_shift max_shift step out fuel
      = some (.ok (res, tr))) :
    (∀ (j : ℕ) (t : WeibullFit α), tr[j]? = some t →
      t.shift = max_shift - (j : α) * step ∧ min_shift < t.shift) ∧
    ((∃ pre t, tr = pre ++ [t] ∧ is_drop pre t ∧
        (∀ p t2 post, pre = p ++ t2 :: post → ¬ is_drop p t2) ∧ res = best_trial pre) ∨
      ((∀ pre t post, tr = pre ++ t :: post → ¬ is_drop pre t) ∧
        res = (if 0 < (best_trial tr).correlation then best_trial tr else out) ∧
        max_shift - (tr.length : α) * step ≤ min_shift)) := by
  unfold fit_three_parameter_weibull at h
  refine fit_three_loop_trace _ min_shift max_shift step out fuel max_shift _ out [] res tr h
    rfl ?_ ?_ ?_ ?_
  · simp [best_trial]
  · intro pre t post hsplit
    cases pre <;> cases hsplit
  · intro j t hj
    simp at hj
  · simp

/-- A run of the search on exact Weibull quantiles (`eta = beta = 1`, no shift) with the range
`min_shift = -1`, `max_shift = 0`, `step = 1`: the one trial, at shift 0, fits exactly. -/
theorem example_three_run (out : WeibullFit ℝ) (fuel : ℕ) :
    fit_three_parameter_weibull Real.log Real.exp Real.sqrt
      (fun i => 1 * (-Real.log (1 - (((2 : ℕ) : ℝ) - (i : ℝ) - 3 / 10) /
        (((2 : ℕ) : ℝ) + 4 / 10))) ^ (1 / (1 : ℝ)) - 0) 2 2 (-1) 0 1 out (fuel + 1) =
      some (.ok ({ eta := 1, beta := 1, shift := 0, correlation := 1 },
        [{ eta := 1, beta := 1, shift := 0, correlation := 1 }])) := by
  have hfit := fit_two_on_shifted_quantiles
    (fun i => 1 * (-Real.log (1 - (((2 : ℕ) : ℝ) - (i : ℝ) - 3 / 10) /
      (((2 : ℕ) : ℝ) + 4 / 10))) ^ (1 / (1 : ℝ)) - 0) 2 2 1 1 0 (le_refl 2) (le_refl 2)
    one_pos one_pos (fun i _ => by
      simp only [weibull_F_T]
      push_cast
      ring)
  cases fuel with
  | zero =>
    simp only [fit_three_parameter_weibull, fit_three_loop, hfit]
    norm_num
  | succ fuel =>
    simp only [fit_three_parameter_weibull, fit_three_loop, hfit]
    norm_num

theorem example_trial_two (c : ℚ) : example_trial c 2 = .ok (1, 1, 1 / 2) := by
  simp only [example_trial, if_true]

theorem example_trial_one (c : ℚ) : example_trial c (2 - 1) = .ok (2, 2, c) := by
  simp only [example_trial]
  norm_num

/-- The run of the search loop from shift 2 with step 1 over `example_trial (11/20)`, down to
`min_shift = 1` (one trial) and down to `min_shift = 0` (two trials). -/
theorem example_rise_runs (out : WeibullFit ℚ) :
    fit_three_loop (example_trial (11 / 20)) 1 1 1 2 (WeibullFit.mk 0 0 0 0) out [] =
      some (.ok (WeibullFit.mk 1 1 2 (1 / 2), [WeibullFit.mk 1 1 2 (1 / 2)])) ∧
    fit_three_loop (example_trial (11 / 20)) 0 1 2 2 (WeibullFit.mk 0 0 0 0) out [] =
      some (.ok (WeibullFit.mk 2 2 1 (11 / 20),
        [WeibullFit.mk 1 1 2 (1 / 2), WeibullFit.mk 2 2 1 (11 / 20)])) := by
  constructor
  · simp only [fit_three_loop, example_trial_two, example_trial_one]
    norm_num
  · simp only [fit_three_loop, example_trial_two, example_trial_one]
    norm_num

/-- The run of the search loop from shift 2 with step 1 and `min_shift = -1` over
`example_trial (3/10)`: it ends after the trial at shift 1. -/
theorem example_drop_run (out : WeibullFit ℚ) (fuel : ℕ) :
    fit_three_loop (example_trial (3 / 10)) (-1) 1 (fuel + 2) 2 (WeibullFit.mk 0 0 0 0) out [] =
      some (.ok (WeibullFit.mk 1 1 2 (1 / 2),
        [WeibullFit.mk 1 1 2 (1 / 2), WeibullFit.mk 2 2 1 (3 / 10)])) := by
  simp only [fit_three_loop, example_trial_two, example_trial_one]
  norm_num

/-- Claim C23 (as stated, refuted), on the search loop with the trials reporting the
correlation 1/2 at shift 2 and a second value at shift 1 (`step = 1`, `max_shift = 2`).
(a) The second correlation 11/20 is within 0.1 of the best, 1/2: after the first trial the
outputs are those of the first trial (the run with `min_shift = 1`), after the second they
are those of the second trial (the run with `min_shift = 0`), so the trial changed them.
(b) The second correlation 3/10 is not above the best, 1/2: with `min_shift = -1` the shift
0 is still in the range, yet the search stops after the second trial, whatever the fuel. -/
theorem fit_three_reacts_near_best :
    (|(11 / 20 : ℚ) - 1 / 2| ≤ 1 / 10 ∧
      ∀ out : WeibullFit ℚ,
        fit_three_loop (example_trial (11 / 20)) 1 1 1 2 (WeibullFit.mk 0 0 0 0) out [] =
          some (.ok (WeibullFit.mk 1 1 2 (1 / 2), [WeibullFit.mk 1 1 2 (1 / 2)])) ∧
        fit_three_loop (example_trial (11 / 20)) 0 1 2 2 (WeibullFit.mk 0 0 0 0) out [] =
          some (.ok (WeibullFit.mk 2 2 1 (11 / 20),
            [WeibullFit.mk 1 1 2 (1 / 2), WeibullFit.mk 2 2 1 (11 / 20)]))) ∧
    (¬ (3 / 10 : ℚ) > 1 / 2 ∧ (2 : ℚ) - 1 - 1 > -1 ∧
      ∀ (out : WeibullFit ℚ) (fuel : ℕ),
        fit_three_loop (example_trial (3 / 10)) (-1) 1 (fuel + 2) 2 (WeibullFit.mk 0 0 0 0) out []
          = some (.ok (WeibullFit.mk 1 1 2 (1 / 2),
            [WeibullFit.mk 1 1 2 (1 / 2), WeibullFit.mk 2 2 1 (3 / 10)]))) := by
  refine ⟨⟨?_, example_rise_runs⟩, by norm_num, by norm_num, example_drop_run⟩
  rw [abs_le]
  constructor <;> norm_num

/-- Claim C23 (amended).  Read off the list `tr` of evaluated trials of a run of the search
loop that returns, for any trial function in place of the call of
`fit_two_parameter_weibull`: a trial whose correlation is more than 0.1 below the best seen
so far (the best starting at 0) is the last trial evaluated; the outputs are then the best
record of the trials before it, which is one of those trials with the greatest correlation
among them when that is positive (all zero otherwise).  A last trial that is not such a drop
did not stop the search: the next shift is past the range, and the outputs are the best
record of all trials (the caller's values when no correlation was positive).  A trial not
above the best leaves the best record as it is, and a trial that is not above the best and
at most 0.1 below it makes the loop go on to the next shift with the best record and the
outputs unchanged.  The function `fit_three_parameter_weibull` is this loop with the call of
`fit_two_parameter_weibull` as the trial. -/
theorem fit_three_stops_at_first_drop {α : Type} [LinearOrderedField α]
    (trial : α → Except Abort (α × α × α))
    (min_shift max_shift step : α) (out : WeibullFit α) (fuel : ℕ)
    (res : WeibullFit α) (tr : List (WeibullFit α))
    (h : fit_three_loop trial min_shift step fuel max_shift (WeibullFit.mk 0 0 0 0) out []
      = some (.ok (res, tr))) :
    (∀ pre t post, tr = pre ++ t :: post → is_drop pre t → post = []) ∧
    (∀ pre t, tr = pre ++ [t] → is_drop pre t →
      res = best_trial pre ∧
      (∀ x ∈ pre, x.correlation ≤ res.correlation) ∧
      (0 < res.correlation → res ∈ pre) ∧
      (¬ 0 < res.correlation → res = { eta := 0, beta := 0, shift := 0, correlation := 0 })) ∧
    (∀ pre t, tr = pre ++ [t] → ¬ is_drop pre t →
      t.shift - step ≤ min_shift ∧
      res = (if 0 < (best_trial tr).correlation then best_trial tr else out)) ∧
    (∀ (pre : List (WeibullFit α)) (t : WeibullFit α),
      t.correlation ≤ (best_trial pre).correlation →
      best_trial (pre ++ [t]) = best_trial pre) ∧
    (∀ (n : ℕ) (cur_shift cur_eta cur_beta cur_correlation : α) (best out1 : WeibullFit α)
        (trace : List (WeibullFit α)),
      cur_shift > min_shift →
      trial cur_shift = .ok (cur_eta, cur_beta, cur_correlation) →
      cur_correlation ≤ best.correlation → best.correlation - 1 / 10 ≤ cur_correlation →
      fit_three_loop trial min_shift step (n + 1) cur_shift best out1 trace =
        fit_three_loop trial min_shift step n (cur_shift - step) best out1
          (trace ++ [WeibullFit.mk cur_eta cur_beta cur_shift cur_correlation])) ∧
    (∀ (log exp sqrt : α → α) (data : ℕ → α) (k N : ℕ),
      fit_three_parameter_weibull log exp sqrt data k N min_shift max_shift step out fuel =
        fit_three_loop (fun x => fit_two_parameter_weibull log exp sqrt data k N x)
          min_shift step fuel max_shift (WeibullFit.mk 0 0 0 0) out []) := by
  obtain ⟨hgrid, hcase⟩ :=
    fit_three_loop_trace trial min_shift max_shift step out fuel max_shift _ out [] res tr h
      rfl (by simp [best_trial])
      (by
        intro pre t post hsplit
        cases pre <;> cases hsplit)
      (by
        intro j t hj
        simp at hj)
      (by simp)
  refine ⟨?_, ?_, ?_, ?_, ?_, ?_⟩
  · intro pre t post hsplit hdrop
    rcases hcase with ⟨pre0, t0, htr, -, hnd, -⟩ | ⟨hnd, -, -⟩
    · rw [htr] at hsplit
      rcases split_snoc pre0 pre post t0 t hsplit with ⟨hp, -, -⟩ | ⟨post1, -, h2⟩
      · exact hp
      · exact absurd hdrop (hnd pre t post1 h2)
    · exact absurd hdrop (hnd pre t post hsplit)
  · intro pre t hsplit hdrop
    rcases hcase with ⟨pre0, t0, htr, -, -, hres⟩ | ⟨hnd, -, -⟩
    · rw [htr] at hsplit
      have hpre : pre0 = pre := (List.append_inj' hsplit rfl).1
      subst hpre
      obtain ⟨b1, b2, b3⟩ := best_trial_spec pre0
      rw [hres]
      exact ⟨rfl, b1, b2, b3⟩
    · exact absurd hdrop (hnd pre t [] hsplit)
  · intro pre t hsplit hnodrop
    rcases hcase with ⟨pre0, t0, htr, hd, -, -⟩ | ⟨-, hres, hend⟩
    · rw [htr] at hsplit
      have hinj := List.append_inj' hsplit rfl
      have hpre : pre0 = pre := hinj.1
      have ht : t0 = t := List.singleton_inj.mp hinj.2
      subst hpre
      subst ht
      exact absurd hd hnodrop
    · refine ⟨?_, hres⟩
      have hi : tr[pre.length]? = some t := by
        rw [hsplit, List.getElem?_append_right (le_refl _)]
        simp
      rw [(hgrid pre.length t hi).1]
      rw [hsplit, List.length_append, List.length_singleton] at hend
      push_cast at hend
      linarith
  · intro pre t ht
    rw [best_trial_append, if_neg (not_lt.mpr ht)]
  · intro n cur_shift cur_eta cur_beta cur_correlation best out1 trace hc ht h1 h2
    simp only [fit_three_loop, if_pos hc, ht, if_neg (not_lt.mpr h1), if_neg (not_lt.mpr h2)]
  · intro log exp sqrt data k N
    rfl

theorem fit_three_stops_at_first_drop_witness :
    fit_three_loop (example_trial (3 / 10)) (-1) 1 3 2 (WeibullFit.mk 0 0 0 0)
        (WeibullFit.mk 0 0 0 0) [] =
      some (.ok (WeibullFit.mk 1 1 2 (1 / 2),
        [WeibullFit.mk 1 1 2 (1 / 2)] ++ [WeibullFit.mk 2 2 1 (3 / 10)])) ∧
    is_drop [WeibullFit.mk 1 1 2 (1 / 2)] (WeibullFit.mk 2 2 1 (3 / 10 : ℚ)) ∧
    (2 : ℚ) - 1 - 1 > -1 ∧
    (WeibullFit.mk 1 1 2 (1 / 2) : WeibullFit ℚ) = best_trial [WeibullFit.mk 1 1 2 (1 / 2)] ∧
    (∀ pre t post,
      [WeibullFit.mk 1 1 2 (1 / 2)] ++ [WeibullFit.mk 2 2 1 (3 / 10 : ℚ)] = pre ++ t :: post →
      is_drop pre t → post = []) := by
  have hrun := example_drop_run (WeibullFit.mk 0 0 0 0) 1
  have hdrop : is_drop [WeibullFit.mk 1 1 2 (1 / 2)] (WeibullFit.mk 2 2 1 (3 / 10 : ℚ)) := by
    simp only [is_drop, best_trial, List.foldl]
    norm_num
  have hthm := fit_three_stops_at_first_drop (example_trial (3 / 10)) (-1) 2 1
    (WeibullFit.mk 0 0 0 0) 3 _ _ hrun
  exact ⟨hrun, hdrop, by norm_num, (hthm.2.1 _ _ rfl hdrop).1, hthm.1⟩

/-- Claim C24 (as stated, refuted).  With `min_shift = -1`, `max_shift = 0`, `step = 1` the
grid shift `max_shift - 1 * step = -1` is `min_shift` itself and lies in the closed range,
no early stop occurs (no trial is a drop), and yet the run evaluates the single trial at
shift 0: none at shift -1.  This holds for every amount of fuel that lets the run end. -/
theorem fit_three_skips_min_shift :
    (0 : ℝ) < 1 ∧ (-1 : ℝ) ≤ 0 ∧ (-1 : ℝ) = 0 - ((1 : ℕ) : ℝ) * 1 ∧
    ∀ (out : WeibullFit ℝ) (fuel : ℕ), ∃ res tr,
      fit_three_parameter_weibull Real.log Real.exp Real.sqrt
        (fun i => 1 * (-Real.log (1 - (((2 : ℕ) : ℝ) - (i : ℝ) - 3 / 10) /
          (((2 : ℕ) : ℝ) + 4 / 10))) ^ (1 / (1 : ℝ)) - 0) 2 2 (-1) 0 1 out (fuel + 1)
        = some (.ok (res, tr)) ∧
      (∀ pre t post, tr = pre ++ t :: post → ¬ is_drop pre t) ∧
      tr.map (fun t => t.shift) = [0] ∧ ∀ t ∈ tr, t.shift ≠ -1 := by
  refine ⟨one_pos, by norm_num, by norm_num, ?_⟩
  intro out fuel
  refine ⟨_, _, example_three_run out fuel, ?_, by simp, ?_⟩
  · intro pre t post hsplit
    have hpre : pre = [] := by
      cases pre with
      | nil => rfl
      | cons a pre =>
        have := congrArg List.length hsplit
        simp at this
    subst hpre
    simp only [List.nil_append, List.cons.injEq] at hsplit
    rw [← hsplit.1]
    unfold is_drop
    simp only [best_trial, List.foldl_nil]
    norm_num
  · intro t ht
    rw [List.mem_singleton.mp ht]
    norm_num

/-- Claim C24 (amended).  For `step > 0`, when a run returns without an early stop (its last
trial is not a drop), the list of evaluated shifts is `max_shift - j * step` for
`j = 0, 1, ...` in this order, a grid shift is evaluated exactly when it is greater than
`min_shift`, every evaluated shift lies in the half-open range `(min_shift, max_shift]`, and
no trial is evaluated at `min_shift` itself. -/
theorem fit_three_grid_half_open {α : Type} [LinearOrderedField α] (log exp sqrt : α → α)
    (data : ℕ → α) (k N : ℕ) (min_shift max_shift step : α) (out : WeibullFit α) (fuel : ℕ)
    (res : WeibullFit α) (tr : List (WeibullFit α)) (hstep : 0 < step)
    (h : fit_three_parameter_weibull log exp sqrt data k N min_shift max_shift step out fuel
      = some (.ok (res, tr)))
    (hno : ∀ pre t, tr = pre ++ [t] → ¬ is_drop pre t) :
    tr.map (fun t => t.shift)
      = (List.range tr.length).map (fun j : ℕ => max_shift - (j : α) * step) ∧
    (∀ j : ℕ, (∃ t ∈ tr, t.shift = max_shift - (j : α) * step) ↔
      min_shift < max_shift - (j : α) * step) ∧
    (∀ t ∈ tr, min_shift < t.shift ∧ t.shift ≤ max_shift) ∧
    (∀ t ∈ tr, t.shift ≠ min_shift) := by
  obtain ⟨hgrid, hcase⟩ :=
    fit_three_trace log exp sqrt data k N min_shift max_shift step out fuel res tr h
  have hend : max_shift - (tr.length : α) * step ≤ min_shift := by
    rcases hcase with ⟨pre0, t0, htr, hd, -, -⟩ | ⟨-, -, hend⟩
    · exact absurd hd (hno pre0 t0 htr)
    · exact hend
  have hmem : ∀ t ∈ tr, ∃ j : ℕ, j < tr.length ∧ t.shift = max_shift - (j : α) * step ∧
      min_shift < t.shift := by
    intro t ht
    obtain ⟨j, hj, hjt⟩ := List.getElem_of_mem ht
    have := hgrid j t (by rw [List.getElem?_eq_getElem hj, hjt])
    exact ⟨j, hj, this.1, this.2⟩
  refine ⟨?_, ?_, ?_, ?_⟩
  · apply List.ext_getElem?
    intro j
    simp only [List.getElem?_map]
    by_cases hj : j < tr.length
    · rw [List.getElem?_eq_getElem hj, List.getElem?_eq_getElem (by simpa using hj)]
      simp only [Option.map_some', List.getElem_range]
      rw [(hgrid j tr[j] (List.getElem?_eq_getElem hj)).1]
    · rw [List.getElem?_eq_none_iff.mpr (not_lt.mp hj),
        List.getElem?_eq_none_iff.mpr (by simpa using hj)]
      rfl
  · intro j
    constructor
    · rintro ⟨t, ht, hts⟩
      obtain ⟨-, -, -, hm⟩ := hmem t ht
      rw [← hts]
      exact hm
    · intro hj
      have hlt : j < tr.length := by
        by_contra hge
        have hle : (tr.length : α) ≤ (j : α) := by exact_mod_cast not_lt.mp hge
        have : (tr.length : α) * step ≤ (j : α) * step :=
          mul_le_mul_of_nonneg_right hle (le_of_lt hstep)
        linarith
      exact ⟨tr[j], List.getElem_mem _, (hgrid j tr[j] (List.getElem?_eq_getElem hlt)).1⟩
  · intro t ht
    obtain ⟨j, -, hs, hm⟩ := hmem t ht
    refine ⟨hm, ?_⟩
    rw [hs]
    have : 0 ≤ (j : α) * step := mul_nonneg (Nat.cast_nonneg j) (le_of_lt hstep)
    linarith
  · intro t ht
    obtain ⟨-, -, -, hm⟩ := hmem t ht
    exact ne_of_gt hm

theorem fit_three_grid_half_open_witness :
    (0 : ℝ) < 1 ∧
    ([({ eta := 1, beta := 1, shift := 0, correlation := 1 } : WeibullFit ℝ)].map
        (fun t => t.shift)
      = (List.range
          [({ eta := 1, beta := 1, shift := 0, correlation := 1 } : WeibullFit ℝ)].length).map
        (fun j : ℕ => (0 : ℝ) - (j : ℝ) * 1)) := by
  have hno : ∀ (pre : List (WeibullFit ℝ)) (t : WeibullFit ℝ),
      [({ eta := 1, beta := 1, shift := 0, correlation := 1 } : WeibullFit ℝ)] = pre ++ [t] →
      ¬ is_drop pre t := by
    intro pre t hsplit
    have hinj := List.append_inj' (show [] ++ [_] = pre ++ [t] from hsplit) rfl
    rw [← hinj.1, ← List.singleton_inj.mp hinj.2]
    unfold is_drop
    simp only [best_trial, List.foldl_nil]
    norm_num
  exact ⟨one_pos, (fit_three_grid_half_open Real.log Real.exp Real.sqrt
    (fun i => 1 * (-Real.log (1 - (((2 : ℕ) : ℝ) - (i : ℝ) - 3 / 10) /
      (((2 : ℕ) : ℝ) + 4 / 10))) ^ (1 / (1 : ℝ)) - 0) 2 2 (-1) 0 1
    { eta := 0, beta := 0, shift := 0, correlation := 0 } 1 _ _ one_pos
    (example_three_run _ 0) hno).1⟩

/-! ## Theorems: bucket indices stay in range -/

theorem scan_index_in_range (c : SpectrumConstants) (mz max : ℚ) (i : ℤ)
    (h1 : min_mz_idx c mz max ≤ i) (h2 : i ≤ max_mz_idx c mz max) :
    0 ≤ i ∧ i < array_length c := by
  have hlo : 0 ≤ min_mz_idx c mz max := by
    simp only [min_mz_idx]
    split_ifs with h
    · exact le_refl _
    · exact not_lt.mp h
  have hhi : max_mz_idx c mz max < array_length c := by
    have hcomm : (c.MZ_TO_PEAK_ARRAY_RESOLUTION : ℤ) * (c.MAX_PEAK_MZ : ℤ) =
        (c.MAX_PEAK_MZ : ℤ) * (c.MZ_TO_PEAK_ARRAY_RESOLUTION : ℤ) := mul_comm _ _
    simp only [max_mz_idx, array_length]
    split_ifs with h
    · omega
    · omega
  constructor <;> omega

theorem populate_no_out_of_bounds (c : SpectrumConstants)
    (hR : 0 < c.MZ_TO_PEAK_ARRAY_RESOLUTION) (s : Spectrum)
    (hpeaks : ∀ p ∈ s.peaks_, 0 ≤ p.location ∧ p.location < (c.MAX_PEAK_MZ : ℚ)) :
    ∃ s1, s.populateMzPeakArray c = .ok s1 := by
  cases hflag : s.has_mz_peak_array_ with
  | true => exact ⟨s, by simp only [Spectrum.populateMzPeakArray, if_pos hflag]⟩
  | false =>
    obtain ⟨arr, h1, -⟩ := populate_unbuilt c s hflag
      (fun p hp => mz_idx_in_range c hR p.location (hpeaks p hp).1 (hpeaks p hp).2)
    exact ⟨_, h1⟩

theorem nearest_loop_no_out_of_bounds (c : SpectrumConstants)
    (table : Option (ℤ → Option PEAK_T)) (mz max : ℚ) :
    nearest_loop c table mz max (max_mz_idx c mz max + 1 - min_mz_idx c mz max).toNat
      (min_mz_idx c mz max) none c.BILLION ≠ .error Abort.out_of_bounds := by
  cases table with
  | none =>
    cases (max_mz_idx c mz max + 1 - min_mz_idx c mz max).toNat with
    | zero =>
      simp only [nearest_loop]
      intro h
      cases h
    | succ n =>
      simp only [nearest_loop, read_bucket]
      intro h
      cases h
  | some arr =>
    obtain ⟨o, md1, h1, -, -⟩ := nearest_loop_spec c arr mz max
      (max_mz_idx c mz max + 1 - min_mz_idx c mz max).toNat (min_mz_idx c mz max) none c.BILLION
      (fun k hk => scan_range_in_bounds c mz max k hk)
    rw [h1]
    intro h
    cases h

/-- Claim C28.  With a positive table resolution and every peak's m/z in `[0, MAX_PEAK_MZ)`:
the bucket index that `populateMzPeakArray` writes for each peak lies in
`[0, MZ_TO_PEAK_ARRAY_RESOLUTION * MAX_PEAK_MZ)` (the index is below the table length, which
is a value of `int`, so its conversion to `int` is exact); for every query `(mz, max)` every
index from `min_mz_idx` to `max_mz_idx`, the indices that `getNearestPeak` reads, lies in
that range, also when a scan bound is not a value of `int` and its conversion yields
`INT_MIN` (the two clamps bound the scan); and neither method ends in an out-of-range access,
in whatever state the spectrum is. -/
theorem bucket_accesses_in_range (c : SpectrumConstants)
    (hR : 0 < c.MZ_TO_PEAK_ARRAY_RESOLUTION) (s : Spectrum)
    (hpeaks : ∀ p ∈ s.peaks_, 0 ≤ p.location ∧ p.location < (c.MAX_PEAK_MZ : ℚ))
    (mz max : ℚ) :
    (∀ p ∈ s.peaks_, 0 ≤ mz_idx c (get_peak_location p) ∧
      mz_idx c (get_peak_location p) < array_length c) ∧
    (∀ i, min_mz_idx c mz max ≤ i → i ≤ max_mz_idx c mz max → 0 ≤ i ∧ i < array_length c) ∧
    (∃ s1, s.populateMzPeakArray c = .ok s1) ∧
    s.getNearestPeak c mz max ≠ .error Abort.out_of_bounds := by
  obtain ⟨s1, hpop⟩ := populate_no_out_of_bounds c hR s hpeaks
  refine ⟨fun p hp => mz_idx_in_range c hR p.location (hpeaks p hp).1 (hpeaks p hp).2,
    fun i h1 h2 => scan_index_in_range c mz max i h1 h2, ⟨s1, hpop⟩, ?_⟩
  unfold Spectrum.getNearestPeak
  rw [hpop]
  simp only []
  have hl := nearest_loop_no_out_of_bounds c s1.mz_peak_array_ mz max
  cases hn : nearest_loop c s1.mz_peak_array_ mz max
      (max_mz_idx c mz max + 1 - min_mz_idx c mz max).toNat (min_mz_idx c mz max) none
      c.BILLION with
  | error e =>
    rw [hn] at hl
    intro h
    apply hl
    cases h
    rfl
  | ok r =>
    intro h
    cases h

theorem bucket_accesses_in_range_witness :
    (∀ p ∈ (Spectrum.new.addPeak 10 100).peaks_,
      0 ≤ mz_idx example_constants (get_peak_location p) ∧
      mz_idx example_constants (get_peak_location p) < array_length example_constants) ∧
    (∀ i, min_mz_idx example_constants 100 500000000 ≤ i →
      i ≤ max_mz_idx example_constants 100 500000000 →
      0 ≤ i ∧ i < array_length example_constants) ∧
    (∃ s1, (Spectrum.new.addPeak 10 100).populateMzPeakArray example_constants = .ok s1) ∧
    (Spectrum.new.addPeak 10 100).getNearestPeak example_constants 100 500000000
      ≠ .error Abort.out_of_bounds :=
  bucket_accesses_in_range example_constants (by decide) (Spectrum.new.addPeak 10 100) (by
    intro q hq
    rw [addPeak_peaks] at hq
    simp only [Spectrum.new, List.nil_append, List.mem_singleton] at hq
    subst hq
    norm_num [new_peak, example_constants]) 100 500000000

/-! ## Theorems: `parseSLine` on the line that `print` writes -/

/-- Claim C30 (refuted by the code).  `parseSLine` strips every leading `S`, tab, blank and
`0`, and after the first field again every tab, blank and `0`; a scan number 0, printed as
`000000`, is stripped with the tab that follows it, and the fields merge.  With the m/z
500.5 printed as `500.5000`: for `first_scan_ = 0`, `last_scan_ = 5` the line is accepted with
`first_scan_ = 5`, `last_scan_ = 500` and m/z 0.5; for `first_scan_ = 7`, `last_scan_ = 0` it is accepted
with `first_scan_ = 7`, `last_scan_ = 500`; for both 0 the whole line becomes the first field
and the read runs past the end of the string.  For the scan numbers 1 and 12 the two numbers
are read back. -/
theorem parseSLine_merges_zero_scan :
    ({ Spectrum.new with first_scan_ := 0, last_scan_ := 5, precursor_mz_ := 1001 / 2 }
        : Spectrum).print_S_line (fun _ => "500.5000".toList)
      = "S\t000000\t000005\t500.5000\n".toList ∧
    (∃ s1, Spectrum.new.parseSLine example_env "S\t000000\t000005\t500.5000\n".toList
        = .ok (true, s1) ∧ s1.first_scan_ = 5 ∧ s1.last_scan_ = 500 ∧
      s1.precursor_mz_ = 1 / 2) ∧
    ({ Spectrum.new with first_scan_ := 7, last_scan_ := 0, precursor_mz_ := 1001 / 2 }
        : Spectrum).print_S_line (fun _ => "500.5000".toList)
      = "S\t000007\t000000\t500.5000\n".toList ∧
    (∃ s1, Spectrum.new.parseSLine example_env "S\t000007\t000000\t500.5000\n".toList
        = .ok (true, s1) ∧ s1.first_scan_ = 7 ∧ s1.last_scan_ = 500) ∧
    ({ Spectrum.new with first_scan_ := 0, last_scan_ := 0, precursor_mz_ := 1001 / 2 }
        : Spectrum).print_S_line (fun _ => "500.5000".toList)
      = "S\t000000\t000000\t500.5000\n".toList ∧
    Spectrum.new.parseSLine example_env "S\t000000\t000000\t500.5000\n".toList
      = .error Abort.out_of_bounds ∧
    ({ Spectrum.new with first_scan_ := 1, last_scan_ := 12, precursor_mz_ := 1001 / 2 }
        : Spectrum).print_S_line (fun _ => "500.5000".toList)
      = "S\t000001\t000012\t500.5000\n".toList ∧
    (∃ s1, Spectrum.new.parseSLine example_env "S\t000001\t000012\t500.5000\n".toList
        = .ok (true, s1) ∧ s1.first_scan_ = 1 ∧ s1.last_scan_ = 12) := by
  refine ⟨by decide, ⟨_, rfl, by decide, by decide, ?_⟩, by decide,
    ⟨_, rfl, by decide, by decide⟩, by decide, rfl, by decide, ⟨_, rfl, by decide, by decide⟩⟩
  simp [float_arg, sscanf, example_env, scan_decimal, scan_unsigned, digits_value, isspace]
  norm_num

/-! ## Theorems: range of the fitted correlation and slope -/

theorem cov_expand (X Y : ℕ → ℝ) (n : ℕ) (hn : 0 < n) :
    (∑ idx in Finset.range n,
        (X idx - (∑ i in Finset.range n, X i) / (n : ℝ)) *
          (Y idx - (∑ i in Finset.range n, Y i) / (n : ℝ))) =
      (∑ idx in Finset.range n, X idx * Y idx) -
        (∑ i in Finset.range n, X i) * (∑ i in Finset.range n, Y i) / (n : ℝ) := by
  have hn0 : (n : ℝ) ≠ 0 := by exact_mod_cast (ne_of_gt hn)
  have h1 : ∀ idx, (X idx - (∑ i in Finset.range n, X i) / (n : ℝ)) *
      (Y idx - (∑ i in Finset.range n, Y i) / (n : ℝ)) =
      X idx * Y idx - ((∑ i in Finset.range n, Y i) / (n : ℝ)) * X idx -
        ((∑ i in Finset.range n, X i) / (n : ℝ)) * Y idx +
        ((∑ i in Finset.range n, X i) / (n : ℝ)) * ((∑ i in Finset.range n, Y i) / (n : ℝ)) := by
    intro idx
    ring
  simp only [h1]
  rw [Finset.sum_add_distrib, Finset.sum_sub_distrib, Finset.sum_sub_distrib, ← Finset.mul_sum,
    ← Finset.mul_sum, Finset.sum_const, Finset.card_range, nsmul_eq_mul]
  field_simp
  ring

/-- The double sum of Chebyshev's sum inequality. -/
theorem double_sum_identity (X Y : ℕ → ℝ) (n : ℕ) :
    (∑ i in Finset.range n, ∑ j in Finset.range n, (X i - X j) * (Y i - Y j)) =
      2 * ((n : ℝ) * (∑ i in Finset.range n, X i * Y i) -
        (∑ i in Finset.range n, X i) * (∑ i in Finset.range n, Y i)) := by
  have h1 : ∀ i j, (X i - X j) * (Y i - Y j) =
      X i * Y i - X i * Y j - Y i * X j + X j * Y j := by
    intro i j
    ring
  simp only [h1, Finset.sum_add_distrib, Finset.sum_sub_distrib, Finset.sum_const,
    Finset.card_range, nsmul_eq_mul, ← Finset.mul_sum, ← Finset.sum_mul]
  ring

/-- Two sequences that fall together, one of them strictly and the other not constant, have a
positive covariance sum. -/
theorem cov_pos_of_antitone (X Y : ℕ → ℝ) (n : ℕ)
    (hX : ∀ i j, i ≤ j → j < n → X j ≤ X i) (hY : ∀ i j, i < j → j < n → Y j < Y i)
    (hne : ∃ i j, i < n ∧ j < n ∧ X i ≠ X j) :
    0 < (n : ℝ) * (∑ i in Finset.range n, X i * Y i) -
      (∑ i in Finset.range n, X i) * (∑ i in Finset.range n, Y i) := by
  have hterm : ∀ i j, i < n → j < n → 0 ≤ (X i - X j) * (Y i - Y j) := by
    intro i j hi hj
    rcases Nat.lt_trichotomy i j with h | h | h
    · exact mul_nonneg (sub_nonneg.mpr (hX i j (le_of_lt h) hj))
        (sub_nonneg.mpr (le_of_lt (hY i j h hj)))
    · subst h
      simp
    · exact mul_nonneg_of_nonpos_of_nonpos (sub_nonpos.mpr (hX j i (le_of_lt h) hi))
        (sub_nonpos.mpr (le_of_lt (hY j i h hi)))
  have hstrict : ∀ i j, i < n → j < n → X i ≠ X j → 0 < (X i - X j) * (Y i - Y j) := by
    intro i j hi hj hij
    rcases Nat.lt_trichotomy i j with h | h | h
    · exact mul_pos (sub_pos.mpr (lt_of_le_of_ne (hX i j (le_of_lt h) hj) (Ne.symm hij)))
        (sub_pos.mpr (hY i j h hj))
    · subst h
      exact absurd rfl hij
    · exact mul_pos_of_neg_of_neg (sub_neg.mpr (lt_of_le_of_ne (hX j i (le_of_lt h) hi) hij))
        (sub_neg.mpr (hY j i h hi))
  obtain ⟨i0, j0, hi0, hj0, hij0⟩ := hne
  have hpos : 0 < ∑ i in Finset.range n, ∑ j in Finset.range n, (X i - X j) * (Y i - Y j) := by
    apply Finset.sum_pos'
    · intro i hi
      exact Finset.sum_nonneg fun j hj =>
        hterm i j (Finset.mem_range.mp hi) (Finset.mem_range.mp hj)
    · refine ⟨i0, Finset.mem_range.mpr hi0, ?_⟩
      apply Finset.sum_pos'
      · intro j hj
        exact hterm i0 j hi0 (Finset.mem_range.mp hj)
      · exact ⟨j0, Finset.mem_range.mpr hj0, hstrict i0 j0 hi0 hj0 hij0⟩
  rw [double_sum_identity] at hpos
  linarith

theorem weibull_Y_strict_anti (N i j : ℕ) (hij : i < j) (hj : j < N) :
    weibull_Y Real.log N j < weibull_Y Real.log N i := by
  have hi : i < N := lt_trans hij hj
  have hN : (0 : ℝ) < (N : ℝ) + 4 / 10 := by positivity
  have hlt : 1 - weibull_F_T (α := ℝ) N i < 1 - weibull_F_T (α := ℝ) N j := by
    rw [one_sub_weibull_F_T, one_sub_weibull_F_T]
    apply div_lt_div_of_pos_right _ hN
    have : (i : ℝ) < (j : ℝ) := by exact_mod_cast hij
    linarith
  have hlog : Real.log (1 - weibull_F_T (α := ℝ) N i) <
      Real.log (1 - weibull_F_T (α := ℝ) N j) :=
    Real.log_lt_log (one_sub_weibull_F_T_pos N i) hlt
  simp only [weibull_Y]
  exact Real.log_lt_log (neg_log_one_sub_F_T_pos N j hj) (neg_lt_neg hlog)

/-- The regression of a falling `X` against a strictly falling `Y`, when it returns: the
correlation is in `(0, 1]` and the slope is positive. -/
theorem weibull_regression_bounds (X Y : ℕ → ℝ) (n : ℕ)
    (hX : ∀ i j, i ≤ j → j < n → X j ≤ X i) (hY : ∀ i j, i < j → j < n → Y j < Y i)
    (eta beta correlation : ℝ)
    (h : weibull_regression Real.exp Real.sqrt X Y n = .ok (eta, beta, correlation)) :
    0 < correlation ∧ correlation ≤ 1 ∧ 0 < beta := by
  unfold weibull_regression at h
  dsimp only at h
  split_ifs at h with hden
  simp only [Except.ok.injEq, Prod.mk.injEq] at h
  obtain ⟨-, hbeta, hcorr⟩ := h
  have hnot := (not_congr (c_denom_zero_iff X Y n)).mp hden
  push_neg at hnot
  obtain ⟨⟨i0, hi0, j0, hj0, hij0⟩, -⟩ := hnot
  have hn : 0 < n := by omega
  have hn0 : (0 : ℝ) < (n : ℝ) := by exact_mod_cast hn
  have hcov := cov_pos_of_antitone X Y n hX hY ⟨i0, j0, hi0, hj0, hij0⟩
  have hbnum : 0 < (∑ idx in Finset.range n, X idx * Y idx) -
      (∑ i in Finset.range n, X i) * (∑ i in Finset.range n, Y i) / (n : ℝ) := by
    have : (∑ idx in Finset.range n, X idx * Y idx) -
        (∑ i in Finset.range n, X i) * (∑ i in Finset.range n, Y i) / (n : ℝ) =
        ((n : ℝ) * (∑ i in Finset.range n, X i * Y i) -
          (∑ i in Finset.range n, X i) * (∑ i in Finset.range n, Y i)) / (n : ℝ) := by
      field_simp
      ring
    rw [this]
    exact div_pos hcov hn0
  have hcX := sum_sq_dev_expand X n hn
  have hcXpos : 0 < (∑ idx in Finset.range n, X idx * X idx) -
      (∑ i in Finset.range n, X i) * (∑ i in Finset.range n, X i) / (n : ℝ) := by
    rw [← hcX]
    apply lt_of_le_of_ne (Finset.sum_nonneg fun i _ => mul_self_nonneg _)
    intro h0
    exact hij0 ((all_eq_mean_iff X n).mp ((sum_sq_dev_eq_zero_iff X n _).mp h0.symm)
      i0 hi0 j0 hj0)
  have hcnum := cov_expand X Y n hn
  have hdenpos : 0 < Real.sqrt
      ((∑ idx in Finset.range n,
          (X idx - (∑ i in Finset.range n, X i) / (n : ℝ)) *
            (X idx - (∑ i in Finset.range n, X i) / (n : ℝ))) *
        ∑ idx in Finset.range n,
          (Y idx - (∑ i in Finset.range n, Y i) / (n : ℝ)) *
            (Y idx - (∑ i in Finset.range n, Y i) / (n : ℝ))) :=
    lt_of_le_of_ne (Real.sqrt_nonneg _) (Ne.symm hden)
  have hnumpos : 0 < ∑ idx in Finset.range n,
      (X idx - (∑ i in Finset.range n, X i) / (n : ℝ)) *
        (Y idx - (∑ i in Finset.range n, Y i) / (n : ℝ)) := by
    rw [hcnum]
    exact hbnum
  have hcs := Finset.sum_mul_sq_le_sq_mul_sq (Finset.range n)
    (fun idx => X idx - (∑ i in Finset.range n, X i) / (n : ℝ))
    (fun idx => Y idx - (∑ i in Finset.range n, Y i) / (n : ℝ))
  simp only [pow_two] at hcs
  refine ⟨?_, ?_, ?_⟩
  · rw [← hcorr]
    exact div_pos hnumpos hdenpos
  · rw [← hcorr, div_le_one hdenpos]
    apply Real.le_sqrt_of_sq_le
    rw [pow_two]
    exact hcs
  · rw [← hbeta]
    exact div_pos hbnum hcXpos

/-- Claim C26.  Over the reals, for data that do not increase over the fit window
(`fit_data_points ≤ total_data_points`): every `F_i` with `i < total_data_points` lies
strictly between 0 and 1 and `-log(1 - F_i)` is positive, so every `Y_i` is the logarithm of
a positive number; and whenever `fit_two_parameter_weibull` returns (it does not end in the
fatal zero-denominator error), the returned correlation is in `(0, 1]` and the returned beta
is positive. -/
theorem fit_two_outputs_in_range (data : ℕ → ℝ) (k N : ℕ) (shift : ℝ) (hkN : k ≤ N)
    (hdesc : ∀ i j, i ≤ j → j < k → data j ≤ data i) (eta beta correlation : ℝ)
    (h : fit_two_parameter_weibull Real.log Real.exp Real.sqrt data k N shift
      = .ok (eta, beta, correlation)) :
    (∀ i, i < N → 0 < (weibull_F_T N i : ℝ) ∧ (weibull_F_T N i : ℝ) < 1 ∧
      0 < -Real.log (1 - (weibull_F_T N i : ℝ))) ∧
    0 < correlation ∧ correlation ≤ 1 ∧ 0 < beta := by
  constructor
  · intro i hi
    have h1 := one_sub_weibull_F_T_pos N i
    have h2 := one_sub_weibull_F_T_lt_one N i hi
    exact ⟨by linarith, by linarith, neg_log_one_sub_F_T_pos N i hi⟩
  · obtain ⟨-, hle, hX, -, -⟩ := weibull_X_loop_spec Real.log data shift k 0 (fun _ => 0)
    unfold fit_two_parameter_weibull at h
    dsimp only at h
    apply weibull_regression_bounds _ _ _ _ _ eta beta correlation h
    · intro i j hij hj
      rw [(hX i (Nat.zero_le _) (lt_of_le_of_lt hij hj)).2, (hX j (Nat.zero_le _) hj).2]
      apply Real.log_le_log (hX j (Nat.zero_le _) hj).1
      have := hdesc i j hij (by omega)
      linarith
    · intro i j hij hj
      exact weibull_Y_strict_anti N i j hij (by omega)

theorem fit_two_outputs_in_range_witness :
    (0 : ℝ) < 1 ∧ (1 : ℝ) ≤ 1 ∧
    fit_two_parameter_weibull Real.log Real.exp Real.sqrt
      (fun i => 1 * (-Real.log (1 - weibull_F_T (α := ℝ) 2 i)) ^ (1 / (1 : ℝ)) - 0) 2 2 0
      = .ok (1, 1, 1) := by
  have hfit := fit_two_on_shifted_quantiles
    (fun i => 1 * (-Real.log (1 - weibull_F_T (α := ℝ) 2 i)) ^ (1 / (1 : ℝ)) - 0) 2 2 1 1 0
    (le_refl 2) (le_refl 2) one_pos one_pos (fun i _ => by ring)
  have hdesc : ∀ i j : ℕ, i ≤ j → j < 2 →
      (fun i : ℕ => 1 * (-Real.log (1 - weibull_F_T (α := ℝ) 2 i)) ^ (1 / (1 : ℝ)) - 0) j ≤
      (fun i : ℕ => 1 * (-Real.log (1 - weibull_F_T (α := ℝ) 2 i)) ^ (1 / (1 : ℝ)) - 0) i := by
    intro i j hij hj
    simp only [one_mul, sub_zero, div_one, Real.rpow_one]
    rcases Nat.eq_or_lt_of_le hij with h | h
    · rw [h]
    · have hlt : 1 - weibull_F_T (α := ℝ) 2 i < 1 - weibull_F_T (α := ℝ) 2 j := by
        rw [one_sub_weibull_F_T, one_sub_weibull_F_T]
        apply div_lt_div_of_pos_right _ (by positivity)
        have : (i : ℝ) < (j : ℝ) := by exact_mod_cast h
        linarith
      exact le_of_lt (neg_lt_neg (Real.log_lt_log (one_sub_weibull_F_T_pos 2 i) hlt))
  have hb := fit_two_outputs_in_range _ 2 2 0 (le_refl 2) hdesc 1 1 1 hfit
  exact ⟨hb.2.1, hb.2.2.1, hfit⟩

/-! ## Theorems: quicksort -/

theorem Random_in_range (r : ℕ) (i j : ℤ) (h : i ≤ j) :
    i ≤ Random r i j ∧ Random r i j ≤ j := by
  have hm : 0 < j - i + 1 := by omega
  have h0 : 0 ≤ Int.tmod (r : ℤ) (j - i + 1) := Int.tmod_nonneg _ (Int.natCast_nonneg r)
  have h1 : Int.tmod (r : ℤ) (j - i + 1) < j - i + 1 := Int.tmod_lt_of_pos _ hm
  simp only [Random]
  constructor <;> omega

theorem swap_quick_apply (a : ℤ → ℚ) (i j k : ℤ) :
    swap_quick a i j k = a (Equiv.swap i j k) := by
  simp only [swap_quick]
  by_cases hkj : k = j
  · subst hkj
    rw [Function.update_same, Equiv.swap_apply_right]
  · rw [Function.update_noteq hkj]
    by_cases hki : k = i
    · subst hki
      rw [Function.update_same, Equiv.swap_apply_left]
    · rw [Function.update_noteq hki, Equiv.swap_apply_of_ne_of_ne hki hkj]

theorem permOn_refl (left right : ℤ) (a : ℤ → ℚ) : PermOn left right a a :=
  ⟨Equiv.refl ℤ, fun _ _ => rfl, fun _ => rfl⟩

theorem permOn_trans (left right : ℤ) (a b c : ℤ → ℚ) (h1 : PermOn left right a b)
    (h2 : PermOn left right b c) : PermOn left right a c := by
  obtain ⟨σ, hσ, hb⟩ := h1
  obtain ⟨τ, hτ, hc⟩ := h2
  refine ⟨τ.trans σ, ?_, ?_⟩
  · intro i hi
    simp only [Equiv.trans_apply]
    rw [hτ i hi, hσ i hi]
  · intro i
    simp only [Equiv.trans_apply]
    rw [hc i, hb (τ i)]

theorem permOn_mono (l1 r1 l2 r2 : ℤ) (a b : ℤ → ℚ) (hl : l2 ≤ l1) (hr : r1 ≤ r2)
    (h : PermOn l1 r1 a b) : PermOn l2 r2 a b := by
  obtain ⟨σ, hσ, hb⟩ := h
  exact ⟨σ, fun i hi => hσ i (fun hin => hi ⟨by omega, by omega⟩), hb⟩

theorem permOn_swap (left right : ℤ) (a : ℤ → ℚ) (i j : ℤ) (hi : left ≤ i ∧ i ≤ right)
    (hj : left ≤ j ∧ j ≤ right) : PermOn left right a (swap_quick a i j) := by
  refine ⟨Equiv.swap i j, ?_, fun k => swap_quick_apply a i j k⟩
  intro k hk
  apply Equiv.swap_apply_of_ne_of_ne
  · rintro rfl
    exact hk hi
  · rintro rfl
    exact hk hj

/-- Outside the range the array is unchanged. -/
theorem permOn_outside (left right : ℤ) (a b : ℤ → ℚ) (h : PermOn left right a b) (k : ℤ)
    (hk : ¬ (left ≤ k ∧ k ≤ right)) : b k = a k := by
  obtain ⟨σ, hσ, hb⟩ := h
  rw [hb k, hσ k hk]

/-- An entry inside the range comes from an entry inside the range. -/
theorem permOn_inside (left right : ℤ) (a b : ℤ → ℚ) (h : PermOn left right a b) (k : ℤ)
    (hk : left ≤ k ∧ k ≤ right) : ∃ m, (left ≤ m ∧ m ≤ right) ∧ b k = a m := by
  obtain ⟨σ, hσ, hb⟩ := h
  refine ⟨σ k, ?_, hb k⟩
  by_contra hout
  have h1 : σ (σ k) = σ k := hσ (σ k) hout
  have h2 : σ k = k := σ.injective h1
  rw [h2] at hout
  exact hout hk

/-- The partition loop: with `p = a[left]` the pivot, the entries after `left` up to `last`
are greater than `p` and those after `last` up to `right` are not. -/
theorem quick_sort_loop_spec (left right : ℤ) (p : ℚ) (n : ℕ) :
    ∀ (a : ℤ → ℚ) (last i : ℤ), i + n = right + 1 → left ≤ last → last < i →
      a left = p → (∀ k, left < k → k ≤ last → a k > p) → (∀ k, last < k → k < i → a k ≤ p) →
      PermOn (left + 1) right a (quick_sort_loop n a left last i).1 ∧
      left ≤ (quick_sort_loop n a left last i).2 ∧ (quick_sort_loop n a left last i).2 ≤ right ∧
      (quick_sort_loop n a left last i).1 left = p ∧
      (∀ k, left < k → k ≤ (quick_sort_loop n a left last i).2 →
        (quick_sort_loop n a left last i).1 k > p) ∧
      (∀ k, (quick_sort_loop n a left last i).2 < k → k ≤ right →
        (quick_sort_loop n a left last i).1 k ≤ p) := by
  induction n with
  | zero =>
    intro a last i hin hl hli hp hgt hle
    simp only [quick_sort_loop]
    simp only [Nat.cast_zero, add_zero] at hin
    exact ⟨permOn_refl _ _ _, hl, by omega, hp, hgt, fun k h1 h2 => hle k h1 (by omega)⟩
  | succ n ih =>
    intro a last i hin hl hli hp hgt hle
    push_cast at hin
    simp only [quick_sort_loop]
    by_cases hc : a i > a left
    · rw [if_pos hc]
      have hsw : ∀ k, swap_quick a (last + 1) i k = a (Equiv.swap (last + 1) i k) :=
        swap_quick_apply a (last + 1) i
      have hperm : PermOn (left + 1) right a (swap_quick a (last + 1) i) :=
        permOn_swap _ _ a _ _ ⟨by omega, by omega⟩ ⟨by omega, by omega⟩
      have hleft : swap_quick a (last + 1) i left = p := by
        rw [hsw, Equiv.swap_apply_of_ne_of_ne (by omega) (by omega), hp]
      obtain ⟨h1, h2, h3, h4, h5, h6⟩ := ih (swap_quick a (last + 1) i) (last + 1) (i + 1)
        (by omega) (by omega) (by omega) hleft
        (by
          intro k hk1 hk2
          rw [hsw]
          by_cases hk : k = last + 1
          · subst hk
            rw [Equiv.swap_apply_left]
            rw [hp] at hc
            exact hc
          · rw [Equiv.swap_apply_of_ne_of_ne hk (by omega)]
            exact hgt k hk1 (by omega))
        (by
          intro k hk1 hk2
          rw [hsw]
          by_cases hk : k = i
          · subst hk
            rw [Equiv.swap_apply_right]
            exact hle (last + 1) (by omega) (by omega)
          · rw [Equiv.swap_apply_of_ne_of_ne (by omega) hk]
            exact hle k (by omega) (by omega))
      exact ⟨permOn_trans _ _ _ _ _ hperm h1, by omega, h3, h4, h5, h6⟩
    · rw [if_neg hc]
      obtain ⟨h1, h2, h3, h4, h5, h6⟩ := ih a last (i + 1) (by omega) hl (by omega) hp hgt
        (by
          intro k hk1 hk2
          by_cases hk : k = i
          · subst hk
            rw [hp] at hc
            exact not_lt.mp hc
          · exact hle k hk1 (by omega))
      exact ⟨h1, h2, h3, h4, h5, h6⟩

/-- With enough fuel for the range, `quick_sort` returns, and the array it returns is the
input with the entries of the range rearranged into non-increasing order. -/
theorem quick_sort_spec (rand : ℕ → ℕ) (fuel : ℕ) :
    ∀ (a : ℤ → ℚ) (left right : ℤ) (calls : ℕ), right - left ≤ (fuel : ℤ) →
      ∃ b calls1, quick_sort rand fuel a left right calls = some (b, calls1) ∧
        PermOn left right a b ∧ SortedDesc left right b := by
  induction fuel with
  | zero =>
    intro a left right calls hf
    have hge : left ≥ right := by
      simp only [Nat.cast_zero] at hf
      omega
    refine ⟨a, calls, by simp only [quick_sort, if_pos hge], permOn_refl _ _ _, ?_⟩
    intro i j h1 h2 h3
    have : i = j := by omega
    rw [this]
  | succ fuel ih =>
    intro a left right calls hf
    push_cast at hf
    by_cases hge : left ≥ right
    · refine ⟨a, calls, by simp only [quick_sort, if_pos hge], permOn_refl _ _ _, ?_⟩
      intro i j h1 h2 h3
      have : i = j := by omega
      rw [this]
    · have hlt : left < right := not_le.mp hge
      have hR := Random_in_range (rand calls) left right (le_of_lt hlt)
      have hp1 : PermOn left right a (swap_quick a left (Random (rand calls) left right)) :=
        permOn_swap _ _ a _ _ ⟨le_refl _, le_of_lt hlt⟩ hR
      have hn : left + 1 + ((right - left).toNat : ℤ) = right + 1 := by
        rw [Int.toNat_of_nonneg (by omega)]
        ring
      obtain ⟨l1, l2, l3, l4, l5, l6⟩ := quick_sort_loop_spec left right
        (swap_quick a left (Random (rand calls) left right) left) (right - left).toNat
        (swap_quick a left (Random (rand calls) left right)) left (left + 1) hn (le_refl _)
        (by omega) rfl (fun k h1 h2 => by omega) (fun k h1 h2 => by omega)
      generalize hpv : swap_quick a left (Random (rand calls) left right) left = p at *
      generalize hr : quick_sort_loop (right - left).toNat
        (swap_quick a left (Random (rand calls) left right)) left left (left + 1) = r at *
      obtain ⟨a2, last⟩ := r
      simp only at l1 l2 l3 l4 l5 l6
      have hsw : ∀ k, swap_quick a2 left last k = a2 (Equiv.swap left last k) :=
        swap_quick_apply a2 left last
      have hp2 : PermOn left right a2 (swap_quick a2 left last) :=
        permOn_swap _ _ a2 _ _ ⟨le_refl _, le_of_lt hlt⟩ ⟨l2, l3⟩
      have h3last : swap_quick a2 left last last = p := by
        rw [hsw, Equiv.swap_apply_right, l4]
      have h3gt : ∀ k, left ≤ k → k ≤ last - 1 → swap_quick a2 left last k > p := by
        intro k hk1 hk2
        rw [hsw]
        by_cases hk : k = left
        · subst hk
          rw [Equiv.swap_apply_left]
          exact l5 last (by omega) (le_refl _)
        · rw [Equiv.swap_apply_of_ne_of_ne hk (by omega)]
          exact l5 k (by omega) (by omega)
      have h3le : ∀ k, last < k → k ≤ right → swap_quick a2 left last k ≤ p := by
        intro k hk1 hk2
        rw [hsw, Equiv.swap_apply_of_ne_of_ne (by omega) (by omega)]
        exact l6 k hk1 hk2
      obtain ⟨a3, calls3, hq1, hperm3, hsort3⟩ :=
        ih (swap_quick a2 left last) left (last - 1) (calls + 1) (by omega)
      obtain ⟨a4, calls4, hq2, hperm4, hsort4⟩ := ih a3 (last + 1) right calls3 (by omega)
      refine ⟨a4, calls4, ?_, ?_, ?_⟩
      · simp only [quick_sort, if_neg hge, hr, hq1, hq2]
      · exact permOn_trans _ _ _ _ _ hp1
          (permOn_trans _ _ _ _ _ (permOn_mono _ _ _ _ _ _ (by omega) (le_refl _) l1)
            (permOn_trans _ _ _ _ _ hp2
              (permOn_trans _ _ _ _ _ (permOn_mono _ _ _ _ _ _ (le_refl _) (by omega) hperm3)
                (permOn_mono _ _ _ _ _ _ (by omega) (le_refl _) hperm4))))
      · -- the entries of the three parts of the final array
        have e3last : a3 last = p := by
          rw [permOn_outside _ _ _ _ hperm3 last (by omega), h3last]
        have e3gt : ∀ k, left ≤ k → k ≤ last - 1 → a3 k > p := by
          intro k hk1 hk2
          obtain ⟨m, hm, hkm⟩ := permOn_inside _ _ _ _ hperm3 k ⟨hk1, hk2⟩
          rw [hkm]
          exact h3gt m hm.1 hm.2
        have e3le : ∀ k, last < k → k ≤ right → a3 k ≤ p := by
          intro k hk1 hk2
          rw [permOn_outside _ _ _ _ hperm3 k (by omega)]
          exact h3le k hk1 hk2
        have e4low : ∀ k, k ≤ last → a4 k = a3 k :=
          fun k hk => permOn_outside _ _ _ _ hperm4 k (by omega)
        have e4le : ∀ k, last < k → k ≤ right → a4 k ≤ p := by
          intro k hk1 hk2
          obtain ⟨m, hm, hkm⟩ := permOn_inside _ _ _ _ hperm4 k ⟨by omega, hk2⟩
          rw [hkm]
          exact e3le m (by omega) hm.2
        intro i j hi hij hj
        by_cases hjl : j ≤ last - 1
        · rw [e4low j (by omega), e4low i (by omega)]
          exact hsort3 i j hi hij hjl
        · by_cases hil : last + 1 ≤ i
          · exact hsort4 i j hil hij hj
          · -- `i ≤ last ≤ j`: the pivot value separates the two entries
            have hai : p ≤ a4 i := by
              rw [e4low i (by omega)]
              by_cases hi2 : i = last
              · rw [hi2, e3last]
              · exact le_of_lt (e3gt i hi (by omega))
            have haj : a4 j ≤ p := by
              by_cases hj2 : j = last
              · rw [hj2, e4low last (le_refl _), e3last]
              · exact e4le j (by omega) hj
            exact le_trans haj hai

/-- Claim C27.  For every array, every length `array_size` and every sequence of `rand()`
values: with fuel for the recursion depth (`array_size - 1` is enough) `quicksort` returns;
the array it returns is the input composed with a permutation of the indices that moves
only indices in `0..array_size-1`, and its entries at these indices are in non-increasing
order.  Whenever `left ≤ right`, the pivot index `Random(left, right)` lies in
`[left, right]`, whatever `rand()` returns. -/
theorem quicksort_sorts_descending (rand : ℕ → ℕ) (fuel : ℕ) (a : ℤ → ℚ) (array_size : ℤ)
    (hfuel : array_size - 1 ≤ (fuel : ℤ)) :
    (∃ b, quicksort rand fuel a array_size = some b ∧
      (∃ σ : Equiv.Perm ℤ, (∀ i, ¬ (0 ≤ i ∧ i < array_size) → σ i = i) ∧
        ∀ i, b i = a (σ i)) ∧
      (∀ i j, 0 ≤ i → i ≤ j → j < array_size → b j ≤ b i)) ∧
    (∀ (r : ℕ) (left right : ℤ), left ≤ right →
      left ≤ Random r left right ∧ Random r left right ≤ right) := by
  refine ⟨?_, fun r left right h => Random_in_range r left right h⟩
  obtain ⟨b, calls1, h1, ⟨σ, hσ, hb⟩, hs⟩ :=
    quick_sort_spec rand fuel a 0 (array_size - 1) 0 (by omega)
  refine ⟨b, by simp only [quicksort, h1, Option.map_some'], ⟨σ, ?_, hb⟩, ?_⟩
  · intro i hi
    exact hσ i (fun h => hi ⟨h.1, by omega⟩)
  · intro i j hi hij hj
    exact hs i j hi hij (by omega)

theorem quicksort_sorts_descending_witness :
    ∃ b, quicksort (fun n => 7 * n + 3) 2
        (fun i => if i = 0 then 1 else if i = 1 then 3 else 2) 3 = some b ∧
      (∀ i j, 0 ≤ i → i ≤ j → j < 3 → b j ≤ b i) := by
  obtain ⟨b, h1, -, h3⟩ := (quicksort_sorts_descending (fun n => 7 * n + 3) 2
    (fun i => if i = 0 then 1 else if i = 1 then 3 else 2) 3 (by norm_num)).1
  exact ⟨b, h1, h3⟩

end Crux
